import Mathlib

/-!
Verification of the composable binary codec library (mod.ts).

The development shallowly embeds the TypeScript source: byte buffers
(`Uint8Array`) become `List Nat` with every element below 256, JS numbers
become `Int` (the bitwise operators `&`, `|`, `<<`, `>>>` get their ECMA
32-bit semantics via explicit conversions), codecs become the inductive
type `Cd`, and runtime values become the inductive type `Val`.  Fallible
operations return `Except Err`.  Per the specification, the little-endian
fixed-width pack/unpack primitives and UTF-8 text conversion are external
collaborators assumed correct: a string value is represented directly by
its UTF-8 byte sequence, a float by its IEEE bit pattern.
-/

namespace CodecProof

/-- Error outcomes of the TypeScript code.  `invalidInput` is the
RangeError thrown by encodeVarInt, `truncated` covers the Incomplete
VarInt error and DataView out-of-range reads, `overflow` the two decode
RangeErrors, `invalidVariant` the two Enum errors, `rangeErr` the
RangeError thrown by TypedArray.set, `typeErr` a JS TypeError from
touching undefined, and `diverge` marks a source loop that never
terminates (the model returns it where the code would spin forever). -/
inductive Err where
  | invalidInput
  | truncated
  | overflow
  | invalidVariant
  | rangeErr
  | typeErr
  | diverge
deriving DecidableEq, Repr

/-- ECMA ToUint32: the argument modulo two to the 32. -/
def toUint32 (a : Int) : Nat := (a % (4294967296 : Int)).toNat

/-- ECMA ToInt32: low 32 bits of the argument, reinterpreted as signed. -/
def toInt32 (a : Int) : Int :=
  if toUint32 a < 2147483648 then (toUint32 a : Int)
  else (toUint32 a : Int) - 4294967296

/-- JS bitwise or: both operands through ToInt32, bitwise or of the
32-bit patterns, result reinterpreted as signed. -/
def jsOr (a b : Int) : Int := toInt32 ((toUint32 a ||| toUint32 b : Nat) : Int)

/-- JS bitwise and, 32-bit like `jsOr`. -/
def jsAnd (a b : Int) : Int := toInt32 ((toUint32 a &&& toUint32 b : Nat) : Int)

/-- JS left shift: 32-bit, shift count taken modulo 32. -/
def jsShl (a : Int) (n : Nat) : Int := toInt32 ((toUint32 a) <<< (n % 32) : Nat)

/-- JS unsigned right shift: ToUint32 then shift, result non-negative. -/
def jsShrU (a : Int) (n : Nat) : Nat := (toUint32 a) >>> (n % 32)

/-- Number.isSafeInteger, restricted to the integral values the model
represents: magnitude at most 2^53 - 1. -/
def isSafeInt (v : Int) : Bool := v.natAbs ≤ 9007199254740991

/-- The while loop of encodeVarInt.  Each pass pushes the low 7 bits of
the 32-bit pattern of the current value with the continuation bit set and
replaces the value by `value >>>= 7` (a 32-bit unsigned shift, so bits at
position 32 and above are dropped); the final byte has the bit clear. -/
def encodeVarIntLoop (v : Nat) : List Nat :=
  if h : 127 < v then
    ((v % 4294967296 &&& 127 ||| 128)) :: encodeVarIntLoop ((v % 4294967296) >>> 7)
  else
    [v % 4294967296 &&& 127]
termination_by v
decreasing_by
  rw [Nat.shiftRight_eq_div_pow]
  rcases Nat.lt_or_ge v 4294967296 with hv | hv
  · rw [Nat.mod_eq_of_lt hv]
    exact Nat.div_lt_self (by omega) (by norm_num)
  · calc v % 4294967296 / 2 ^ 7 ≤ v % 4294967296 := Nat.div_le_self _ _
      _ < 4294967296 := Nat.mod_lt _ (by norm_num)
      _ ≤ v := hv

/-- encodeVarInt: guards that the value is a non-negative safe integer
(RangeError otherwise), then runs the emission loop. -/
def encodeVarInt (value : Int) : Except Err (List Nat) :=
  if value < 0 ∨ ¬ isSafeInt value then .error .invalidInput
  else .ok (encodeVarIntLoop value.toNat)

/-- The for loop of decodeVarInt over the input bytes, carrying the JS
number `value`, the shift, and the byte count.  All arithmetic on `value`
is the 32-bit JS kind: `value |= (byte & 0x7F) << shift`. -/
def decodeVarIntLoop : List Nat → Int → Nat → Nat → Except Err (Int × Nat)
  | [], _, _, _ => .error .truncated
  | b :: rest, value, shift, bytesRead =>
    let value := jsOr value (jsShl ((b % 4294967296 &&& 127 : Nat) : Int) shift)
    let bytesRead := bytesRead + 1
    if b % 4294967296 &&& 128 = 0 then
      if isSafeInt value then .ok (value, bytesRead) else .error .overflow
    else
      let shift := shift + 7
      if 53 < shift then .error .overflow
      else decodeVarIntLoop rest value shift bytesRead

/-- decodeVarInt: run the loop from a zero accumulator; reaching the end
of the input without a terminating byte is the Incomplete VarInt error. -/
def decodeVarInt (data : List Nat) : Except Err (Int × Nat) :=
  decodeVarIntLoop data 0 0 0

/-- The default comparison used by Array.prototype.sort, restricted to the
strings that occur as field names: lexicographic on the character
sequences.  (JS compares UTF-16 code units; for the scalar values Lean
can store in a `Char` list the orders agree except between surrogate-range
and supplementary characters, which do not occur in source-code keys.) -/
def keyLe (a b : String) : Prop := a.data ≤ b.data

instance : DecidableRel keyLe :=
  fun a b => inferInstanceAs (Decidable (a.data ≤ b.data))

instance : IsTotal String keyLe :=
  ⟨fun a b => le_total a.data b.data⟩

instance : IsTrans String keyLe :=
  ⟨fun _ _ _ hab hbc => le_trans hab hbc⟩

instance : IsAntisymm String keyLe :=
  ⟨fun _ _ hab hba => String.ext (le_antisymm hab hba)⟩

/-- The codecs constructible from the public surface of the module: the
primitive singletons and the six composite constructors. -/
inductive Cd where
  | i8 | u8 | i16 | u16 | i32 | u32 | i64 | u64 | f32 | f64
  | bool
  | str
  | bytes
  | option (c : Cd)
  | tuple (cs : List Cd)
  | struct (fields : List (String × Cd))
  | vector (c : Cd)
  | enum (variants : List (String × Cd))
  | mapping (kc vc : Cd)
deriving Repr

/-- The JavaScript values the codecs operate on.  JS numbers are `Int`
(only integral numbers occur in the claims), bigints are `Int`, floats
are carried as their IEEE bit patterns (pack/unpack is an assumed-correct
external per the spec), strings as their UTF-8 byte sequences (TextEncoder
and TextDecoder are assumed-correct mutually inverse externals), objects
as ordered name-value lists, and Map values as ordered entry lists. -/
inductive Val where
  | num (n : Int)
  | big (n : Int)
  | f32bits (b : Nat)
  | f64bits (b : Nat)
  | bool (b : Bool)
  | str (bs : List Nat)
  | bytes (bs : List Nat)
  | vnull
  | tup (vs : List Val)
  | obj (kvs : List (String × Val))
  | vec (vs : List Val)
  | variant (k : String) (v : Val)
  | vmap (entries : List (Val × Val))
deriving Repr

theorem Cd.sizeOf_pos (c : Cd) : 0 < sizeOf c := by
  cases c <;> simp

theorem sizeOf_map_snd_le (fields : List (String × Cd)) :
    sizeOf (fields.map Prod.snd) ≤ sizeOf fields := by
  induction fields with
  | nil => simp
  | cons f rest ih =>
    obtain ⟨k, c⟩ := f
    simp only [List.map_cons, List.cons.sizeOf_spec, Prod.mk.sizeOf_spec]
    omega

theorem sizeOf_lookup_lt {vs : List (String × Cd)} {k : String} {c : Cd}
    (h : vs.lookup k = some c) : sizeOf c < sizeOf vs := by
  induction vs with
  | nil => simp [List.lookup] at h
  | cons f rest ih =>
    obtain ⟨k2, c2⟩ := f
    simp only [List.lookup] at h
    by_cases hk : (k == k2)
    · simp [hk] at h
      subst h
      simp only [List.cons.sizeOf_spec, Prod.mk.sizeOf_spec]
      omega
    · simp [hk] at h
      have := ih h
      simp only [List.cons.sizeOf_spec, Prod.mk.sizeOf_spec]
      omega

mutual

/-- The stride of each codec class.  For Tuple it is the constructor loop:
start from zero, add each child stride, bail out with -1 at the first
variable child; Struct delegates to the Tuple over its field codecs. -/
def stride : Cd → Int
  | .i8 => 1 | .u8 => 1
  | .i16 => 2 | .u16 => 2
  | .i32 => 4 | .u32 => 4
  | .i64 => 8 | .u64 => 8
  | .f32 => 4 | .f64 => 8
  | .bool => 1
  | .str => -1
  | .bytes => -1
  | .option _ => -1
  | .tuple cs => strideList cs 0
  | .struct fields => strideList (fields.map Prod.snd) 0
  | .vector _ => -1
  | .enum _ => -1
  | .mapping _ _ => -1
termination_by c => sizeOf c
decreasing_by
  all_goals simp_wf
  all_goals first
    | omega
    | exact lt_of_le_of_lt (sizeOf_map_snd_le _) (by omega)

/-- The running sum in the Tuple constructor loop. -/
def strideList : List Cd → Int → Int
  | [], acc => acc
  | c :: rest, acc => if stride c < 0 then -1 else strideList rest (acc + stride c)
termination_by cs _ => sizeOf cs
decreasing_by
  all_goals simp_wf
  all_goals omega

end

mutual

/-- Structural equality of runtime values, playing the role of the
SameValueZero and deep-equality comparisons of the host language.  (JS
compares objects by identity; the model is structural, which agrees with
identity on every value a decoder can hand back to the same call.) -/
def beqVal : Val → Val → Bool
  | .num a, .num b => a == b
  | .big a, .big b => a == b
  | .f32bits a, .f32bits b => a == b
  | .f64bits a, .f64bits b => a == b
  | .bool a, .bool b => a == b
  | .str a, .str b => a == b
  | .bytes a, .bytes b => a == b
  | .vnull, .vnull => true
  | .tup as, .tup bs => beqValList as bs
  | .obj as, .obj bs => beqKVList as bs
  | .vec as, .vec bs => beqValList as bs
  | .variant k v, .variant k2 v2 => k == k2 && beqVal v v2
  | .vmap as, .vmap bs => beqPairList as bs
  | _, _ => false
termination_by a _ => (sizeOf a, 0)
decreasing_by all_goals (simp_wf; omega)

/-- Pointwise equality of value lists. -/
def beqValList : List Val → List Val → Bool
  | [], [] => true
  | a :: as2, b :: bs2 => beqVal a b && beqValList as2 bs2
  | _, _ => false
termination_by as2 _ => (sizeOf as2, 0)
decreasing_by all_goals (simp_wf; omega)

/-- Pointwise equality of name-value lists. -/
def beqKVList : List (String × Val) → List (String × Val) → Bool
  | [], [] => true
  | (k, a) :: as2, (k2, b) :: bs2 => k == k2 && beqVal a b && beqKVList as2 bs2
  | _, _ => false
termination_by as2 _ => (sizeOf as2, 0)
decreasing_by all_goals (simp_wf; omega)

/-- Pointwise equality of entry lists. -/
def beqPairList : List (Val × Val) → List (Val × Val) → Bool
  | [], [] => true
  | (k, a) :: as2, (k2, b) :: bs2 => beqVal k k2 && beqVal a b && beqPairList as2 bs2
  | _, _ => false
termination_by as2 _ => (sizeOf as2, 0)
decreasing_by all_goals (simp_wf; omega)

end

/-- Map.prototype.set: update the value in place when the key is already
present, append the entry otherwise. -/
def mapSet (m : List (Val × Val)) (k v : Val) : List (Val × Val) :=
  match m with
  | [] => [(k, v)]
  | (k2, v2) :: rest =>
    if beqVal k2 k then (k2, v) :: rest else (k2, v2) :: mapSet rest k v

/-- Constructing a Map from an entry iterable: set each entry in order,
so a later duplicate key overwrites the earlier value in place. -/
def mapFromEntries (es : List (Val × Val)) : List (Val × Val) :=
  es.foldl (fun m e => mapSet m e.1 e.2) []

/-- DataView setters wrap their argument modulo 2 to the bit width. -/
def wrapBits (bits : Nat) (n : Int) : Nat := (n % ((2 : Int) ^ bits)).toNat

/-- Little-endian bytes of a fixed-width value, as DataView stores them. -/
def leBytes : Nat → Nat → List Nat
  | 0, _ => []
  | w + 1, n => (n % 256) :: leBytes w (n / 256)

/-- Little-endian read of a byte list, as DataView getters read. -/
def fromLEU : List Nat → Nat
  | [] => 0
  | b :: rest => b + 256 * fromLEU rest

/-- Reinterpret an unsigned fixed-width pattern as two-complement signed. -/
def asSigned (bits : Nat) (u : Nat) : Int :=
  if u < 2 ^ (bits - 1) then (u : Int) else (u : Int) - (2 : Int) ^ bits

/-- ECMA TypedArray.subarray with its clamping rules: a negative index
counts from the end of the view, indices are clamped into the view, and
the result is empty when the clamped end does not exceed the begin. -/
def jsSubarray (data : List Nat) (b e : Int) : List Nat :=
  (data.take
      (if e < 0 then max ((data.length : Int) + e) 0
        else min e (data.length : Int)).toNat).drop
    (if b < 0 then max ((data.length : Int) + b) 0
      else min b (data.length : Int)).toNat

/-- subarray with only a begin index: the view runs to the end. -/
def jsSubarrayFrom (data : List Nat) (b : Int) : List Nat :=
  jsSubarray data b data.length

/-- TypedArray.set: overwrite the buffer from the given offset, a
RangeError when the part does not fit before the end of the buffer. -/
def typedArraySet (buf part : List Nat) (off : Nat) : Except Err (List Nat) :=
  if off + part.length ≤ buf.length then
    .ok (buf.take off ++ part ++ buf.drop (off + part.length))
  else .error .rangeErr

/-- The fixed-stride Vector and Mapping encode loop: write each encoded
part at offset index times stride into the preallocated zero buffer. -/
def setAllGo (s : Nat) : List (List Nat) → List Nat → Nat → Except Err (List Nat)
  | [], buf, _ => .ok buf
  | p :: ps, buf, off => do
    let buf2 ← typedArraySet buf p off
    setAllGo s ps buf2 (off + s)

/-- The Enum constructor: Object.keys(variants).sort(). -/
def sortKeys (variants : List (String × Cd)) : List String :=
  (variants.map Prod.fst).insertionSort keyLe

/-- Project the fields of a JS object in the order of the given keys;
none when some key is missing (the source would read undefined). -/
def lookupAllFields (keys : List String) (kvs : List (String × Val)) : Option (List Val) :=
  keys.mapM (fun k => kvs.lookup k)

mutual

/-- encode of every codec class, one case per source encode method.  The
integer and float primitives store the wrapped little-endian pattern of
the value (DataView semantics), bool stores one byte, str and bytes pass
their byte sequence through, Option prefixes a presence byte, Tuple
concatenates its parts (variable-stride parts preceded by a varint byte
length), Struct projects the object through its Tuple, Vector selects the
packed or the varint-delimited layout by child stride, Enum emits the
sorted-name index byte (through a Uint8Array, hence modulo 256) followed
by the payload, and Mapping encodes its entries as the Vector of the
two-element Tuple.  A value whose shape does not match the codec maps to
a type error. -/
def encode : Cd → Val → Except Err (List Nat)
  | .i8, .num n => .ok (leBytes 1 (wrapBits 8 n))
  | .u8, .num n => .ok (leBytes 1 (wrapBits 8 n))
  | .i16, .num n => .ok (leBytes 2 (wrapBits 16 n))
  | .u16, .num n => .ok (leBytes 2 (wrapBits 16 n))
  | .i32, .num n => .ok (leBytes 4 (wrapBits 32 n))
  | .u32, .num n => .ok (leBytes 4 (wrapBits 32 n))
  | .i64, .big n => .ok (leBytes 8 (wrapBits 64 n))
  | .u64, .big n => .ok (leBytes 8 (wrapBits 64 n))
  | .f32, .f32bits b => .ok (leBytes 4 (b % 2 ^ 32))
  | .f64, .f64bits b => .ok (leBytes 8 (b % 2 ^ 64))
  | .bool, .bool b => .ok [if b then 1 else 0]
  | .str, .str bs => .ok bs
  | .bytes, .bytes bs => .ok bs
  | .option _, .vnull => .ok [0]
  | .option c, v => (encode c v).map (fun part => 1 :: part)
  | .tuple cs, .tup vs => (encodeTupleParts cs vs).map List.flatten
  | .struct fields, .obj kvs =>
    match lookupAllFields (fields.map Prod.fst) kvs with
    | none => .error .typeErr
    | some vsOrdered => (encodeTupleParts (fields.map Prod.snd) vsOrdered).map List.flatten
  | .vector c, .vec vs =>
    if 0 ≤ stride c then do
      let parts ← encodeListFixed c vs
      setAllGo (stride c).toNat parts (List.replicate (vs.length * (stride c).toNat) 0) 0
    else
      (encodeVecVar c vs).map List.flatten
  | .enum vs, .variant k v =>
    match (sortKeys vs).indexOf? k with
    | none => .error .invalidVariant
    | some index =>
      match hc : vs.lookup k with
      | none => .error .typeErr
      | some c => do
        let part ← encode c v
        .ok ((index :: part).map (fun b => b % 256))
  | .mapping kc vc, .vmap es =>
    if 0 ≤ strideList [kc, vc] 0 then do
      let parts ← encodeMapFixed kc vc es
      setAllGo (strideList [kc, vc] 0).toNat parts
        (List.replicate (es.length * (strideList [kc, vc] 0).toNat) 0) 0
    else
      (encodeMapVar kc vc es).map List.flatten
  | _, _ => .error .typeErr
termination_by c _ => (sizeOf c, 0)
decreasing_by
  all_goals simp_wf
  all_goals first
    | omega
    | (refine Prod.Lex.left _ _ ?_; omega)
    | (refine Prod.Lex.left _ _ ?_
       exact lt_of_le_of_lt (sizeOf_map_snd_le _) (by omega))
    | (refine Prod.Lex.left _ _ ?_
       exact lt_of_lt_of_le (sizeOf_lookup_lt hc) (by omega))

/-- The parts array built by the Tuple encode loop: for each child in
declaration order, the encoded part, preceded by its varint byte length
when the child stride is variable. -/
def encodeTupleParts : List Cd → List Val → Except Err (List (List Nat))
  | [], _ => .ok []
  | _ :: _, [] => .error .typeErr
  | c :: cs, v :: vs => do
    let part ← encode c v
    if stride c < 0 then
      let pre ← encodeVarInt (part.length : Int)
      let rest ← encodeTupleParts cs vs
      .ok (pre :: part :: rest)
    else
      let rest ← encodeTupleParts cs vs
      .ok (part :: rest)
termination_by cs _ => (sizeOf cs, 0)
decreasing_by
  all_goals simp_wf
  all_goals first
    | omega
    | (refine Prod.Lex.left _ _ ?_; omega)

/-- The fixed-stride Vector encode loop body: the per-element parts. -/
def encodeListFixed : Cd → List Val → Except Err (List (List Nat))
  | _, [] => .ok []
  | c, v :: vs => do
    let part ← encode c v
    let rest ← encodeListFixed c vs
    .ok (part :: rest)
termination_by c vs => (sizeOf c, vs.length + 1)
decreasing_by
  all_goals simp_wf
  all_goals first
    | (refine Prod.Lex.right _ ?_; omega)
    | (refine Prod.Lex.left _ _ ?_; omega)
    | omega

/-- The variable-stride Vector encode loop: per element, the varint byte
length part followed by the encoded part. -/
def encodeVecVar : Cd → List Val → Except Err (List (List Nat))
  | _, [] => .ok []
  | c, v :: vs => do
    let part ← encode c v
    let pre ← encodeVarInt (part.length : Int)
    let rest ← encodeVecVar c vs
    .ok (pre :: part :: rest)
termination_by c vs => (sizeOf c, vs.length + 1)
decreasing_by
  all_goals simp_wf
  all_goals first
    | (refine Prod.Lex.right _ ?_; omega)
    | (refine Prod.Lex.left _ _ ?_; omega)
    | omega

/-- One Mapping entry through the two-element Tuple of the key and value
codecs: each half is length-prefixed exactly when its stride is
variable. -/
def encodePair (kc vc : Cd) (a b : Val) : Except Err (List Nat) := do
  let pk ← encode kc a
  let p1 ← (if stride kc < 0 then (encodeVarInt (pk.length : Int)).map (fun pre => pre ++ pk) else .ok pk)
  let pv ← encode vc b
  let p2 ← (if stride vc < 0 then (encodeVarInt (pv.length : Int)).map (fun pre => pre ++ pv) else .ok pv)
  .ok (p1 ++ p2)
termination_by (sizeOf kc + sizeOf vc, 1)
decreasing_by
  all_goals simp_wf
  all_goals refine Prod.Lex.left _ _ ?_
  all_goals have h1 := Cd.sizeOf_pos kc
  all_goals have h2 := Cd.sizeOf_pos vc
  all_goals omega

/-- The fixed-stride Mapping encode loop body: per-entry parts. -/
def encodeMapFixed (kc vc : Cd) : List (Val × Val) → Except Err (List (List Nat))
  | [] => .ok []
  | (a, b) :: es => do
    let part ← encodePair kc vc a b
    let rest ← encodeMapFixed kc vc es
    .ok (part :: rest)
termination_by es => (sizeOf kc + sizeOf vc, es.length + 2)
decreasing_by
  all_goals simp_wf
  all_goals refine Prod.Lex.right _ ?_
  all_goals omega

/-- The variable-stride Mapping encode loop: varint length then entry. -/
def encodeMapVar (kc vc : Cd) : List (Val × Val) → Except Err (List (List Nat))
  | [] => .ok []
  | (a, b) :: es => do
    let part ← encodePair kc vc a b
    let pre ← encodeVarInt (part.length : Int)
    let rest ← encodeMapVar kc vc es
    .ok (pre :: part :: rest)
termination_by es => (sizeOf kc + sizeOf vc, es.length + 2)
decreasing_by
  all_goals simp_wf
  all_goals refine Prod.Lex.right _ ?_
  all_goals omega

end

/-- Iteration budget for the variable-stride Vector and Mapping decode
loops.  On well-formed input every pass consumes at least one byte, so a
budget beyond the buffer length is never touched.  On malformed input the
varint can decode to a negative length (32-bit overflow), the offset can
move backward, and the source loop can spin forever; a terminating run
still visits each offset at most once, offsets below minus the length
advance by a fixed step, and one backward jump is bounded by 2^31, so
fewer than (length + 2) * 2^33 passes happen in any run that returns.
Exhausting the budget therefore means the source never returns. -/
def vecFuel (n : Nat) : Nat := (n + 2) * 8589934592

mutual

/-- decode of every codec class, one case per source decode method.  The
fixed-width primitives read through a DataView (RangeError when the
buffer is shorter than the width), bool tests the first byte against
zero (an empty buffer reads undefined, and undefined differs from 0, so
it decodes to true), str and bytes return the buffer, Option dispatches
on the presence byte, Tuple and Struct walk their children with an
offset, Vector selects the packed or the varint-delimited loop by child
stride (a zero child stride makes the packed while-loop condition
permanently true, so the call never returns), Enum reads the index byte
and delegates to the variant at that sorted position, and Mapping decodes
the Vector of the two-element Tuple and rebuilds the Map. -/
def decode : Cd → List Nat → Except Err Val
  | .i8, data =>
    if data.length < 1 then .error .truncated
    else .ok (.num (asSigned 8 (fromLEU (data.take 1))))
  | .u8, data =>
    if data.length < 1 then .error .truncated
    else .ok (.num (fromLEU (data.take 1)))
  | .i16, data =>
    if data.length < 2 then .error .truncated
    else .ok (.num (asSigned 16 (fromLEU (data.take 2))))
  | .u16, data =>
    if data.length < 2 then .error .truncated
    else .ok (.num (fromLEU (data.take 2)))
  | .i32, data =>
    if data.length < 4 then .error .truncated
    else .ok (.num (asSigned 32 (fromLEU (data.take 4))))
  | .u32, data =>
    if data.length < 4 then .error .truncated
    else .ok (.num (fromLEU (data.take 4)))
  | .i64, data =>
    if data.length < 8 then .error .truncated
    else .ok (.big (asSigned 64 (fromLEU (data.take 8))))
  | .u64, data =>
    if data.length < 8 then .error .truncated
    else .ok (.big (fromLEU (data.take 8)))
  | .f32, data =>
    if data.length < 4 then .error .truncated
    else .ok (.f32bits (fromLEU (data.take 4)))
  | .f64, data =>
    if data.length < 8 then .error .truncated
    else .ok (.f64bits (fromLEU (data.take 8)))
  | .bool, data =>
    match data with
    | [] => .ok (.bool true)
    | b :: _ => .ok (.bool (b != 0))
  | .str, data => .ok (.str data)
  | .bytes, data => .ok (.bytes data)
  | .option c, data =>
    match data with
    | 0 :: _ => .ok .vnull
    | _ => decode c (data.drop 1)
  | .tuple cs, data => (decodeTupleLoop cs data 0).map .tup
  | .struct fields, data =>
    (decodeTupleLoop (fields.map Prod.snd) data 0).map
      (fun vals => .obj ((fields.map Prod.fst).zip vals))
  | .vector c, data =>
    if 0 ≤ stride c then
      if stride c = 0 then .error .diverge
      else (decodeVecFixed c (stride c).toNat data 0).map .vec
    else (decodeVecVar c data 0 (vecFuel data.length)).map .vec
  | .enum vs, data =>
    match data with
    | [] => .error .typeErr
    | b :: rest =>
      if h : b < (sortKeys vs).length then
        match hc : vs.lookup ((sortKeys vs).get ⟨b, h⟩) with
        | none => .error .typeErr
        | some c => (decode c rest).map (.variant ((sortKeys vs).get ⟨b, h⟩))
      else .error .invalidVariant
  | .mapping kc vc, data =>
    if 0 ≤ strideList [kc, vc] 0 then
      if strideList [kc, vc] 0 = 0 then .error .diverge
      else
        (decodeMapFixed kc vc (strideList [kc, vc] 0).toNat data 0).map
          (fun es => .vmap (mapFromEntries es))
    else
      (decodeMapVar kc vc data 0 (vecFuel data.length)).map
        (fun es => .vmap (mapFromEntries es))
termination_by c _ => (sizeOf c, 0)
decreasing_by
  all_goals simp_wf
  all_goals first
    | omega
    | (refine Prod.Lex.left _ _ ?_; omega)
    | (refine Prod.Lex.left _ _ ?_
       exact lt_of_le_of_lt (sizeOf_map_snd_le _) (by omega))
    | (refine Prod.Lex.left _ _ ?_
       exact lt_of_lt_of_le (sizeOf_lookup_lt hc) (by omega))
    | (refine Prod.Lex.right _ ?_; omega)

/-- The Tuple decode loop: per child, consume the fixed stride, or a
varint length and then that many bytes, slicing with subarray. -/
def decodeTupleLoop : List Cd → List Nat → Int → Except Err (List Val)
  | [], _, _ => .ok []
  | c :: cs, data, offset =>
    if stride c < 0 then do
      let (len, k) ← decodeVarInt (jsSubarrayFrom data offset)
      let part := jsSubarray data (offset + k) (offset + k + len)
      let v ← decode c part
      let rest ← decodeTupleLoop cs data (offset + k + len)
      .ok (v :: rest)
    else do
      let part := jsSubarray data offset (offset + stride c)
      let v ← decode c part
      let rest ← decodeTupleLoop cs data (offset + stride c)
      .ok (v :: rest)
termination_by cs _ _ => (sizeOf cs, 0)
decreasing_by
  all_goals simp_wf
  all_goals first
    | omega
    | (refine Prod.Lex.left _ _ ?_; omega)

/-- The packed Vector decode loop, entered only for a positive stride:
slice stride-byte chunks while a full chunk remains.  (For stride zero
the source loop never exits; decode answers diverge before coming
here.) -/
def decodeVecFixed (c : Cd) (s : Nat) (data : List Nat) (offset : Nat) : Except Err (List Val) :=
  if 1 ≤ s ∧ offset + s ≤ data.length then do
    let part := jsSubarray data (offset : Int) ((offset : Int) + (s : Int))
    let v ← decode c part
    let rest ← decodeVecFixed c s data (offset + s)
    .ok (v :: rest)
  else .ok []
termination_by (sizeOf c, data.length + 1 - offset)
decreasing_by
  all_goals simp_wf
  all_goals first
    | (refine Prod.Lex.left _ _ ?_; omega)
    | (refine Prod.Lex.right _ ?_; omega)

/-- The varint-delimited Vector decode loop: while bytes remain, read a
varint length, slice that many bytes, decode an element.  The budget
turns a non-returning source loop into the diverge error. -/
def decodeVecVar (c : Cd) (data : List Nat) (offset : Int) (fuel : Nat) : Except Err (List Val) :=
  if offset < (data.length : Int) then
    if fuel = 0 then .error .diverge
    else do
      let (len, k) ← decodeVarInt (jsSubarrayFrom data offset)
      let part := jsSubarray data (offset + k) (offset + k + len)
      let v ← decode c part
      let rest ← decodeVecVar c data (offset + k + len) (fuel - 1)
      .ok (v :: rest)
  else .ok []
termination_by (sizeOf c, fuel + 1)
decreasing_by
  all_goals simp_wf
  all_goals first
    | (refine Prod.Lex.left _ _ ?_; omega)
    | (refine Prod.Lex.right _ ?_; omega)

/-- One Mapping entry through the two-element Tuple of the key and value
codecs, on its own slice. -/
def decodePair (kc vc : Cd) (data : List Nat) : Except Err (Val × Val) := do
  let (off1, a) ←
    (if stride kc < 0 then do
      let (len, k) ← decodeVarInt (jsSubarrayFrom data 0)
      let part := jsSubarray data k (k + len)
      let v ← decode kc part
      .ok (((k : Int) + len, v))
    else do
      let part := jsSubarray data 0 (stride kc)
      let v ← decode kc part
      .ok ((stride kc, v)))
  let b ←
    (if stride vc < 0 then do
      let (len, k) ← decodeVarInt (jsSubarrayFrom data off1)
      let part := jsSubarray data (off1 + k) (off1 + k + len)
      decode vc part
    else do
      let part := jsSubarray data off1 (off1 + stride vc)
      decode vc part)
  .ok (a, b)
termination_by (sizeOf kc + sizeOf vc, 1)
decreasing_by
  all_goals simp_wf
  all_goals refine Prod.Lex.left _ _ ?_
  all_goals have h1 := Cd.sizeOf_pos kc
  all_goals have h2 := Cd.sizeOf_pos vc
  all_goals omega

/-- The packed Mapping decode loop: stride-sized entry chunks. -/
def decodeMapFixed (kc vc : Cd) (s : Nat) (data : List Nat) (offset : Nat) :
    Except Err (List (Val × Val)) :=
  if 1 ≤ s ∧ offset + s ≤ data.length then do
    let part := jsSubarray data (offset : Int) ((offset : Int) + (s : Int))
    let e ← decodePair kc vc part
    let rest ← decodeMapFixed kc vc s data (offset + s)
    .ok (e :: rest)
  else .ok []
termination_by (sizeOf kc + sizeOf vc, 2 * (data.length + 1 - offset) + 2)
decreasing_by
  all_goals simp_wf
  all_goals refine Prod.Lex.right _ ?_
  all_goals omega

/-- The varint-delimited Mapping decode loop. -/
def decodeMapVar (kc vc : Cd) (data : List Nat) (offset : Int) (fuel : Nat) :
    Except Err (List (Val × Val)) :=
  if offset < (data.length : Int) then
    if fuel = 0 then .error .diverge
    else do
      let (len, k) ← decodeVarInt (jsSubarrayFrom data offset)
      let part := jsSubarray data (offset + k) (offset + k + len)
      let e ← decodePair kc vc part
      let rest ← decodeMapVar kc vc data (offset + k + len) (fuel - 1)
      .ok (e :: rest)
  else .ok []
termination_by (sizeOf kc + sizeOf vc, fuel + 2)
decreasing_by
  all_goals simp_wf
  all_goals refine Prod.Lex.right _ ?_
  all_goals omega

end

/-- Key distinctness for Map values: no two entries whose keys compare
equal. -/
def distinctKeys : List Val → Bool
  | [] => true
  | k :: rest => rest.all (fun k2 => !(beqVal k k2)) && distinctKeys rest

mutual

/-- The declared domain of each codec: the values its documentation
promises to round-trip.  Numbers must lie in the representable range of
their width, strings and byte blobs hold bytes, an Option value is null
or a non-null value of the child domain (the host type T-or-null
collapses nested nulls), composites are componentwise, an object is in a
Struct domain when its fields are exactly the declared ones in
declaration order (the model of JS objects is canonical up to key
order), an Enum value names a registered variant, and a Map has
distinct keys with both halves in their domains. -/
def domain : Cd → Val → Bool
  | .i8, .num n => decide (-128 ≤ n ∧ n ≤ 127)
  | .u8, .num n => decide (0 ≤ n ∧ n < 256)
  | .i16, .num n => decide (-32768 ≤ n ∧ n ≤ 32767)
  | .u16, .num n => decide (0 ≤ n ∧ n < 65536)
  | .i32, .num n => decide (-2147483648 ≤ n ∧ n ≤ 2147483647)
  | .u32, .num n => decide (0 ≤ n ∧ n < 4294967296)
  | .i64, .big n => decide (-(2 : Int) ^ 63 ≤ n ∧ n ≤ 2 ^ 63 - 1)
  | .u64, .big n => decide (0 ≤ n ∧ n < 2 ^ 64)
  | .f32, .f32bits b => decide (b < 2 ^ 32)
  | .f64, .f64bits b => decide (b < 2 ^ 64)
  | .bool, .bool _ => true
  | .str, .str bs => bs.all (fun b => b < 256)
  | .bytes, .bytes bs => bs.all (fun b => b < 256)
  | .option _, .vnull => true
  | .option c, v => domain c v
  | .tuple cs, .tup vs => domainList cs vs
  | .struct fields, .obj kvs => domainFields fields kvs
  | .vector c, .vec vs => domainElems c vs
  | .enum vs, .variant k v =>
    match hc : vs.lookup k with
    | none => false
    | some c => domain c v
  | .mapping kc vc, .vmap es =>
    domainPairs kc vc es && distinctKeys (es.map Prod.fst)
  | _, _ => false
termination_by c _ => (sizeOf c, 0)
decreasing_by
  all_goals simp_wf
  all_goals first
    | omega
    | (refine Prod.Lex.left _ _ ?_; omega)
    | (refine Prod.Lex.left _ _ ?_
       exact lt_of_lt_of_le (sizeOf_lookup_lt hc) (by omega))
    | (refine Prod.Lex.right _ ?_; omega)

/-- Componentwise domain for Tuple values, requiring equal lengths. -/
def domainList : List Cd → List Val → Bool
  | [], [] => true
  | [], _ :: _ => false
  | _ :: _, [] => false
  | c :: cs, v :: vs => domain c v && domainList cs vs
termination_by cs _ => (sizeOf cs, 0)
decreasing_by
  all_goals simp_wf
  all_goals first
    | omega
    | (refine Prod.Lex.left _ _ ?_; omega)

/-- Domain for Struct values: field names in declaration order, each
value in the domain of its codec. -/
def domainFields : List (String × Cd) → List (String × Val) → Bool
  | [], [] => true
  | [], _ :: _ => false
  | _ :: _, [] => false
  | (k, c) :: fs, (k2, v) :: kvs => k == k2 && domain c v && domainFields fs kvs
termination_by fs _ => (sizeOf fs, 0)
decreasing_by
  all_goals simp_wf
  all_goals first
    | omega
    | (refine Prod.Lex.left _ _ ?_; omega)

/-- Elementwise domain for Vector values. -/
def domainElems : Cd → List Val → Bool
  | _, [] => true
  | c, v :: vs => domain c v && domainElems c vs
termination_by c vs => (sizeOf c, vs.length + 1)
decreasing_by
  all_goals simp_wf
  all_goals first
    | (refine Prod.Lex.left _ _ ?_; omega)
    | (refine Prod.Lex.right _ ?_; omega)

/-- Entrywise domain for Mapping values. -/
def domainPairs (kc vc : Cd) : List (Val × Val) → Bool
  | [] => true
  | (a, b) :: es => domain kc a && domain vc b && domainPairs kc vc es
termination_by es => (sizeOf kc + sizeOf vc, es.length + 2)
decreasing_by
  all_goals simp_wf
  all_goals have h1 := Cd.sizeOf_pos kc
  all_goals have h2 := Cd.sizeOf_pos vc
  all_goals first
    | (refine Prod.Lex.left _ _ ?_; omega)
    | (refine Prod.Lex.right _ ?_; omega)

end

mutual

/-- Every key list of a struct or enum node has no duplicate names:
object literals cannot declare a key twice, so only such codecs are
constructible from the public surface. -/
def uniqKeys : Cd → Bool
  | .option c => uniqKeys c
  | .tuple cs => uniqList cs
  | .struct fields =>
    decide ((fields.map Prod.fst).Nodup) && uniqList (fields.map Prod.snd)
  | .vector c => uniqKeys c
  | .enum vs =>
    decide ((vs.map Prod.fst).Nodup) && uniqList (vs.map Prod.snd)
  | .mapping kc vc => uniqKeys kc && uniqKeys vc
  | _ => true
termination_by c => (sizeOf c, 0)
decreasing_by
  all_goals simp_wf
  all_goals first
    | omega
    | (refine Prod.Lex.left _ _ ?_; omega)
    | (refine Prod.Lex.left _ _ ?_
       exact lt_of_le_of_lt (sizeOf_map_snd_le _) (by omega))
    | (refine Prod.Lex.right _ ?_; omega)

/-- uniqKeys over the children of a composite. -/
def uniqList : List Cd → Bool
  | [] => true
  | c :: cs => uniqKeys c && uniqList cs
termination_by cs => (sizeOf cs, 0)
decreasing_by
  all_goals simp_wf
  all_goals first
    | omega
    | (refine Prod.Lex.left _ _ ?_; omega)

end

mutual

/-- No Vector or Mapping node has a zero-stride element codec (the
packed decode loop of such a node never terminates). -/
def vecPos : Cd → Bool
  | .option c => vecPos c
  | .tuple cs => vecPosList cs
  | .struct fields => vecPosList (fields.map Prod.snd)
  | .vector c => (stride c != 0) && vecPos c
  | .enum vs => vecPosList (vs.map Prod.snd)
  | .mapping kc vc => (strideList [kc, vc] 0 != 0) && vecPos kc && vecPos vc
  | _ => true
termination_by c => (sizeOf c, 0)
decreasing_by
  all_goals simp_wf
  all_goals first
    | omega
    | (refine Prod.Lex.left _ _ ?_; omega)
    | (refine Prod.Lex.left _ _ ?_
       exact lt_of_le_of_lt (sizeOf_map_snd_le _) (by omega))
    | (refine Prod.Lex.right _ ?_; omega)

/-- vecPos over the children of a composite. -/
def vecPosList : List Cd → Bool
  | [] => true
  | c :: cs => vecPos c && vecPosList cs
termination_by cs => (sizeOf cs, 0)
decreasing_by
  all_goals simp_wf
  all_goals first
    | omega
    | (refine Prod.Lex.left _ _ ?_; omega)

end

mutual

/-- Every Enum node has at most 256 variants (the index byte cannot
address more). -/
def smallEnums : Cd → Bool
  | .option c => smallEnums c
  | .tuple cs => smallEnumsList cs
  | .struct fields => smallEnumsList (fields.map Prod.snd)
  | .vector c => smallEnums c
  | .enum vs => decide (vs.length ≤ 256) && smallEnumsList (vs.map Prod.snd)
  | .mapping kc vc => smallEnums kc && smallEnums vc
  | _ => true
termination_by c => (sizeOf c, 0)
decreasing_by
  all_goals simp_wf
  all_goals first
    | omega
    | (refine Prod.Lex.left _ _ ?_; omega)
    | (refine Prod.Lex.left _ _ ?_
       exact lt_of_le_of_lt (sizeOf_map_snd_le _) (by omega))
    | (refine Prod.Lex.right _ ?_; omega)

/-- smallEnums over the children of a composite. -/
def smallEnumsList : List Cd → Bool
  | [] => true
  | c :: cs => smallEnums c && smallEnumsList cs
termination_by cs => (sizeOf cs, 0)
decreasing_by
  all_goals simp_wf
  all_goals first
    | omega
    | (refine Prod.Lex.left _ _ ?_; omega)

end

/-- The Tuple encode rule in the words of the specification (named after
the spec, to be compared with the source translation): for each child in
declaration order, encode the child value, then append the raw bytes for
a fixed-stride child, and a varint byte length followed by the bytes for
a variable-stride child, at every position including the last. -/
def tupleEncodeSpec : List Cd → List Val → Except Err (List Nat)
  | [], _ => .ok []
  | _ :: _, [] => .error .typeErr
  | c :: cs, v :: vs => do
    let part ← encode c v
    if stride c < 0 then do
      let pre ← encodeVarInt (part.length : Int)
      let rest ← tupleEncodeSpec cs vs
      .ok (pre ++ part ++ rest)
    else do
      let rest ← tupleEncodeSpec cs vs
      .ok (part ++ rest)

theorem toUint32_lt (a : Int) : toUint32 a < 4294967296 := by
  unfold toUint32
  omega

theorem toUint32_ofNat {n : Nat} (h : n < 4294967296) :
    toUint32 ((n : Nat) : Int) = n := by
  unfold toUint32
  omega

theorem toInt32_ofNat {n : Nat} (h : n < 2147483648) :
    toInt32 ((n : Nat) : Int) = ((n : Nat) : Int) := by
  unfold toInt32
  rw [toUint32_ofNat (by omega), if_pos h]

theorem toInt32_range (a : Int) :
    -2147483648 ≤ toInt32 a ∧ toInt32 a < 2147483648 := by
  unfold toInt32
  have := toUint32_lt a
  split <;> omega

theorem jsShl_ofNat_zero (s : Nat) : jsShl ((0 : Nat) : Int) s = 0 := by
  unfold jsShl
  rw [toUint32_ofNat (by omega)]
  simp [Nat.shiftLeft_eq, toInt32, toUint32]

theorem jsShl_small {c s : Nat} (hs : s < 32) (h : c * 2 ^ s < 2147483648) :
    jsShl ((c : Nat) : Int) s = ((c * 2 ^ s : Nat) : Int) := by
  unfold jsShl
  have hc : c < 4294967296 := by
    have h1 : 1 ≤ 2 ^ s := Nat.one_le_two_pow
    nlinarith
  rw [toUint32_ofNat hc, Nat.mod_eq_of_lt hs, Nat.shiftLeft_eq]
  exact toInt32_ofNat h

theorem jsOr_nat {a b : Nat} (ha : a < 2147483648) (hb : b < 2147483648) :
    jsOr ((a : Nat) : Int) ((b : Nat) : Int) = ((a ||| b : Nat) : Int) := by
  unfold jsOr
  rw [toUint32_ofNat (by omega), toUint32_ofNat (by omega)]
  have : a ||| b < 2147483648 := by
    have : (2147483648 : Nat) = 2 ^ 31 := by norm_num
    rw [this] at ha hb ⊢
    exact Nat.or_lt_two_pow ha hb
  exact toInt32_ofNat this

theorem lor_disjoint_add {a c s : Nat} (ha : a < 2 ^ s) :
    (a ||| c * 2 ^ s : Nat) = a + c * 2 ^ s := by
  have := Nat.mul_add_lt_is_or ha c
  rw [Nat.lor_comm, Nat.mul_comm c (2 ^ s)]
  omega

theorem land127_eq_mod (v : Nat) : v &&& 127 = v % 128 := by
  have := Nat.and_pow_two_sub_one_eq_mod v 7
  norm_num at this
  exact this

theorem land128_of_cont {b : Nat} (h1 : 128 ≤ b) (h2 : b < 256) :
    b &&& 128 = 128 := by
  have h := Nat.and_two_pow b 7
  have ht : b.testBit 7 = true := by
    rw [Nat.testBit_to_div_mod]
    simp only [decide_eq_true_eq]
    norm_num
    omega
  rw [ht] at h
  norm_num at h
  exact h

theorem land128_of_term {b : Nat} (h : b < 128) : b &&& 128 = 0 := by
  have h2 : b < 2 ^ 7 := by omega
  have ht : b.testBit 7 = false := Nat.testBit_lt_two_pow h2
  have := Nat.and_two_pow b 7
  rw [ht] at this
  norm_num at this
  exact this

/-- One unfolding of the encode loop below 2^32, with the bit operations
reduced to division and remainder. -/
theorem encodeVarIntLoop_step {v : Nat} (h : v < 4294967296) :
    encodeVarIntLoop v =
      if 127 < v then (v % 128 + 128) :: encodeVarIntLoop (v / 128)
      else [v % 128] := by
  rw [encodeVarIntLoop]
  rw [Nat.mod_eq_of_lt h, Nat.shiftRight_eq_div_pow, land127_eq_mod]
  by_cases hv : 127 < v
  · rw [dif_pos hv, if_pos hv]
    have h2 : v % 128 ||| 128 = v % 128 + 128 := by
      have h1 : v % 128 < 2 ^ 7 := by
        have := Nat.mod_lt v (y := 128) (by omega)
        omega
      have := lor_disjoint_add (c := 1) h1
      norm_num at this
      omega
    rw [h2]
  · rw [dif_neg hv, if_neg hv]

theorem encodeVarIntLoop_bytes (v : Nat) :
    ∀ b ∈ encodeVarIntLoop v, b < 256 := by
  induction v using encodeVarIntLoop.induct with
  | case1 v hv ih =>
    rw [encodeVarIntLoop, dif_pos hv]
    intro b hb
    rcases List.mem_cons.1 hb with hb | hb
    · subst hb
      rw [land127_eq_mod, Nat.mod_mod_of_dvd v (by norm_num)]
      have h1 : v % 128 < 2 ^ 7 := by
        have := Nat.mod_lt v (y := 128) (by omega)
        omega
      have := lor_disjoint_add (c := 1) h1
      norm_num at this
      omega
    · exact ih b hb
  | case2 v hv =>
    rw [encodeVarIntLoop, dif_neg hv]
    intro b hb
    simp at hb
    subst hb
    rw [land127_eq_mod]
    omega

theorem encodeVarIntLoop_ne_nil (v : Nat) : encodeVarIntLoop v ≠ [] := by
  rw [encodeVarIntLoop]
  split <;> simp

/-- Feeding the decode loop the encode loop output: exact below 2^31.
The shift starts below 32 and the accumulated value occupies only the
bits below the shift, so the 32-bit or, and, and left shift act as exact
arithmetic. -/
theorem decodeVarIntLoop_encodeVarIntLoop (v : Nat) :
    ∀ (acc shift k : Nat) (rest : List Nat),
      acc < 2 ^ shift → shift < 32 → v * 2 ^ shift < 2147483648 →
      decodeVarIntLoop (encodeVarIntLoop v ++ rest) ((acc : Nat) : Int) shift k
        = .ok (((acc + v * 2 ^ shift : Nat) : Int), k + (encodeVarIntLoop v).length) := by
  induction v using encodeVarIntLoop.induct with
  | case1 v hv ih =>
    intro acc shift k rest hacc hshift hbound
    have hpow : 1 ≤ 2 ^ shift := Nat.one_le_two_pow
    have hv31 : v < 2147483648 := by nlinarith
    have hv32 : v < 4294967296 := by omega
    have hacc31 : acc < 2147483648 := by
      have h1 : (2 : Nat) ^ shift ≤ 2 ^ 31 := Nat.pow_le_pow_right (by omega) (by omega)
      have h2 : (2 : Nat) ^ 31 = 2147483648 := by norm_num
      omega
    rw [show (v % 4294967296) >>> 7 = v / 128 from by
      rw [Nat.mod_eq_of_lt hv32, Nat.shiftRight_eq_div_pow]] at ih
    have hstep := encodeVarIntLoop_step hv32
    rw [if_pos hv] at hstep
    rw [hstep]
    have hb256 : v % 128 + 128 < 256 := by
      have := Nat.mod_lt v (y := 128) (by omega)
      omega
    have hshift7 : shift + 7 < 32 := by
      by_contra hcon
      have h25 : 25 ≤ shift := by omega
      have h1 : (2 : Nat) ^ 25 ≤ 2 ^ shift := Nat.pow_le_pow_right (by omega) h25
      have h2 : 128 * 2 ^ 25 ≤ v * 2 ^ shift := Nat.mul_le_mul (by omega) h1
      have h3 : (128 : Nat) * 2 ^ 25 = 4294967296 := by norm_num
      omega
    simp only [List.cons_append]
    rw [decodeVarIntLoop]
    simp only [Nat.mod_eq_of_lt (show v % 128 + 128 < 4294967296 by omega)]
    rw [land127_eq_mod]
    have hmod : (v % 128 + 128) % 128 = v % 128 := by omega
    rw [hmod]
    rw [land128_of_cont (by omega) hb256]
    have hchunk : v % 128 * 2 ^ shift < 2147483648 := by
      have : v % 128 ≤ v := Nat.mod_le v 128
      nlinarith
    rw [jsShl_small hshift hchunk, jsOr_nat hacc31 (by omega)]
    rw [lor_disjoint_add hacc]
    rw [if_neg (show ¬ ((128 : Nat) = 0) by norm_num)]
    rw [if_neg (show ¬ 53 < shift + 7 by omega)]
    have harg1 : acc + v % 128 * 2 ^ shift < 2 ^ (shift + 7) := by
      have hm : v % 128 < 128 := Nat.mod_lt v (by omega)
      have hmm : v % 128 * 2 ^ shift ≤ 127 * 2 ^ shift := by nlinarith
      have hps : (2 : Nat) ^ (shift + 7) = 2 ^ shift * 128 := by
        rw [Nat.pow_add]
      omega
    have hps : (2 : Nat) ^ (shift + 7) = 2 ^ shift * 128 := by
      rw [Nat.pow_add]
    have hsum : v % 128 * 2 ^ shift + v / 128 * 2 ^ (shift + 7) = v * 2 ^ shift := by
      rw [hps]
      calc v % 128 * 2 ^ shift + v / 128 * (2 ^ shift * 128)
          = (v % 128 + v / 128 * 128) * 2 ^ shift := by ring
        _ = v * 2 ^ shift := by rw [Nat.mod_add_div']
    have harg2 : v / 128 * 2 ^ (shift + 7) < 2147483648 := by omega
    rw [ih (acc + v % 128 * 2 ^ shift) (shift + 7) (k + 1) rest harg1 hshift7 harg2]
    congr 2
    · congr 1
      omega
    · simp
      omega
  | case2 v hv =>
    intro acc shift k rest hacc hshift hbound
    have hpow : 1 ≤ 2 ^ shift := Nat.one_le_two_pow
    have hv32 : v < 4294967296 := by omega
    have hacc31 : acc < 2147483648 := by
      have h1 : (2 : Nat) ^ shift ≤ 2 ^ 31 := Nat.pow_le_pow_right (by omega) (by omega)
      have h2 : (2 : Nat) ^ 31 = 2147483648 := by norm_num
      omega
    have hstep := encodeVarIntLoop_step hv32
    rw [if_neg hv] at hstep
    have e2 : v % 128 = v := Nat.mod_eq_of_lt (by omega)
    rw [e2] at hstep
    rw [hstep]
    simp only [List.cons_append, List.nil_append]
    rw [decodeVarIntLoop]
    simp only [Nat.mod_eq_of_lt (show v < 4294967296 by omega)]
    rw [land127_eq_mod, e2]
    rw [land128_of_term (by omega)]
    rcases Nat.eq_zero_or_pos v with hz | hpos
    · subst hz
      rw [jsShl_ofNat_zero]
      have hor : jsOr ((acc : Nat) : Int) 0 = ((acc : Nat) : Int) := by
        unfold jsOr
        have h0 : toUint32 0 = 0 := by unfold toUint32; omega
        rw [h0, toUint32_ofNat (by omega)]
        simp only [Nat.or_zero]
        exact toInt32_ofNat hacc31
      rw [hor]
      rw [if_pos rfl]
      have hsafe : isSafeInt ((acc : Nat) : Int) = true := by
        simp only [isSafeInt, Int.natAbs_ofNat, decide_eq_true_eq]
        omega
      rw [hsafe]
      simp
    · rw [jsShl_small hshift hbound, jsOr_nat hacc31 (by omega)]
      rw [lor_disjoint_add hacc]
      rw [if_pos rfl]
      have hsafe : isSafeInt (((acc + v * 2 ^ shift : Nat) : Int)) = true := by
        simp only [isSafeInt, Int.natAbs_ofNat, decide_eq_true_eq]
        have h1 : (2 : Nat) ^ shift ≤ 2 ^ 31 := Nat.pow_le_pow_right (by omega) (by omega)
        have h2 : (2 : Nat) ^ 31 = 2147483648 := by norm_num
        omega
      rw [hsafe]
      simp

/-- Round trip of the varint below 2^31, with the byte count and any
trailing bytes untouched. -/
theorem decodeVarInt_encodeVarIntLoop {v : Nat} (h : v < 2147483648)
    (rest : List Nat) :
    decodeVarInt (encodeVarIntLoop v ++ rest)
      = .ok (((v : Nat) : Int), (encodeVarIntLoop v).length) := by
  have := decodeVarIntLoop_encodeVarIntLoop v 0 0 0 rest (by norm_num)
    (by norm_num) (by omega)
  unfold decodeVarInt
  simpa using this

theorem isSafeInt_jsOr (a b : Int) : isSafeInt (jsOr a b) = true := by
  simp only [isSafeInt, decide_eq_true_eq]
  unfold jsOr
  have h := toInt32_range ((toUint32 a ||| toUint32 b : Nat) : Int)
  omega

theorem jsOr_int32_range (a b : Int) :
    -2147483648 ≤ jsOr a b ∧ jsOr a b < 2147483648 := by
  unfold jsOr
  exact toInt32_range _

/-- Error classification of the decode loop from any reachable state:
the loop reports the truncation error exactly when every input byte is a
continuation byte and the input is shorter than the continuation budget,
and the overflow error exactly when the first budget-many bytes exist
and are all continuation bytes.  (The safe-integer recheck never fires:
the 32-bit or keeps the accumulator inside the int32 range.) -/
theorem decodeVarIntLoop_class (data : List Nat) :
    ∀ (acc : Int) (shift k : Nat),
      (∀ b ∈ data, b < 256) → shift ≤ 53 →
      (decodeVarIntLoop data acc shift k = .error .truncated ↔
        data.length ≤ (53 - shift) / 7 ∧ ∀ b ∈ data, 128 ≤ b) ∧
      (decodeVarIntLoop data acc shift k = .error .overflow ↔
        (53 - shift) / 7 + 1 ≤ data.length ∧
          ∀ b ∈ data.take ((53 - shift) / 7 + 1), 128 ≤ b) := by
  induction data with
  | nil =>
    intro acc shift k hb hs
    rw [decodeVarIntLoop]
    constructor
    · simp
    · simp
  | cons b rest ih =>
    intro acc shift k hb hs
    have hb0 : b < 256 := hb b (by simp)
    have hbrest : ∀ x ∈ rest, x < 256 := fun x hx => hb x (by simp [hx])
    rw [decodeVarIntLoop]
    simp only [Nat.mod_eq_of_lt (show b < 4294967296 by omega)]
    by_cases hcont : 128 ≤ b
    · rw [land128_of_cont hcont hb0]
      rw [if_neg (show ¬ ((128 : Nat) = 0) by norm_num)]
      by_cases hbudget : 53 < shift + 7
      · rw [if_pos hbudget]
        have hq : (53 - shift) / 7 = 0 := by omega
        constructor
        · constructor
          · intro h
            exact absurd h (by simp)
          · intro ⟨h1, _⟩
            rw [hq] at h1
            simp at h1
        · constructor
          · intro _
            refine ⟨by rw [hq]; simp, ?_⟩
            intro x hx
            rw [hq] at hx
            simp at hx
            subst hx
            exact hcont
          · intro _
            rfl
      · rw [if_neg hbudget]
        have hs7 : shift + 7 ≤ 53 := by omega
        have hih := ih (jsOr acc (jsShl ((b &&& 127 : Nat) : Int) shift)) (shift + 7) (k + 1) hbrest hs7
        have hq : (53 - (shift + 7)) / 7 = (53 - shift) / 7 - 1 := by omega
        have hq1 : 1 ≤ (53 - shift) / 7 := by omega
        constructor
        · rw [hih.1]
          rw [hq]
          constructor
          · intro ⟨h1, h2⟩
            refine ⟨by simp; omega, ?_⟩
            intro x hx
            rcases List.mem_cons.1 hx with hx | hx
            · subst hx; exact hcont
            · exact h2 x hx
          · intro ⟨h1, h2⟩
            simp at h1
            refine ⟨by omega, fun x hx => h2 x (by simp [hx])⟩
        · rw [hih.2]
          rw [hq]
          have hmeq : (53 - shift) / 7 - 1 + 1 = (53 - shift) / 7 := by omega
          rw [hmeq]
          have htc : (b :: rest).take ((53 - shift) / 7 + 1)
              = b :: rest.take ((53 - shift) / 7) := by
            rw [show (53 - shift) / 7 + 1 = (53 - shift) / 7 + 1 from rfl,
              List.take_succ_cons]
          constructor
          · intro ⟨h1, h2⟩
            refine ⟨by simp; omega, ?_⟩
            intro x hx
            rw [htc] at hx
            rcases List.mem_cons.1 hx with hx | hx
            · subst hx; exact hcont
            · exact h2 x hx
          · intro ⟨h1, h2⟩
            simp at h1
            refine ⟨by omega, ?_⟩
            intro x hx
            apply h2
            rw [htc]
            simp [hx]
    · rw [land128_of_term (by omega)]
      rw [if_pos rfl]
      rw [isSafeInt_jsOr]
      simp only [if_pos rfl]
      constructor
      · constructor
        · intro h
          exact absurd h (by simp)
        · intro ⟨_, h2⟩
          have := h2 b (by simp)
          omega
      · constructor
        · intro h
          exact absurd h (by simp)
        · intro ⟨h1, h2⟩
          have hmem : b ∈ (b :: rest).take ((53 - shift) / 7 + 1) := by
            have : 1 ≤ (53 - shift) / 7 + 1 := by omega
            rw [show (53 - shift) / 7 + 1 = (53 - shift) / 7 + 1 by rfl]
            cases hn : (53 - shift) / 7 + 1 with
            | zero => omega
            | succ m => simp [List.take_cons]
          have := h2 b hmem
          omega

theorem leBytes_length (w n : Nat) : (leBytes w n).length = w := by
  induction w generalizing n with
  | zero => rfl
  | succ w ih => simp [leBytes, ih]

theorem leBytes_bytes (w n : Nat) : ∀ b ∈ leBytes w n, b < 256 := by
  induction w generalizing n with
  | zero => simp [leBytes]
  | succ w ih =>
    intro b hb
    rw [leBytes] at hb
    rcases List.mem_cons.1 hb with hb | hb
    · subst hb
      exact Nat.mod_lt _ (by omega)
    · exact ih (n / 256) b hb

theorem fromLEU_leBytes (w n : Nat) :
    fromLEU (leBytes w n) = n % 2 ^ (8 * w) := by
  induction w generalizing n with
  | zero =>
    simp [leBytes, fromLEU]
    omega
  | succ w ih =>
    rw [leBytes, fromLEU, ih]
    have h1 : 2 ^ (8 * (w + 1)) = 256 * 2 ^ (8 * w) := by
      rw [show 8 * (w + 1) = 8 + 8 * w by ring, Nat.pow_add]
    rw [h1, Nat.mod_mul]

theorem fromLEU_leBytes_self {w n : Nat} (h : n < 2 ^ (8 * w)) :
    fromLEU (leBytes w n) = n := by
  rw [fromLEU_leBytes, Nat.mod_eq_of_lt h]

theorem take_append_of_length {w : Nat} {xs rest : List Nat}
    (h : xs.length = w) : (xs ++ rest).take w = xs := by
  rw [List.take_append_of_le_length (by omega), ← h, List.take_length]

/-- wrapBits stays inside the width. -/
theorem wrapBits_lt (bits : Nat) (n : Int) : wrapBits bits n < 2 ^ bits := by
  unfold wrapBits
  have h1 : (0 : Int) < 2 ^ bits := by positivity
  have h2 := Int.emod_lt_of_pos n (b := 2 ^ bits) h1
  have h3 := Int.emod_nonneg n (show ((2 : Int) ^ bits) ≠ 0 by positivity)
  have h4 : ((2 ^ bits : Nat) : Int) = (2 : Int) ^ bits := by push_cast; ring
  omega

/-- Unsigned values inside the width are stored unchanged. -/
theorem wrapBits_of_nonneg {bits : Nat} {n : Int}
    (h0 : 0 ≤ n) (h1 : n < (2 : Int) ^ bits) :
    (wrapBits bits n : Int) = n := by
  unfold wrapBits
  rw [Int.emod_eq_of_lt h0 h1]
  omega

/-- Signed values inside the width round-trip through the two-complement
pattern. -/
theorem asSigned_wrapBits {bits : Nat} {n : Int} (hb : 1 ≤ bits)
    (h0 : -(2 : Int) ^ (bits - 1) ≤ n) (h1 : n < (2 : Int) ^ (bits - 1)) :
    asSigned bits (wrapBits bits n) = n := by
  have hNpos : 0 < (2 : Nat) ^ (bits - 1) := Nat.pos_pow_of_pos _ (by omega)
  have hbitsN : (2 : Nat) ^ bits = 2 * 2 ^ (bits - 1) := by
    conv_lhs => rw [show bits = (bits - 1) + 1 by omega]
    rw [pow_succ]
    ring
  have hIntN : ((2 ^ (bits - 1) : Nat) : Int) = (2 : Int) ^ (bits - 1) := by
    push_cast; ring
  have hIntB : ((2 ^ bits : Nat) : Int) = (2 : Int) ^ bits := by
    push_cast; ring
  have hIntB2 : (2 : Int) ^ bits = 2 * 2 ^ (bits - 1) := by
    conv_lhs => rw [show bits = (bits - 1) + 1 by omega]
    rw [pow_succ]
    ring
  have hpos : (0 : Int) < 2 ^ bits := by positivity
  have hm0 : 0 ≤ n % 2 ^ bits := Int.emod_nonneg n (by positivity)
  have hmlt : n % 2 ^ bits < 2 ^ bits := Int.emod_lt_of_pos n hpos
  have hrel : n % 2 ^ bits = n ∨ n % 2 ^ bits = n + 2 ^ bits := by
    rcases le_or_lt 0 n with hn | hn
    · left
      exact Int.emod_eq_of_lt hn (by omega)
    · right
      have hge : 0 ≤ n + 2 ^ bits := by omega
      have h2 : (n + 2 ^ bits) % 2 ^ bits = n % 2 ^ bits := by
        have := Int.add_mul_emod_self_left n (2 ^ bits) 1
        simpa using this
      have h3 : (n + 2 ^ bits) % 2 ^ bits = n + 2 ^ bits :=
        Int.emod_eq_of_lt hge (by omega)
      rw [← h2]
      exact h3
  unfold asSigned wrapBits
  split
  case isTrue hcase =>
    have hcaseI : ((n % 2 ^ bits).toNat : Int) < (2 : Int) ^ (bits - 1) := by
      rw [← hIntN]
      exact_mod_cast hcase
    omega
  case isFalse hcase =>
    have hcaseI : ¬ ((n % 2 ^ bits).toNat : Int) < (2 : Int) ^ (bits - 1) := by
      rw [← hIntN]
      exact_mod_cast hcase
    omega

/-- In-bounds subarray is take and drop. -/
theorem jsSubarray_nat (data : List Nat) (a b : Nat)
    (ha : a ≤ data.length) (hb : b ≤ data.length) :
    jsSubarray data (a : Int) (b : Int) = (data.take b).drop a := by
  unfold jsSubarray
  have h1 : (if (a : Int) < 0 then
      max ((data.length : Int) + a) 0 else min (a : Int) (data.length : Int)).toNat = a := by
    rw [if_neg (by omega)]
    omega
  have h2 : (if (b : Int) < 0 then
      max ((data.length : Int) + b) 0 else min (b : Int) (data.length : Int)).toNat = b := by
    rw [if_neg (by omega)]
    omega
  rw [h1, h2]

/-- In-bounds tail subarray is drop. -/
theorem jsSubarrayFrom_nat (data : List Nat) (a : Nat) (ha : a ≤ data.length) :
    jsSubarrayFrom data (a : Int) = data.drop a := by
  unfold jsSubarrayFrom
  have : ((data.length : Nat) : Int) = (data.length : Int) := rfl
  rw [show ((data.length : Nat) : Int) = ((data.length : Nat) : Int) from rfl]
  rw [jsSubarray_nat data a data.length ha (by omega), List.take_length]

/-- Structural induction over the codec type, with membership induction
hypotheses for the child lists. -/
theorem Cd.ind {P : Cd → Prop}
    (hi8 : P .i8) (hu8 : P .u8) (hi16 : P .i16) (hu16 : P .u16)
    (hi32 : P .i32) (hu32 : P .u32) (hi64 : P .i64) (hu64 : P .u64)
    (hf32 : P .f32) (hf64 : P .f64) (hbool : P .bool) (hstr : P .str)
    (hbytes : P .bytes)
    (hoption : ∀ c, P c → P (.option c))
    (htuple : ∀ cs, (∀ c ∈ cs, P c) → P (.tuple cs))
    (hstruct : ∀ fs, (∀ p ∈ fs, P (Prod.snd p)) → P (.struct fs))
    (hvector : ∀ c, P c → P (.vector c))
    (henum : ∀ vs, (∀ p ∈ vs, P (Prod.snd p)) → P (.enum vs))
    (hmapping : ∀ kc vc, P kc → P vc → P (.mapping kc vc)) :
    ∀ c, P c := by
  have key : ∀ n c, sizeOf c ≤ n → P c := by
    intro n
    induction n with
    | zero =>
      intro c h
      have := Cd.sizeOf_pos c
      omega
    | succ n ihn =>
      intro c hle
      cases c with
      | i8 => exact hi8
      | u8 => exact hu8
      | i16 => exact hi16
      | u16 => exact hu16
      | i32 => exact hi32
      | u32 => exact hu32
      | i64 => exact hi64
      | u64 => exact hu64
      | f32 => exact hf32
      | f64 => exact hf64
      | bool => exact hbool
      | str => exact hstr
      | bytes => exact hbytes
      | option c2 =>
        refine hoption c2 (ihn c2 ?_)
        simp only [Cd.option.sizeOf_spec] at hle
        omega
      | tuple cs =>
        refine htuple cs (fun c hc => ihn c ?_)
        have h1 := List.sizeOf_lt_of_mem hc
        simp only [Cd.tuple.sizeOf_spec] at hle
        omega
      | struct fs =>
        refine hstruct fs (fun p hp => ihn (Prod.snd p) ?_)
        have h1 := List.sizeOf_lt_of_mem hp
        have h2 : sizeOf (Prod.snd p) < sizeOf p := by
          obtain ⟨x, y⟩ := p
          simp only [Prod.mk.sizeOf_spec]
          omega
        simp only [Cd.struct.sizeOf_spec] at hle
        omega
      | vector c2 =>
        refine hvector c2 (ihn c2 ?_)
        simp only [Cd.vector.sizeOf_spec] at hle
        omega
      | enum vs =>
        refine henum vs (fun p hp => ihn (Prod.snd p) ?_)
        have h1 := List.sizeOf_lt_of_mem hp
        have h2 : sizeOf (Prod.snd p) < sizeOf p := by
          obtain ⟨x, y⟩ := p
          simp only [Prod.mk.sizeOf_spec]
          omega
        simp only [Cd.enum.sizeOf_spec] at hle
        omega
      | mapping kc vc =>
        refine hmapping kc vc (ihn kc ?_) (ihn vc ?_) <;>
          (simp only [Cd.mapping.sizeOf_spec] at hle; omega)
  intro c
  exact key (sizeOf c) c le_rfl

/-- A non-negative Tuple stride means every child is fixed and the
stride is the running sum. -/
theorem strideList_nonneg (cs : List Cd) :
    ∀ acc : Int, 0 ≤ acc → 0 ≤ strideList cs acc →
      (∀ c ∈ cs, 0 ≤ stride c) ∧
        strideList cs acc = acc + (cs.map stride).sum := by
  induction cs with
  | nil =>
    intro acc h0 hs
    rw [strideList]
    simp
  | cons c rest ih =>
    intro acc h0 hs
    rw [strideList] at hs ⊢
    by_cases hc : stride c < 0
    · rw [if_pos hc] at hs
      omega
    · rw [if_neg hc] at hs ⊢
      push_neg at hc
      have := ih (acc + stride c) (by omega) hs
      refine ⟨?_, ?_⟩
      · intro x hx
        rcases List.mem_cons.1 hx with hx | hx
        · subst hx; exact hc
        · exact this.1 x hx
      · rw [this.2]
        simp
        ring

/-- All children fixed means the Tuple stride is the running sum. -/
theorem strideList_of_all_nonneg {cs : List Cd}
    (h : ∀ c ∈ cs, 0 ≤ stride c) :
    ∀ acc : Int, strideList cs acc = acc + (cs.map stride).sum := by
  induction cs with
  | nil =>
    intro acc
    rw [strideList]
    simp
  | cons c rest ih =>
    intro acc
    rw [strideList, if_neg (by have := h c (by simp); omega)]
    rw [ih (fun x hx => h x (by simp [hx]))]
    simp
    ring

/-- Slicing out the middle segment of a three-part concatenation. -/
theorem slice_middle (pre part tail : List Nat) :
    ((pre ++ part ++ tail).take (pre.length + part.length)).drop pre.length
      = part := by
  rw [take_append_of_length (by simp), List.drop_left]

theorem indexOf?_lt_length {l : List String} {k : String} {i : Nat}
    (h : l.indexOf? k = some i) : i < l.length := by
  induction l generalizing i with
  | nil => simp at h
  | cons x xs ih =>
    rw [List.indexOf?_cons] at h
    by_cases hx : (x == k)
    · simp [hx] at h
      simp only [List.length_cons]
      omega
    · simp [hx] at h
      obtain ⟨j, hj, hji⟩ := h
      have := ih hj
      simp only [List.length_cons]
      omega

theorem get_indexOf? {l : List String} {k : String} {i : Nat}
    (h : l.indexOf? k = some i) (hlt : i < l.length) :
    l.get ⟨i, hlt⟩ = k := by
  induction l generalizing i with
  | nil => simp at h
  | cons x xs ih =>
    rw [List.indexOf?_cons] at h
    by_cases hx : (x == k)
    · simp [hx] at h
      subst h
      simpa using (eq_of_beq hx)
    · simp [hx] at h
      obtain ⟨j, hj, hji⟩ := h
      subst hji
      simpa using ih hj (by simp at hlt; omega)

theorem indexOf?_of_mem {l : List String} {k : String} (h : k ∈ l) :
    ∃ i, l.indexOf? k = some i := by
  induction l with
  | nil => simp at h
  | cons x xs ih =>
    rw [List.indexOf?_cons]
    by_cases hx : (x == k)
    · exact ⟨0, by simp [hx]⟩
    · rcases List.mem_cons.1 h with he | he
      · subst he
        simp at hx
      · obtain ⟨i, hi⟩ := ih he
        exact ⟨i + 1, by simp [hx, hi]⟩

theorem indexOf?_get {l : List String} (hnd : l.Nodup) {i : Nat}
    (hlt : i < l.length) : l.indexOf? (l.get ⟨i, hlt⟩) = some i := by
  induction l generalizing i with
  | nil => simp at hlt
  | cons x xs ih =>
    rw [List.indexOf?_cons]
    cases i with
    | zero => simp
    | succ j =>
      have hj : j < xs.length := by simp at hlt; omega
      have hget : (x :: xs).get ⟨j + 1, hlt⟩ = xs.get ⟨j, hj⟩ := rfl
      rw [hget]
      have hx : ¬ (x == xs.get ⟨j, hj⟩) := by
        simp only [List.nodup_cons] at hnd
        intro hcon
        exact hnd.1 (by rw [eq_of_beq hcon]; exact List.get_mem xs j hj)
      simp only [hx, if_neg, Bool.false_eq_true, if_false]
      rw [ih hnd.of_cons hj]
      rfl

theorem uniqList_mem {cs : List Cd} (h : uniqList cs = true) {c : Cd}
    (hm : c ∈ cs) : uniqKeys c = true := by
  induction cs with
  | nil => simp at hm
  | cons x xs ih =>
    rw [uniqList] at h
    simp only [Bool.and_eq_true] at h
    rcases List.mem_cons.1 hm with hm | hm
    · subst hm; exact h.1
    · exact ih h.2 hm

theorem vecPosList_mem {cs : List Cd} (h : vecPosList cs = true) {c : Cd}
    (hm : c ∈ cs) : vecPos c = true := by
  induction cs with
  | nil => simp at hm
  | cons x xs ih =>
    rw [vecPosList] at h
    simp only [Bool.and_eq_true] at h
    rcases List.mem_cons.1 hm with hm | hm
    · subst hm; exact h.1
    · exact ih h.2 hm

theorem smallEnumsList_mem {cs : List Cd} (h : smallEnumsList cs = true) {c : Cd}
    (hm : c ∈ cs) : smallEnums c = true := by
  induction cs with
  | nil => simp at hm
  | cons x xs ih =>
    rw [smallEnumsList] at h
    simp only [Bool.and_eq_true] at h
    rcases List.mem_cons.1 hm with hm | hm
    · subst hm; exact h.1
    · exact ih h.2 hm

theorem lookupAllFields_skip {keys : List String} {kvs : List (String × Val)}
    {k : String} {v : Val} (h : k ∉ keys) :
    lookupAllFields keys ((k, v) :: kvs) = lookupAllFields keys kvs := by
  induction keys with
  | nil => rfl
  | cons k2 rest ih =>
    unfold lookupAllFields at ih ⊢
    simp only [List.mapM_cons]
    rw [ih (fun hm => h (List.mem_cons_of_mem _ hm))]
    have hne2 : (k2 == k) = false := by
      simp only [beq_eq_false_iff_ne, ne_eq]
      intro hcon
      exact h (by rw [← hcon] at *; exact List.mem_cons_self k2 rest)
    have hhead : List.lookup k2 ((k, v) :: kvs) = List.lookup k2 kvs := by
      rw [List.lookup]
      simp [hne2]
    rw [hhead]

/-- On a canonical object (keys in declaration order), the Struct
projection returns exactly the object values in order. -/
theorem lookupAllFields_canonical {fields : List (String × Cd)}
    {kvs : List (String × Val)}
    (hnd : (fields.map Prod.fst).Nodup)
    (hdom : domainFields fields kvs = true) :
    lookupAllFields (fields.map Prod.fst) kvs = some (kvs.map Prod.snd) := by
  induction fields generalizing kvs with
  | nil =>
    cases kvs with
    | nil => rfl
    | cons e rest =>
      simp [domainFields] at hdom
  | cons f fs ih =>
    obtain ⟨k, c⟩ := f
    cases kvs with
    | nil =>
      simp [domainFields] at hdom
    | cons e kvs2 =>
      obtain ⟨k2, v⟩ := e
      simp only [domainFields, Bool.and_eq_true] at hdom
      have hk : k = k2 := eq_of_beq hdom.1.1
      subst hk
      simp only [List.map_cons, List.nodup_cons] at hnd
      have hlk : List.lookup k ((k, v) :: kvs2) = some v := by
        rw [List.lookup]
        simp
      unfold lookupAllFields
      simp only [List.map_cons, List.mapM_cons, hlk]
      have hrest : lookupAllFields (fs.map Prod.fst) ((k, v) :: kvs2)
          = lookupAllFields (fs.map Prod.fst) kvs2 :=
        lookupAllFields_skip hnd.1
      unfold lookupAllFields at hrest ih
      rw [hrest, ih hnd.2 hdom.2]
      rfl

theorem domainFields_to_domainList {fields : List (String × Cd)}
    {kvs : List (String × Val)} (hdom : domainFields fields kvs = true) :
    domainList (fields.map Prod.snd) (kvs.map Prod.snd) = true := by
  induction fields generalizing kvs with
  | nil =>
    cases kvs with
    | nil => simp [domainList]
    | cons e rest => simp [domainFields] at hdom
  | cons f fs ih =>
    obtain ⟨k, c⟩ := f
    cases kvs with
    | nil => simp [domainFields] at hdom
    | cons e kvs2 =>
      obtain ⟨k2, v⟩ := e
      simp only [domainFields, Bool.and_eq_true] at hdom
      rw [List.map_cons, List.map_cons, domainList]
      simp only [Bool.and_eq_true]
      exact ⟨hdom.1.2, ih hdom.2⟩

theorem zip_keys_canonical {fields : List (String × Cd)}
    {kvs : List (String × Val)} (hdom : domainFields fields kvs = true) :
    (fields.map Prod.fst).zip (kvs.map Prod.snd) = kvs := by
  induction fields generalizing kvs with
  | nil =>
    cases kvs with
    | nil => rfl
    | cons e rest => simp [domainFields] at hdom
  | cons f fs ih =>
    obtain ⟨k, c⟩ := f
    cases kvs with
    | nil => simp [domainFields] at hdom
    | cons e kvs2 =>
      obtain ⟨k2, v⟩ := e
      simp only [domainFields, Bool.and_eq_true] at hdom
      have hk : k = k2 := eq_of_beq hdom.1.1
      subst hk
      simp only [List.map_cons, List.zip_cons_cons]
      rw [ih hdom.2]

theorem typedArraySet_ok {buf part : List Nat} {off : Nat}
    (h : off + part.length ≤ buf.length) :
    typedArraySet buf part off
      = .ok (buf.take off ++ part ++ buf.drop (off + part.length)) := by
  unfold typedArraySet
  rw [if_pos h]

/-- Writing stride-sized parts back to back into a zero buffer yields
their concatenation. -/
theorem setAllGo_flatten {s : Nat} :
    ∀ (parts : List (List Nat)) (pre : List Nat),
      (∀ p ∈ parts, p.length = s) →
      setAllGo s parts (pre ++ List.replicate (parts.length * s) 0) pre.length
        = .ok (pre ++ parts.flatten) := by
  intro parts
  induction parts with
  | nil =>
    intro pre h
    simp only [List.length_nil, Nat.zero_mul, List.replicate_zero, List.append_nil,
      List.flatten_nil]
    rfl
  | cons p ps ih =>
    intro pre h
    have hp : p.length = s := h p (by simp)
    rw [setAllGo]
    have hsm : s ≤ (ps.length + 1) * s := Nat.le_mul_of_pos_left s (by omega)
    have hms : (ps.length + 1) * s = ps.length * s + s := by ring
    have hfit : pre.length + p.length ≤ (pre ++ List.replicate ((p :: ps).length * s) 0).length := by
      simp [List.length_replicate]
      omega
    rw [typedArraySet_ok hfit]
    have htake : (pre ++ List.replicate ((p :: ps).length * s) 0).take pre.length = pre := by
      rw [List.take_append_of_le_length (by omega), List.take_length]
    have hdrop : (pre ++ List.replicate ((p :: ps).length * s) 0).drop (pre.length + p.length)
        = List.replicate (ps.length * s) 0 := by
      rw [List.drop_append, List.drop_replicate]
      congr 1
      simp only [List.length_cons]
      omega
    rw [htake, hdrop]
    have hrec := ih (pre ++ p) (fun q hq => h q (by simp [hq]))
    rw [show (pre ++ p).length = pre.length + p.length by simp, hp] at hrec
    simp only [bind, Except.bind]
    rw [hrec]
    simp

theorem encodeVarInt_ok {n : Int} {bs : List Nat}
    (h : encodeVarInt n = .ok bs) :
    bs = encodeVarIntLoop n.toNat ∧ 0 ≤ n ∧ isSafeInt n = true := by
  unfold encodeVarInt at h
  split at h
  · exact absurd h (by simp)
  · next hcond =>
    push_neg at hcond
    simp only [Except.ok.injEq] at h
    refine ⟨h.symm, by omega, by simpa using hcond.2⟩

theorem encodeVarInt_nat {n : Nat} (h : n ≤ 9007199254740991) :
    encodeVarInt (n : Int) = .ok (encodeVarIntLoop n) := by
  unfold encodeVarInt
  rw [if_neg]
  · simp
  · simp only [isSafeInt]
    push_neg
    constructor
    · omega
    · simp
      omega

theorem encodeTupleParts_nil (vs : List Val) :
    encodeTupleParts [] vs = .ok [] := by
  rw [encodeTupleParts]

theorem encodeTupleParts_cons_ok {c : Cd} {cs : List Cd} {vs0 : List Val}
    {parts : List (List Nat)}
    (h : encodeTupleParts (c :: cs) vs0 = .ok parts) :
    ∃ v vs part rest, vs0 = v :: vs ∧ encode c v = .ok part ∧
      encodeTupleParts cs vs = .ok rest ∧
      ((stride c < 0 ∧ parts = encodeVarIntLoop part.length :: part :: rest) ∨
        (0 ≤ stride c ∧ parts = part :: rest)) := by
  cases vs0 with
  | nil =>
    rw [encodeTupleParts] at h
    exact absurd h (by simp)
  | cons v vs =>
    rw [encodeTupleParts] at h
    cases henc : encode c v with
    | error e =>
      rw [henc] at h
      exact absurd h (by simp [bind, Except.bind])
    | ok part =>
      rw [henc] at h
      simp only [bind, Except.bind] at h
      by_cases hst : stride c < 0
      · rw [if_pos hst] at h
        cases hpre : encodeVarInt (part.length : Int) with
        | error e =>
          rw [hpre] at h
          exact absurd h (by simp)
        | ok pre =>
          rw [hpre] at h
          cases hrest : encodeTupleParts cs vs with
          | error e =>
            rw [hrest] at h
            exact absurd h (by simp)
          | ok rest =>
            rw [hrest] at h
            simp only [Except.ok.injEq] at h
            obtain ⟨hpre2, _, _⟩ := encodeVarInt_ok hpre
            refine ⟨v, vs, part, rest, rfl, henc, hrest, Or.inl ⟨hst, ?_⟩⟩
            rw [← h, hpre2]
            simp
      · rw [if_neg hst] at h
        cases hrest : encodeTupleParts cs vs with
        | error e =>
          rw [hrest] at h
          exact absurd h (by simp)
        | ok rest =>
          rw [hrest] at h
          simp only [Except.ok.injEq] at h
          exact ⟨v, vs, part, rest, rfl, henc, hrest, Or.inr ⟨by omega, h.symm⟩⟩

theorem encodeListFixed_nil (c : Cd) : encodeListFixed c [] = .ok [] := by
  rw [encodeListFixed]

theorem encodeListFixed_cons_ok {c : Cd} {v : Val} {vs : List Val}
    {parts : List (List Nat)}
    (h : encodeListFixed c (v :: vs) = .ok parts) :
    ∃ part rest, encode c v = .ok part ∧ encodeListFixed c vs = .ok rest ∧
      parts = part :: rest := by
  rw [encodeListFixed] at h
  cases henc : encode c v with
  | error e =>
    rw [henc] at h
    exact absurd h (by simp [bind, Except.bind])
  | ok part =>
    rw [henc] at h
    simp only [bind, Except.bind] at h
    cases hrest : encodeListFixed c vs with
    | error e =>
      rw [hrest] at h
      exact absurd h (by simp)
    | ok rest =>
      rw [hrest] at h
      simp only [Except.ok.injEq] at h
      exact ⟨part, rest, rfl, rfl, h.symm⟩

theorem encodeVecVar_nil (c : Cd) : encodeVecVar c [] = .ok [] := by
  rw [encodeVecVar]

theorem encodeVecVar_cons_ok {c : Cd} {v : Val} {vs : List Val}
    {parts : List (List Nat)}
    (h : encodeVecVar c (v :: vs) = .ok parts) :
    ∃ part rest, encode c v = .ok part ∧ encodeVecVar c vs = .ok rest ∧
      parts = encodeVarIntLoop part.length :: part :: rest := by
  rw [encodeVecVar] at h
  cases henc : encode c v with
  | error e =>
    rw [henc] at h
    exact absurd h (by simp [bind, Except.bind])
  | ok part =>
    rw [henc] at h
    simp only [bind, Except.bind] at h
    cases hpre : encodeVarInt (part.length : Int) with
    | error e =>
      rw [hpre] at h
      exact absurd h (by simp)
    | ok pre =>
      rw [hpre] at h
      cases hrest : encodeVecVar c vs with
      | error e =>
        rw [hrest] at h
        exact absurd h (by simp)
      | ok rest =>
        rw [hrest] at h
        simp only [Except.ok.injEq] at h
        obtain ⟨hpre2, _, _⟩ := encodeVarInt_ok hpre
        refine ⟨part, rest, rfl, rfl, ?_⟩
        rw [← h, hpre2]
        simp

theorem encodePair_ok {kc vc : Cd} {a b : Val} {bs : List Nat}
    (h : encodePair kc vc a b = .ok bs) :
    ∃ pk pv, encode kc a = .ok pk ∧ encode vc b = .ok pv ∧
      bs = (if stride kc < 0 then encodeVarIntLoop pk.length ++ pk else pk)
        ++ (if stride vc < 0 then encodeVarIntLoop pv.length ++ pv else pv) := by
  rw [encodePair] at h
  cases hk : encode kc a with
  | error e =>
    rw [hk] at h
    exact absurd h (by simp [bind, Except.bind])
  | ok pk =>
    rw [hk] at h
    simp only [bind, Except.bind] at h
    by_cases hsk : stride kc < 0
    · rw [if_pos hsk] at h
      cases hpre : encodeVarInt (pk.length : Int) with
      | error e =>
        rw [hpre] at h
        exact absurd h (by simp [Except.map])
      | ok pre =>
        rw [hpre] at h
        simp only [Except.map] at h
        cases hv : encode vc b with
        | error e =>
          rw [hv] at h
          exact absurd h (by simp)
        | ok pv =>
          rw [hv] at h
          simp only [] at h
          by_cases hsv : stride vc < 0
          · rw [if_pos hsv] at h
            cases hpv : encodeVarInt (pv.length : Int) with
            | error e =>
              rw [hpv] at h
              exact absurd h (by simp [Except.map])
            | ok pre2 =>
              rw [hpv] at h
              simp only [Except.map, Except.ok.injEq] at h
              obtain ⟨hp1, _, _⟩ := encodeVarInt_ok hpre
              obtain ⟨hp2, _, _⟩ := encodeVarInt_ok hpv
              refine ⟨pk, pv, rfl, rfl, ?_⟩
              rw [if_pos hsk, if_pos hsv, ← h, hp1, hp2]
              simp
          · rw [if_neg hsv] at h
            simp only [Except.ok.injEq] at h
            obtain ⟨hp1, _, _⟩ := encodeVarInt_ok hpre
            refine ⟨pk, pv, rfl, rfl, ?_⟩
            rw [if_pos hsk, if_neg hsv, ← h, hp1]
            simp
    · rw [if_neg hsk] at h
      cases hv : encode vc b with
      | error e =>
        rw [hv] at h
        exact absurd h (by simp)
      | ok pv =>
        rw [hv] at h
        simp only [] at h
        by_cases hsv : stride vc < 0
        · rw [if_pos hsv] at h
          cases hpv : encodeVarInt (pv.length : Int) with
          | error e =>
            rw [hpv] at h
            exact absurd h (by simp [Except.map])
          | ok pre2 =>
            rw [hpv] at h
            simp only [Except.map, Except.ok.injEq] at h
            obtain ⟨hp2, _, _⟩ := encodeVarInt_ok hpv
            refine ⟨pk, pv, rfl, rfl, ?_⟩
            rw [if_neg hsk, if_pos hsv, ← h, hp2]
            simp
        · rw [if_neg hsv] at h
          simp only [Except.ok.injEq] at h
          refine ⟨pk, pv, rfl, rfl, ?_⟩
          rw [if_neg hsk, if_neg hsv, ← h]

theorem encodeMapFixed_nil (kc vc : Cd) : encodeMapFixed kc vc [] = .ok [] := by
  rw [encodeMapFixed]

theorem encodeMapFixed_cons_ok {kc vc : Cd} {a b : Val} {es : List (Val × Val)}
    {parts : List (List Nat)}
    (h : encodeMapFixed kc vc ((a, b) :: es) = .ok parts) :
    ∃ part rest, encodePair kc vc a b = .ok part ∧
      encodeMapFixed kc vc es = .ok rest ∧ parts = part :: rest := by
  rw [encodeMapFixed] at h
  cases hp : encodePair kc vc a b with
  | error e =>
    rw [hp] at h
    exact absurd h (by simp [bind, Except.bind])
  | ok part =>
    rw [hp] at h
    simp only [bind, Except.bind] at h
    cases hrest : encodeMapFixed kc vc es with
    | error e =>
      rw [hrest] at h
      exact absurd h (by simp)
    | ok rest =>
      rw [hrest] at h
      simp only [Except.ok.injEq] at h
      exact ⟨part, rest, rfl, rfl, h.symm⟩

theorem encodeMapVar_nil (kc vc : Cd) : encodeMapVar kc vc [] = .ok [] := by
  rw [encodeMapVar]

theorem encodeMapVar_cons_ok {kc vc : Cd} {a b : Val} {es : List (Val × Val)}
    {parts : List (List Nat)}
    (h : encodeMapVar kc vc ((a, b) :: es) = .ok parts) :
    ∃ part rest, encodePair kc vc a b = .ok part ∧
      encodeMapVar kc vc es = .ok rest ∧
      parts = encodeVarIntLoop part.length :: part :: rest := by
  rw [encodeMapVar] at h
  cases hp : encodePair kc vc a b with
  | error e =>
    rw [hp] at h
    exact absurd h (by simp [bind, Except.bind])
  | ok part =>
    rw [hp] at h
    simp only [bind, Except.bind] at h
    cases hpre : encodeVarInt (part.length : Int) with
    | error e =>
      rw [hpre] at h
      exact absurd h (by simp)
    | ok pre =>
      rw [hpre] at h
      cases hrest : encodeMapVar kc vc es with
      | error e =>
        rw [hrest] at h
        exact absurd h (by simp)
      | ok rest =>
        rw [hrest] at h
        simp only [Except.ok.injEq] at h
        obtain ⟨hpre2, _, _⟩ := encodeVarInt_ok hpre
        refine ⟨part, rest, rfl, rfl, ?_⟩
        rw [← h, hpre2]
        simp

theorem mem_of_lookup {vs : List (String × Cd)} {k : String} {c : Cd}
    (h : vs.lookup k = some c) : (k, c) ∈ vs := by
  induction vs with
  | nil => simp [List.lookup] at h
  | cons e rest ih =>
    obtain ⟨k2, c2⟩ := e
    rw [List.lookup] at h
    cases hk : (k == k2) with
    | true =>
      rw [hk] at h
      simp only [Option.some.injEq] at h
      subst h
      have := eq_of_beq hk
      subst this
      simp
    | false =>
      rw [hk] at h
      exact List.mem_cons_of_mem _ (ih h)

theorem snd_mem_map_of_lookup {vs : List (String × Cd)} {k : String} {c : Cd}
    (h : vs.lookup k = some c) : c ∈ vs.map Prod.snd := by
  exact List.mem_map.2 ⟨(k, c), mem_of_lookup h, rfl⟩

theorem indexOf?_eq_none_of_not_mem {l : List String} {k : String}
    (h : k ∉ l) : l.indexOf? k = none := by
  induction l with
  | nil => simp [List.indexOf?]
  | cons x xs ih =>
    rw [List.indexOf?_cons]
    have hx : (x == k) = false := by
      simp only [beq_eq_false_iff_ne, ne_eq]
      intro hcon
      exact h (by rw [hcon]; simp)
    rw [hx]
    simp only [Bool.false_eq_true, if_false]
    rw [ih (fun hm => h (List.mem_cons_of_mem _ hm))]
    rfl

theorem length_sortKeys (vs : List (String × Cd)) :
    (sortKeys vs).length = vs.length := by
  unfold sortKeys
  rw [List.length_insertionSort, List.length_map]

theorem mem_sortKeys {vs : List (String × Cd)} {k : String} :
    k ∈ sortKeys vs ↔ k ∈ vs.map Prod.fst := by
  unfold sortKeys
  exact (List.perm_insertionSort keyLe _).mem_iff

theorem sortKeys_perm {vs1 vs2 : List (String × Cd)} (h : vs1.Perm vs2) :
    sortKeys vs1 = sortKeys vs2 := by
  unfold sortKeys
  have hp : List.Perm ((vs1.map Prod.fst).insertionSort keyLe)
      ((vs2.map Prod.fst).insertionSort keyLe) :=
    ((List.perm_insertionSort keyLe _).trans (h.map Prod.fst)).trans
      (List.perm_insertionSort keyLe _).symm
  have hs1 : List.Sorted keyLe ((vs1.map Prod.fst).insertionSort keyLe) :=
    List.sorted_insertionSort keyLe _
  have hs2 : List.Sorted keyLe ((vs2.map Prod.fst).insertionSort keyLe) :=
    List.sorted_insertionSort keyLe _
  exact List.eq_of_perm_of_sorted hp hs1 hs2

theorem mapSet_append {m : List (Val × Val)} {k v : Val}
    (h : ∀ p ∈ m, beqVal p.1 k = false) :
    mapSet m k v = m ++ [(k, v)] := by
  induction m with
  | nil => rfl
  | cons e rest ih =>
    obtain ⟨k2, v2⟩ := e
    rw [mapSet]
    have hk2 : beqVal k2 k = false := h (k2, v2) (by simp)
    rw [hk2]
    simp only [Bool.false_eq_true, if_false, List.cons_append, List.cons.injEq,
      true_and]
    exact ih (fun p hp => h p (by simp [hp]))

theorem mapFromEntries_go (es : List (Val × Val)) :
    ∀ m : List (Val × Val),
      (∀ p ∈ m, ∀ q ∈ es, beqVal p.1 q.1 = false) →
      distinctKeys (es.map Prod.fst) = true →
      es.foldl (fun m2 e => mapSet m2 e.1 e.2) m = m ++ es := by
  induction es with
  | nil =>
    intro m _ _
    simp
  | cons e rest ih =>
    intro m hm hdk
    obtain ⟨k, v⟩ := e
    rw [List.map_cons, distinctKeys] at hdk
    simp only [Bool.and_eq_true, List.all_eq_true] at hdk
    rw [List.foldl_cons]
    have hset : mapSet m k v = m ++ [(k, v)] :=
      mapSet_append (fun p hp => hm p hp (k, v) (by simp))
    simp only at hset
    rw [hset]
    have hrec := ih (m ++ [(k, v)]) ?_ hdk.2
    · rw [hrec]
      simp
    · intro p hp q hq
      rcases List.mem_append.1 hp with hp | hp
      · exact hm p hp q (by simp [hq])
      · simp at hp
        subst hp
        have := hdk.1 q.1 (List.mem_map.2 ⟨q, hq, rfl⟩)
        simpa using this

theorem mapFromEntries_distinct {es : List (Val × Val)}
    (h : distinctKeys (es.map Prod.fst) = true) :
    mapFromEntries es = es := by
  unfold mapFromEntries
  have := mapFromEntries_go es [] (by simp) h
  simpa using this

theorem encodeListFixed_count {c : Cd} :
    ∀ {vs : List Val} {parts : List (List Nat)},
      encodeListFixed c vs = .ok parts → parts.length = vs.length := by
  intro vs
  induction vs with
  | nil =>
    intro parts h
    rw [encodeListFixed_nil] at h
    simp only [Except.ok.injEq] at h
    rw [← h]
    rfl
  | cons v rest ih =>
    intro parts h
    obtain ⟨part, rest2, _, hrest, hp⟩ := encodeListFixed_cons_ok h
    subst hp
    simp [ih hrest]

theorem encodeMapFixed_count {kc vc : Cd} :
    ∀ {es : List (Val × Val)} {parts : List (List Nat)},
      encodeMapFixed kc vc es = .ok parts → parts.length = es.length := by
  intro es
  induction es with
  | nil =>
    intro parts h
    rw [encodeMapFixed_nil] at h
    simp only [Except.ok.injEq] at h
    rw [← h]
    rfl
  | cons e rest ih =>
    intro parts h
    obtain ⟨a, b⟩ := e
    obtain ⟨part, rest2, _, hrest, hp⟩ := encodeMapFixed_cons_ok h
    subst hp
    simp [ih hrest]

theorem encodeVecVar_count_le {c : Cd} :
    ∀ {vs : List Val} {parts : List (List Nat)},
      encodeVecVar c vs = .ok parts → vs.length ≤ parts.flatten.length := by
  intro vs
  induction vs with
  | nil =>
    intro parts h
    rw [encodeVecVar_nil] at h
    simp only [Except.ok.injEq] at h
    rw [← h]
    simp
  | cons v rest ih =>
    intro parts h
    obtain ⟨part, rest2, _, hrest, hp⟩ := encodeVecVar_cons_ok h
    subst hp
    have h1 := encodeVarIntLoop_ne_nil part.length
    have h2 : 1 ≤ (encodeVarIntLoop part.length).length := by
      cases he : encodeVarIntLoop part.length with
      | nil => exact absurd he h1
      | cons x xs => simp
    have := ih hrest
    simp only [List.flatten_cons, List.length_append, List.length_cons]
    omega

theorem encodeMapVar_count_le {kc vc : Cd} :
    ∀ {es : List (Val × Val)} {parts : List (List Nat)},
      encodeMapVar kc vc es = .ok parts → es.length ≤ parts.flatten.length := by
  intro es
  induction es with
  | nil =>
    intro parts h
    rw [encodeMapVar_nil] at h
    simp only [Except.ok.injEq] at h
    rw [← h]
    simp
  | cons e rest ih =>
    intro parts h
    obtain ⟨a, b⟩ := e
    obtain ⟨part, rest2, _, hrest, hp⟩ := encodeMapVar_cons_ok h
    subst hp
    have h1 := encodeVarIntLoop_ne_nil part.length
    have h2 : 1 ≤ (encodeVarIntLoop part.length).length := by
      cases he : encodeVarIntLoop part.length with
      | nil => exact absurd he h1
      | cons x xs => simp
    have := ih hrest
    simp only [List.flatten_cons, List.length_append, List.length_cons]
    omega

theorem setAllGo_length {s : Nat} :
    ∀ {parts : List (List Nat)} {buf out : List Nat} {off : Nat},
      setAllGo s parts buf off = .ok out → out.length = buf.length := by
  intro parts
  induction parts with
  | nil =>
    intro buf out off h
    rw [setAllGo] at h
    simp only [Except.ok.injEq] at h
    rw [← h]
  | cons p ps ih =>
    intro buf out off h
    rw [setAllGo] at h
    cases hset : typedArraySet buf p off with
    | error e =>
      rw [hset] at h
      exact absurd h (by simp [bind, Except.bind])
    | ok buf2 =>
      rw [hset] at h
      simp only [bind, Except.bind] at h
      have hlen2 : buf2.length = buf.length := by
        unfold typedArraySet at hset
        split at hset
        · next hfit =>
          simp only [Except.ok.injEq] at hset
          rw [← hset]
          simp
          omega
        · exact absurd hset (by simp)
      rw [ih h, hlen2]

theorem setAllGo_bytes {s : Nat} :
    ∀ {parts : List (List Nat)} {buf out : List Nat} {off : Nat},
      (∀ b ∈ buf, b < 256) → (∀ p ∈ parts, ∀ b ∈ p, b < 256) →
      setAllGo s parts buf off = .ok out → ∀ b ∈ out, b < 256 := by
  intro parts
  induction parts with
  | nil =>
    intro buf out off hbuf _ h
    rw [setAllGo] at h
    simp only [Except.ok.injEq] at h
    rw [← h]
    exact hbuf
  | cons p ps ih =>
    intro buf out off hbuf hparts h
    rw [setAllGo] at h
    cases hset : typedArraySet buf p off with
    | error e =>
      rw [hset] at h
      exact absurd h (by simp [bind, Except.bind])
    | ok buf2 =>
      rw [hset] at h
      simp only [bind, Except.bind] at h
      have hbuf2 : ∀ b ∈ buf2, b < 256 := by
        unfold typedArraySet at hset
        split at hset
        · simp only [Except.ok.injEq] at hset
          rw [← hset]
          intro b hb
          rcases List.mem_append.1 hb with hb | hb
          · rcases List.mem_append.1 hb with hb | hb
            · exact hbuf b (List.mem_of_mem_take hb)
            · exact hparts p (by simp) b hb
          · exact hbuf b (List.mem_of_mem_drop hb)
        · exact absurd hset (by simp)
      exact ih hbuf2 (fun q hq => hparts q (by simp [hq])) h

theorem except_map_ok {α β : Type} {f : α → β} {x : Except Err α} {b : β}
    (h : x.map f = .ok b) : ∃ a, x = .ok a ∧ b = f a := by
  cases x with
  | error e => simp [Except.map] at h
  | ok a =>
    simp only [Except.map, Except.ok.injEq] at h
    exact ⟨a, rfl, h.symm⟩

theorem encode_option_ok {c : Cd} {v : Val} {bs : List Nat}
    (h : encode (.option c) v = .ok bs) :
    (v = .vnull ∧ bs = [0]) ∨
      (v ≠ .vnull ∧ ∃ part, encode c v = .ok part ∧ bs = 1 :: part) := by
  cases v
  case vnull =>
    left
    simp [encode] at h
    exact ⟨rfl, h.symm⟩
  all_goals
    (right
     refine ⟨by simp, ?_⟩
     simp only [encode] at h
     obtain ⟨part, hp, hb⟩ := except_map_ok h
     exact ⟨part, hp, hb⟩)

theorem domain_option_some {c : Cd} {v : Val} (hv : v ≠ .vnull)
    (hd : domain (.option c) v = true) : domain c v = true := by
  cases v
  case vnull => exact absurd rfl hv
  all_goals simpa [domain] using hd

theorem encodeTupleParts_bytes {cs : List Cd}
    (hch : ∀ c ∈ cs, ∀ v bs, uniqKeys c = true → domain c v = true →
      encode c v = .ok bs → ∀ b ∈ bs, b < 256) :
    ∀ {vs : List Val} {parts : List (List Nat)},
      uniqList cs = true → domainList cs vs = true →
      encodeTupleParts cs vs = .ok parts →
      ∀ p ∈ parts, ∀ b ∈ p, b < 256 := by
  induction cs with
  | nil =>
    intro vs parts _ _ henc
    rw [encodeTupleParts_nil] at henc
    simp only [Except.ok.injEq] at henc
    subst henc
    simp
  | cons c cs2 ih =>
    intro vs0 parts huniq hdom henc
    obtain ⟨v, vs, part, rest, hvs, henc1, hrest, hcase⟩ :=
      encodeTupleParts_cons_ok henc
    subst hvs
    rw [domainList] at hdom
    rw [uniqList] at huniq
    simp only [Bool.and_eq_true] at hdom huniq
    have hpart := hch c (by simp) v part huniq.1 hdom.1 henc1
    have hrest2 := ih (fun c2 hc2 => hch c2 (by simp [hc2])) huniq.2 hdom.2 hrest
    rcases hcase with ⟨_, hp⟩ | ⟨_, hp⟩ <;> subst hp
    · intro p hp
      rcases List.mem_cons.1 hp with hp | hp
      · subst hp
        exact encodeVarIntLoop_bytes _
      rcases List.mem_cons.1 hp with hp | hp
      · subst hp
        exact hpart
      · exact hrest2 p hp
    · intro p hp
      rcases List.mem_cons.1 hp with hp | hp
      · subst hp
        exact hpart
      · exact hrest2 p hp

theorem encodeListFixed_bytes {c : Cd}
    (hch : ∀ v bs, uniqKeys c = true → domain c v = true →
      encode c v = .ok bs → ∀ b ∈ bs, b < 256)
    (huniq : uniqKeys c = true) :
    ∀ {vs : List Val} {parts : List (List Nat)},
      domainElems c vs = true → encodeListFixed c vs = .ok parts →
      ∀ p ∈ parts, ∀ b ∈ p, b < 256 := by
  intro vs
  induction vs with
  | nil =>
    intro parts _ henc
    rw [encodeListFixed_nil] at henc
    simp only [Except.ok.injEq] at henc
    subst henc
    simp
  | cons v rest ih =>
    intro parts hdom henc
    obtain ⟨part, rest2, henc1, hrest, hp⟩ := encodeListFixed_cons_ok henc
    subst hp
    rw [domainElems] at hdom
    simp only [Bool.and_eq_true] at hdom
    intro p hp
    rcases List.mem_cons.1 hp with hp | hp
    · subst hp
      exact hch v p huniq hdom.1 henc1
    · exact ih hdom.2 hrest p hp

theorem encodeVecVar_bytes {c : Cd}
    (hch : ∀ v bs, uniqKeys c = true → domain c v = true →
      encode c v = .ok bs → ∀ b ∈ bs, b < 256)
    (huniq : uniqKeys c = true) :
    ∀ {vs : List Val} {parts : List (List Nat)},
      domainElems c vs = true → encodeVecVar c vs = .ok parts →
      ∀ p ∈ parts, ∀ b ∈ p, b < 256 := by
  intro vs
  induction vs with
  | nil =>
    intro parts _ henc
    rw [encodeVecVar_nil] at henc
    simp only [Except.ok.injEq] at henc
    subst henc
    simp
  | cons v rest ih =>
    intro parts hdom henc
    obtain ⟨part, rest2, henc1, hrest, hp⟩ := encodeVecVar_cons_ok henc
    subst hp
    rw [domainElems] at hdom
    simp only [Bool.and_eq_true] at hdom
    intro p hp
    rcases List.mem_cons.1 hp with hp | hp
    · subst hp
      exact encodeVarIntLoop_bytes _
    rcases List.mem_cons.1 hp with hp | hp
    · subst hp
      exact hch v p huniq hdom.1 henc1
    · exact ih hdom.2 hrest p hp

theorem encodePair_bytes {kc vc : Cd}
    (hk : ∀ v bs, uniqKeys kc = true → domain kc v = true →
      encode kc v = .ok bs → ∀ b ∈ bs, b < 256)
    (hv : ∀ v bs, uniqKeys vc = true → domain vc v = true →
      encode vc v = .ok bs → ∀ b ∈ bs, b < 256)
    (huk : uniqKeys kc = true) (huv : uniqKeys vc = true)
    {a b : Val} {bs : List Nat}
    (hda : domain kc a = true) (hdb : domain vc b = true)
    (henc : encodePair kc vc a b = .ok bs) : ∀ x ∈ bs, x < 256 := by
  obtain ⟨pk, pv, hpk, hpv, hbs⟩ := encodePair_ok henc
  subst hbs
  have h1 := hk a pk huk hda hpk
  have h2 := hv b pv huv hdb hpv
  intro x hx
  rcases List.mem_append.1 hx with hx | hx
  · split at hx
    · rcases List.mem_append.1 hx with hx | hx
      · exact encodeVarIntLoop_bytes _ x hx
      · exact h1 x hx
    · exact h1 x hx
  · split at hx
    · rcases List.mem_append.1 hx with hx | hx
      · exact encodeVarIntLoop_bytes _ x hx
      · exact h2 x hx
    · exact h2 x hx

theorem encodeMapFixed_bytes {kc vc : Cd}
    (hk : ∀ v bs, uniqKeys kc = true → domain kc v = true →
      encode kc v = .ok bs → ∀ b ∈ bs, b < 256)
    (hv : ∀ v bs, uniqKeys vc = true → domain vc v = true →
      encode vc v = .ok bs → ∀ b ∈ bs, b < 256)
    (huk : uniqKeys kc = true) (huv : uniqKeys vc = true) :
    ∀ {es : List (Val × Val)} {parts : List (List Nat)},
      domainPairs kc vc es = true → encodeMapFixed kc vc es = .ok parts →
      ∀ p ∈ parts, ∀ b ∈ p, b < 256 := by
  intro es
  induction es with
  | nil =>
    intro parts _ henc
    rw [encodeMapFixed_nil] at henc
    simp only [Except.ok.injEq] at henc
    subst henc
    simp
  | cons e rest ih =>
    intro parts hdom henc
    obtain ⟨a, b⟩ := e
    obtain ⟨part, rest2, henc1, hrest, hp⟩ := encodeMapFixed_cons_ok henc
    subst hp
    rw [domainPairs] at hdom
    simp only [Bool.and_eq_true] at hdom
    intro p hp
    rcases List.mem_cons.1 hp with hp | hp
    · subst hp
      exact encodePair_bytes hk hv huk huv hdom.1.1 hdom.1.2 henc1
    · exact ih hdom.2 hrest p hp

theorem encodeMapVar_bytes {kc vc : Cd}
    (hk : ∀ v bs, uniqKeys kc = true → domain kc v = true →
      encode kc v = .ok bs → ∀ b ∈ bs, b < 256)
    (hv : ∀ v bs, uniqKeys vc = true → domain vc v = true →
      encode vc v = .ok bs → ∀ b ∈ bs, b < 256)
    (huk : uniqKeys kc = true) (huv : uniqKeys vc = true) :
    ∀ {es : List (Val × Val)} {parts : List (List Nat)},
      domainPairs kc vc es = true → encodeMapVar kc vc es = .ok parts →
      ∀ p ∈ parts, ∀ b ∈ p, b < 256 := by
  intro es
  induction es with
  | nil =>
    intro parts _ henc
    rw [encodeMapVar_nil] at henc
    simp only [Except.ok.injEq] at henc
    subst henc
    simp
  | cons e rest ih =>
    intro parts hdom henc
    obtain ⟨a, b⟩ := e
    obtain ⟨part, rest2, henc1, hrest, hp⟩ := encodeMapVar_cons_ok henc
    subst hp
    rw [domainPairs] at hdom
    simp only [Bool.and_eq_true] at hdom
    intro p hp
    rcases List.mem_cons.1 hp with hp | hp
    · subst hp
      exact encodeVarIntLoop_bytes _
    rcases List.mem_cons.1 hp with hp | hp
    · subst hp
      exact encodePair_bytes hk hv huk huv hdom.1.1 hdom.1.2 henc1
    · exact ih hdom.2 hrest p hp

/-- Every byte of an encoder output is an actual byte: the source writes
through Uint8Array and DataView, which truncate to eight bits. -/
theorem encode_bytes :
    ∀ (c : Cd) (v : Val) (bs : List Nat), uniqKeys c = true →
      domain c v = true → encode c v = .ok bs → ∀ b ∈ bs, b < 256 := by
  intro c
  induction c using Cd.ind with
  | hi8 =>
    intro v bs _ hdom henc
    cases v <;> simp [encode] at henc
    subst henc
    exact leBytes_bytes _ _
  | hu8 =>
    intro v bs _ hdom henc
    cases v <;> simp [encode] at henc
    subst henc
    exact leBytes_bytes _ _
  | hi16 =>
    intro v bs _ hdom henc
    cases v <;> simp [encode] at henc
    subst henc
    exact leBytes_bytes _ _
  | hu16 =>
    intro v bs _ hdom henc
    cases v <;> simp [encode] at henc
    subst henc
    exact leBytes_bytes _ _
  | hi32 =>
    intro v bs _ hdom henc
    cases v <;> simp [encode] at henc
    subst henc
    exact leBytes_bytes _ _
  | hu32 =>
    intro v bs _ hdom henc
    cases v <;> simp [encode] at henc
    subst henc
    exact leBytes_bytes _ _
  | hi64 =>
    intro v bs _ hdom henc
    cases v <;> simp [encode] at henc
    subst henc
    exact leBytes_bytes _ _
  | hu64 =>
    intro v bs _ hdom henc
    cases v <;> simp [encode] at henc
    subst henc
    exact leBytes_bytes _ _
  | hf32 =>
    intro v bs _ hdom henc
    cases v <;> simp [encode] at henc
    subst henc
    exact leBytes_bytes _ _
  | hf64 =>
    intro v bs _ hdom henc
    cases v <;> simp [encode] at henc
    subst henc
    exact leBytes_bytes _ _
  | hbool =>
    intro v bs _ hdom henc
    cases v <;> simp [encode] at henc
    subst henc
    intro x hx
    next b =>
      cases b <;> simp at hx <;> omega
  | hstr =>
    intro v bs _ hdom henc
    cases v <;> simp [encode] at henc
    next bs0 =>
      subst henc
      simp only [domain, List.all_eq_true, decide_eq_true_eq] at hdom
      exact hdom
  | hbytes =>
    intro v bs _ hdom henc
    cases v <;> simp [encode] at henc
    next bs0 =>
      subst henc
      simp only [domain, List.all_eq_true, decide_eq_true_eq] at hdom
      exact hdom
  | hoption c hc =>
    intro v bs huniq hdom henc
    rw [uniqKeys] at huniq
    rcases encode_option_ok henc with ⟨hv, hb⟩ | ⟨hv, part, hp, hb⟩
    · subst hb
      intro x hx
      simp at hx
      omega
    · subst hb
      intro x hx
      rcases List.mem_cons.1 hx with hx | hx
      · omega
      · exact hc v part huniq (domain_option_some hv hdom) hp x hx
  | htuple cs hcs =>
    intro v bs huniq hdom henc
    cases v <;> simp [encode, domain] at henc hdom
    next vs =>
      obtain ⟨parts, hp, hb⟩ := except_map_ok henc
      subst hb
      rw [uniqKeys] at huniq
      intro x hx
      obtain ⟨p, hpm, hxp⟩ := List.mem_flatten.1 hx
      exact encodeTupleParts_bytes (fun c hc2 v2 bs2 => hcs c hc2 v2 bs2)
        huniq hdom hp p hpm x hxp
  | hstruct fs hfs =>
    intro v bs huniq hdom henc
    cases v <;> simp [encode, domain] at henc hdom
    next kvs =>
      rw [uniqKeys] at huniq
      simp only [Bool.and_eq_true, decide_eq_true_eq] at huniq
      rw [lookupAllFields_canonical huniq.1 hdom] at henc
      simp only [Option.some.injEq] at henc
      obtain ⟨parts, hp, hb⟩ := except_map_ok henc
      subst hb
      intro x hx
      obtain ⟨p, hpm, hxp⟩ := List.mem_flatten.1 hx
      refine encodeTupleParts_bytes ?_ huniq.2 (domainFields_to_domainList hdom)
        hp p hpm x hxp
      intro c hc2 v2 bs2
      obtain ⟨q, hq, hq2⟩ := List.mem_map.1 hc2
      exact hq2 ▸ hfs q hq v2 bs2
  | hvector c hc =>
    intro v bs huniq hdom henc
    cases v <;> simp [encode, domain] at henc hdom
    next vs =>
      rw [uniqKeys] at huniq
      split at henc
      · simp only [bind, Except.bind] at henc
        cases hlf : encodeListFixed c vs with
        | error e =>
          rw [hlf] at henc
          exact absurd henc (by simp)
        | ok parts =>
          rw [hlf] at henc
          simp only [] at henc
          refine setAllGo_bytes
            (fun b hb => by rw [List.eq_of_mem_replicate hb]; norm_num) ?_ henc
          exact encodeListFixed_bytes (fun v2 bs2 => hc v2 bs2) huniq hdom hlf
      · obtain ⟨parts, hp, hb⟩ := except_map_ok henc
        subst hb
        intro x hx
        obtain ⟨p, hpm, hxp⟩ := List.mem_flatten.1 hx
        exact encodeVecVar_bytes (fun v2 bs2 => hc v2 bs2) huniq hdom hp p hpm x hxp
  | henum vs hvs =>
    intro v bs huniq hdom henc
    cases v <;> simp [encode, domain] at henc hdom
    next k v2 =>
      split at henc
      · exact absurd henc (by simp)
      · split at henc
        · exact absurd henc (by simp)
        · simp only [bind, Except.bind] at henc
          cases hpart : encode _ v2 with
          | error e =>
            rw [hpart] at henc
            exact absurd henc (by simp)
          | ok part =>
            rw [hpart] at henc
            simp only [Except.ok.injEq] at henc
            subst henc
            intro x hx
            rcases List.mem_cons.1 hx with hx | hx
            · omega
            · obtain ⟨y, _, hy2⟩ := List.mem_map.1 hx
              omega
  | hmapping kc vc hkc hvc =>
    intro v bs huniq hdom henc
    cases v <;> simp [encode, domain] at henc hdom
    next es =>
      rw [uniqKeys] at huniq
      simp only [Bool.and_eq_true] at huniq
      split at henc
      · simp only [bind, Except.bind] at henc
        cases hmf : encodeMapFixed kc vc es with
        | error e =>
          rw [hmf] at henc
          exact absurd henc (by simp)
        | ok parts =>
          rw [hmf] at henc
          simp only [] at henc
          refine setAllGo_bytes
            (fun b hb => by rw [List.eq_of_mem_replicate hb]; norm_num) ?_ henc
          exact encodeMapFixed_bytes (fun v2 bs2 => hkc v2 bs2)
            (fun v2 bs2 => hvc v2 bs2) huniq.1 huniq.2 hdom.1 hmf
      · obtain ⟨parts, hp, hb⟩ := except_map_ok henc
        subst hb
        intro x hx
        obtain ⟨p, hpm, hxp⟩ := List.mem_flatten.1 hx
        exact encodeMapVar_bytes (fun v2 bs2 => hkc v2 bs2)
          (fun v2 bs2 => hvc v2 bs2) huniq.1 huniq.2 hdom.1 hp p hpm x hxp

theorem encodeTupleParts_flatten_length {cs : List Cd}
    (hch : ∀ c ∈ cs, ∀ v bs, uniqKeys c = true → domain c v = true →
      encode c v = .ok bs → 0 ≤ stride c → (bs.length : Int) = stride c)
    (hall : ∀ c ∈ cs, 0 ≤ stride c) :
    ∀ {vs : List Val} {parts : List (List Nat)},
      uniqList cs = true → domainList cs vs = true →
      encodeTupleParts cs vs = .ok parts →
      (parts.flatten.length : Int) = (cs.map stride).sum := by
  induction cs with
  | nil =>
    intro vs parts _ _ henc
    rw [encodeTupleParts_nil] at henc
    simp only [Except.ok.injEq] at henc
    subst henc
    simp
  | cons c cs2 ih =>
    intro vs0 parts huniq hdom henc
    obtain ⟨v, vs, part, rest, hvs, henc1, hrest, hcase⟩ :=
      encodeTupleParts_cons_ok henc
    subst hvs
    rw [domainList] at hdom
    rw [uniqList] at huniq
    simp only [Bool.and_eq_true] at hdom huniq
    have hst := hall c (by simp)
    rcases hcase with ⟨hneg, _⟩ | ⟨_, hp⟩
    · omega
    · subst hp
      have hlen := hch c (by simp) v part huniq.1 hdom.1 henc1 hst
      have hrec := ih (fun c2 hc2 v2 bs2 => hch c2 (by simp [hc2]) v2 bs2)
        (fun c2 hc2 => hall c2 (by simp [hc2])) huniq.2 hdom.2 hrest
      simp only [List.flatten_cons, List.length_append, List.map_cons,
        List.sum_cons]
      push_cast
      rw [hlen] at *
      omega

/-- On the declared domain, a fixed-stride codec encodes to exactly its
stride many bytes. -/
theorem encode_length :
    ∀ (c : Cd) (v : Val) (bs : List Nat), uniqKeys c = true →
      domain c v = true → encode c v = .ok bs → 0 ≤ stride c →
      (bs.length : Int) = stride c := by
  intro c
  induction c using Cd.ind with
  | hi8 =>
    intro v bs _ hdom henc _
    cases v <;> simp [encode] at henc
    subst henc
    simp [stride, leBytes_length]
  | hu8 =>
    intro v bs _ hdom henc _
    cases v <;> simp [encode] at henc
    subst henc
    simp [stride, leBytes_length]
  | hi16 =>
    intro v bs _ hdom henc _
    cases v <;> simp [encode] at henc
    subst henc
    simp [stride, leBytes_length]
  | hu16 =>
    intro v bs _ hdom henc _
    cases v <;> simp [encode] at henc
    subst henc
    simp [stride, leBytes_length]
  | hi32 =>
    intro v bs _ hdom henc _
    cases v <;> simp [encode] at henc
    subst henc
    simp [stride, leBytes_length]
  | hu32 =>
    intro v bs _ hdom henc _
    cases v <;> simp [encode] at henc
    subst henc
    simp [stride, leBytes_length]
  | hi64 =>
    intro v bs _ hdom henc _
    cases v <;> simp [encode] at henc
    subst henc
    simp [stride, leBytes_length]
  | hu64 =>
    intro v bs _ hdom henc _
    cases v <;> simp [encode] at henc
    subst henc
    simp [stride, leBytes_length]
  | hf32 =>
    intro v bs _ hdom henc _
    cases v <;> simp [encode] at henc
    subst henc
    simp [stride, leBytes_length]
  | hf64 =>
    intro v bs _ hdom henc _
    cases v <;> simp [encode] at henc
    subst henc
    simp [stride, leBytes_length]
  | hbool =>
    intro v bs _ hdom henc _
    cases v <;> simp [encode] at henc
    subst henc
    simp [stride]
  | hstr =>
    intro v bs _ _ _ hst
    simp [stride] at hst
  | hbytes =>
    intro v bs _ _ _ hst
    simp [stride] at hst
  | hoption c hc =>
    intro v bs _ _ _ hst
    simp [stride] at hst
  | htuple cs hcs =>
    intro v bs huniq hdom henc hst
    cases v <;> simp [encode, domain] at henc hdom
    next vs =>
      obtain ⟨parts, hp, hb⟩ := except_map_ok henc
      subst hb
      rw [uniqKeys] at huniq
      simp only [stride] at hst ⊢
      obtain ⟨hall, hsum⟩ := strideList_nonneg cs 0 le_rfl hst
      rw [hsum]
      simp only [zero_add]
      exact encodeTupleParts_flatten_length
        (fun c2 hc2 v2 bs2 => hcs c2 hc2 v2 bs2) hall huniq hdom hp
  | hstruct fs hfs =>
    intro v bs huniq hdom henc hst
    cases v <;> simp [encode, domain] at henc hdom
    next kvs =>
      rw [uniqKeys] at huniq
      simp only [Bool.and_eq_true, decide_eq_true_eq] at huniq
      rw [lookupAllFields_canonical huniq.1 hdom] at henc
      simp only [Option.some.injEq] at henc
      obtain ⟨parts, hp, hb⟩ := except_map_ok henc
      subst hb
      simp only [stride] at hst ⊢
      obtain ⟨hall, hsum⟩ := strideList_nonneg (fs.map Prod.snd) 0 le_rfl hst
      rw [hsum]
      simp only [zero_add]
      refine encodeTupleParts_flatten_length ?_ hall huniq.2
        (domainFields_to_domainList hdom) hp
      intro c2 hc2 v2 bs2
      obtain ⟨q, hq, hq2⟩ := List.mem_map.1 hc2
      exact hq2 ▸ hfs q hq v2 bs2
  | hvector c hc =>
    intro v bs _ _ _ hst
    simp [stride] at hst
  | henum vs hvs =>
    intro v bs _ _ _ hst
    simp [stride] at hst
  | hmapping kc vc hkc hvc =>
    intro v bs _ _ _ hst
    simp [stride] at hst

theorem encodePair_length {kc vc : Cd}
    (hk : ∀ v bs, uniqKeys kc = true → domain kc v = true →
      encode kc v = .ok bs → 0 ≤ stride kc → (bs.length : Int) = stride kc)
    (hv : ∀ v bs, uniqKeys vc = true → domain vc v = true →
      encode vc v = .ok bs → 0 ≤ stride vc → (bs.length : Int) = stride vc)
    (huk : uniqKeys kc = true) (huv : uniqKeys vc = true)
    {a b : Val} {bs : List Nat}
    (hda : domain kc a = true) (hdb : domain vc b = true)
    (hsk : 0 ≤ stride kc) (hsv : 0 ≤ stride vc)
    (henc : encodePair kc vc a b = .ok bs) :
    (bs.length : Int) = stride kc + stride vc := by
  obtain ⟨pk, pv, hpk, hpv, hbs⟩ := encodePair_ok henc
  subst hbs
  rw [if_neg (by omega), if_neg (by omega)]
  have h1 := hk a pk huk hda hpk hsk
  have h2 := hv b pv huv hdb hpv hsv
  simp only [List.length_append]
  push_cast
  omega

theorem decodeTupleLoop_total {cs : List Cd}
    (hch : ∀ c ∈ cs, 0 ≤ stride c →
      ∀ data : List Nat, stride c ≤ (data.length : Int) →
        ∃ v, decode c data = .ok v)
    (hall : ∀ c ∈ cs, 0 ≤ stride c) :
    ∀ (data : List Nat) (off : Nat),
      (off : Int) + (cs.map stride).sum ≤ (data.length : Int) →
      ∃ vs, decodeTupleLoop cs data ((off : Nat) : Int) = .ok vs ∧
        vs.length = cs.length := by
  induction cs with
  | nil =>
    intro data off _
    exact ⟨[], by rw [decodeTupleLoop], rfl⟩
  | cons c cs2 ih =>
    intro data off hlen
    have hst := hall c (by simp)
    have hsum2 : 0 ≤ (cs2.map stride).sum := by
      refine List.sum_nonneg ?_
      intro x hx
      obtain ⟨c2, hc2, hc2x⟩ := List.mem_map.1 hx
      exact hc2x ▸ hall c2 (by simp [hc2])
    simp only [List.map_cons, List.sum_cons] at hlen
    set s : Nat := (stride c).toNat with hs
    have hsc : (stride c) = (s : Int) := by omega
    have hoffs : off + s ≤ data.length := by omega
    rw [decodeTupleLoop, if_neg (by omega)]
    have hslice : jsSubarray data ((off : Nat) : Int) (((off : Nat) : Int) + stride c)
        = (data.take (off + s)).drop off := by
      rw [hsc, show ((off : Nat) : Int) + (s : Int) = ((off + s : Nat) : Int) by push_cast; ring]
      exact jsSubarray_nat data off (off + s) (by omega) hoffs
    have hplen : ((data.take (off + s)).drop off).length = s := by
      simp
      omega
    obtain ⟨v, hv⟩ := hch c (by simp) hst ((data.take (off + s)).drop off)
      (by rw [hplen, hsc])
    obtain ⟨vs, hvs, hcount⟩ := ih (fun c2 hc2 => hch c2 (by simp [hc2]))
      (fun c2 hc2 => hall c2 (by simp [hc2])) data (off + s)
      (by push_cast; omega)
    refine ⟨v :: vs, ?_, by simp [hcount]⟩
    rw [hslice]
    simp only [bind, Except.bind]
    rw [hv]
    rw [show ((off : Nat) : Int) + stride c = (((off + s : Nat) : Nat) : Int) by
      rw [hsc]; push_cast; ring]
    rw [hvs]

/-- A fixed-stride codec decodes any buffer at least as long as its
stride: its decoder reads only fixed-width primitive slices. -/
theorem decode_fixed_total :
    ∀ c : Cd, 0 ≤ stride c →
      ∀ data : List Nat, stride c ≤ (data.length : Int) →
        ∃ v, decode c data = .ok v := by
  intro c
  induction c using Cd.ind with
  | hi8 =>
    intro _ data hlen
    simp only [stride] at hlen
    exact ⟨_, by rw [decode, if_neg (by omega)]⟩
  | hu8 =>
    intro _ data hlen
    simp only [stride] at hlen
    exact ⟨_, by rw [decode, if_neg (by omega)]⟩
  | hi16 =>
    intro _ data hlen
    simp only [stride] at hlen
    exact ⟨_, by rw [decode, if_neg (by omega)]⟩
  | hu16 =>
    intro _ data hlen
    simp only [stride] at hlen
    exact ⟨_, by rw [decode, if_neg (by omega)]⟩
  | hi32 =>
    intro _ data hlen
    simp only [stride] at hlen
    exact ⟨_, by rw [decode, if_neg (by omega)]⟩
  | hu32 =>
    intro _ data hlen
    simp only [stride] at hlen
    exact ⟨_, by rw [decode, if_neg (by omega)]⟩
  | hi64 =>
    intro _ data hlen
    simp only [stride] at hlen
    exact ⟨_, by rw [decode, if_neg (by omega)]⟩
  | hu64 =>
    intro _ data hlen
    simp only [stride] at hlen
    exact ⟨_, by rw [decode, if_neg (by omega)]⟩
  | hf32 =>
    intro _ data hlen
    simp only [stride] at hlen
    exact ⟨_, by rw [decode, if_neg (by omega)]⟩
  | hf64 =>
    intro _ data hlen
    simp only [stride] at hlen
    exact ⟨_, by rw [decode, if_neg (by omega)]⟩
  | hbool =>
    intro _ data _
    cases data with
    | nil => exact ⟨.bool true, by simp [decode]⟩
    | cons b l => exact ⟨.bool (b != 0), by simp [decode]⟩
  | hstr =>
    intro hst
    simp [stride] at hst
  | hbytes =>
    intro hst
    simp [stride] at hst
  | hoption c hc =>
    intro hst
    simp [stride] at hst
  | htuple cs hcs =>
    intro hst data hlen
    simp only [stride] at hst hlen
    obtain ⟨hall, hsum⟩ := strideList_nonneg cs 0 le_rfl hst
    rw [hsum] at hlen
    simp only [zero_add] at hlen
    obtain ⟨vs, hvs, _⟩ := decodeTupleLoop_total
      (fun c2 hc2 => hcs c2 hc2) hall data 0 (by push_cast; omega)
    refine ⟨.tup vs, ?_⟩
    rw [decode]
    rw [show ((0 : Nat) : Int) = (0 : Int) from rfl] at hvs
    rw [hvs]
    rfl
  | hstruct fs hfs =>
    intro hst data hlen
    simp only [stride] at hst hlen
    obtain ⟨hall, hsum⟩ := strideList_nonneg (fs.map Prod.snd) 0 le_rfl hst
    rw [hsum] at hlen
    simp only [zero_add] at hlen
    have hch : ∀ c2 ∈ fs.map Prod.snd, 0 ≤ stride c2 →
        ∀ d : List Nat, stride c2 ≤ (d.length : Int) → ∃ v, decode c2 d = .ok v := by
      intro c2 hc2
      obtain ⟨q, hq, hq2⟩ := List.mem_map.1 hc2
      exact hq2 ▸ hfs q hq
    obtain ⟨vs, hvs, _⟩ := decodeTupleLoop_total hch hall data 0 (by push_cast; omega)
    refine ⟨.obj ((fs.map Prod.fst).zip vs), ?_⟩
    rw [decode]
    rw [show ((0 : Nat) : Int) = (0 : Int) from rfl] at hvs
    rw [hvs]
    rfl
  | hvector c hc =>
    intro hst
    simp [stride] at hst
  | henum vs hvs =>
    intro hst
    simp [stride] at hst
  | hmapping kc vc hkc hvc =>
    intro hst
    simp [stride] at hst

theorem decodeVecFixed_count {c : Cd} {s : Nat}
    (hs : 1 ≤ s) (hstr : (s : Int) = stride c)
    (htot : ∀ data : List Nat, stride c ≤ (data.length : Int) →
      ∃ v, decode c data = .ok v) :
    ∀ (data : List Nat) (off : Nat),
      ∃ vs, decodeVecFixed c s data off = .ok vs ∧
        vs.length = (data.length - off) / s := by
  have key : ∀ (n : Nat) (data : List Nat) (off : Nat), data.length - off ≤ n →
      ∃ vs, decodeVecFixed c s data off = .ok vs ∧
        vs.length = (data.length - off) / s := by
    intro n
    induction n with
    | zero =>
      intro data off hn
      rw [decodeVecFixed, if_neg (by omega)]
      refine ⟨[], rfl, ?_⟩
      rw [show data.length - off = 0 by omega, Nat.zero_div]
      rfl
    | succ n ihn =>
      intro data off hn
      by_cases hfit : off + s ≤ data.length
      · rw [decodeVecFixed, if_pos ⟨hs, hfit⟩]
        have hslice : jsSubarray data ((off : Nat) : Int) (((off : Nat) : Int) + (s : Int))
            = (data.take (off + s)).drop off := by
          rw [show ((off : Nat) : Int) + (s : Int) = ((off + s : Nat) : Int) by push_cast; ring]
          exact jsSubarray_nat data off (off + s) (by omega) hfit
        have hplen : ((data.take (off + s)).drop off).length = s := by
          simp
          omega
        obtain ⟨v, hv⟩ := htot ((data.take (off + s)).drop off)
          (by rw [hplen, hstr])
        obtain ⟨vs, hvs, hcount⟩ := ihn data (off + s) (by omega)
        refine ⟨v :: vs, ?_, ?_⟩
        · rw [hslice]
          simp only [bind, Except.bind]
          rw [hv, hvs]
        · simp only [List.length_cons, hcount]
          rw [show data.length - off = data.length - (off + s) + s by omega]
          rw [Nat.add_div_right _ (by omega)]
      · rw [decodeVecFixed, if_neg (by omega)]
        refine ⟨[], rfl, ?_⟩
        rw [Nat.div_eq_of_lt (by omega)]
        rfl
  intro data off
  exact key (data.length - off) data off le_rfl

theorem map_mod256_eq_self {l : List Nat} (h : ∀ b ∈ l, b < 256) :
    l.map (fun b => b % 256) = l := by
  induction l with
  | nil => rfl
  | cons x xs ih =>
    rw [List.map_cons, Nat.mod_eq_of_lt (h x (by simp)),
      ih (fun b hb => h b (by simp [hb]))]

theorem jsSubarray_middle (pre part tail : List Nat) :
    jsSubarray (pre ++ part ++ tail) ((pre.length : Nat) : Int)
      ((pre.length + part.length : Nat) : Int) = part := by
  rw [jsSubarray_nat _ _ _ (by simp) (by simp)]
  exact slice_middle pre part tail

theorem jsSubarrayFrom_at (pre tail : List Nat) :
    jsSubarrayFrom (pre ++ tail) ((pre.length : Nat) : Int) = tail := by
  rw [jsSubarrayFrom_nat _ _ (by simp), List.drop_left]

theorem strideList_pair {kc vc : Cd} (h : 0 ≤ strideList [kc, vc] 0) :
    0 ≤ stride kc ∧ 0 ≤ stride vc ∧
      strideList [kc, vc] 0 = stride kc + stride vc := by
  obtain ⟨hall, hsum⟩ := strideList_nonneg [kc, vc] 0 le_rfl h
  refine ⟨hall kc (by simp), hall vc (by simp), ?_⟩
  rw [hsum]
  simp

theorem encodeListFixed_stride_lengths {c : Cd} (hst : 0 ≤ stride c)
    (huniq : uniqKeys c = true) :
    ∀ {vs : List Val} {parts : List (List Nat)},
      domainElems c vs = true → encodeListFixed c vs = .ok parts →
      ∀ p ∈ parts, p.length = (stride c).toNat := by
  intro vs
  induction vs with
  | nil =>
    intro parts _ henc
    rw [encodeListFixed_nil] at henc
    simp only [Except.ok.injEq] at henc
    subst henc
    simp
  | cons v rest ih =>
    intro parts hdom henc
    obtain ⟨part, rest2, henc1, hrest, hp⟩ := encodeListFixed_cons_ok henc
    subst hp
    rw [domainElems] at hdom
    simp only [Bool.and_eq_true] at hdom
    intro p hp
    rcases List.mem_cons.1 hp with hp | hp
    · subst hp
      have := encode_length c v p huniq hdom.1 henc1 hst
      omega
    · exact ih hdom.2 hrest p hp

theorem encodeMapFixed_stride_lengths {kc vc : Cd}
    (hsk : 0 ≤ stride kc) (hsv : 0 ≤ stride vc)
    (huk : uniqKeys kc = true) (huv : uniqKeys vc = true) :
    ∀ {es : List (Val × Val)} {parts : List (List Nat)},
      domainPairs kc vc es = true → encodeMapFixed kc vc es = .ok parts →
      ∀ p ∈ parts, p.length = (stride kc + stride vc).toNat := by
  intro es
  induction es with
  | nil =>
    intro parts _ henc
    rw [encodeMapFixed_nil] at henc
    simp only [Except.ok.injEq] at henc
    subst henc
    simp
  | cons e rest ih =>
    intro parts hdom henc
    obtain ⟨a, b⟩ := e
    obtain ⟨part, rest2, henc1, hrest, hp⟩ := encodeMapFixed_cons_ok henc
    subst hp
    rw [domainPairs] at hdom
    simp only [Bool.and_eq_true] at hdom
    intro p hp
    rcases List.mem_cons.1 hp with hp | hp
    · subst hp
      have := encodePair_length (fun v2 bs2 => encode_length kc v2 bs2)
        (fun v2 bs2 => encode_length vc v2 bs2) huk huv hdom.1.1 hdom.1.2
        hsk hsv henc1
      omega
    · exact ih hdom.2 hrest p hp

theorem decodeTupleLoop_rt {cs : List Cd}
    (hch : ∀ c ∈ cs, ∀ v bs, uniqKeys c = true → vecPos c = true →
      smallEnums c = true → domain c v = true → encode c v = .ok bs →
      bs.length < 2147483648 → decode c bs = .ok v) :
    ∀ {vs : List Val} {parts : List (List Nat)} (pre rest : List Nat),
      uniqList cs = true → vecPosList cs = true → smallEnumsList cs = true →
      domainList cs vs = true → encodeTupleParts cs vs = .ok parts →
      (pre ++ parts.flatten ++ rest).length < 2147483648 →
      decodeTupleLoop cs (pre ++ parts.flatten ++ rest)
        ((pre.length : Nat) : Int) = .ok vs := by
  induction cs with
  | nil =>
    intro vs parts pre rest _ _ _ hdom henc _
    rw [encodeTupleParts_nil] at henc
    simp only [Except.ok.injEq] at henc
    subst henc
    cases vs with
    | nil => rw [decodeTupleLoop]
    | cons v vs2 => simp [domainList] at hdom
  | cons c cs2 ih =>
    intro vs0 parts pre rest huniq hvp hse hdom henc hlen
    obtain ⟨v, vs, part, rest2, hvs, henc1, hrest, hcase⟩ :=
      encodeTupleParts_cons_ok henc
    subst hvs
    rw [domainList] at hdom
    rw [uniqList] at huniq
    rw [vecPosList] at hvp
    rw [smallEnumsList] at hse
    simp only [Bool.and_eq_true] at hdom huniq hvp hse
    rcases hcase with ⟨hneg, hp⟩ | ⟨hpos, hp⟩ <;> subst hp
    · -- variable-stride child: varint length prefix then bytes
      have hD : pre ++ (encodeVarIntLoop part.length :: part :: rest2).flatten ++ rest
          = pre ++ (encodeVarIntLoop part.length ++ (part ++ (rest2.flatten ++ rest))) := by
        simp
      have hplen : part.length < 2147483648 := by
        have : part.length ≤ (pre ++ (encodeVarIntLoop part.length :: part :: rest2).flatten ++ rest).length := by
          simp
          omega
        omega
      rw [decodeTupleLoop, if_pos hneg]
      rw [show pre ++ (encodeVarIntLoop part.length :: part :: rest2).flatten ++ rest
          = pre ++ (encodeVarIntLoop part.length ++ (part ++ (rest2.flatten ++ rest))) from hD]
      rw [jsSubarrayFrom_at pre _]
      rw [decodeVarInt_encodeVarIntLoop hplen _]
      simp only [bind, Except.bind]
      have hoff1 : ((pre.length : Nat) : Int) + ((encodeVarIntLoop part.length).length : Int)
          = (((pre ++ encodeVarIntLoop part.length).length : Nat) : Int) := by
        simp
      have hslice : jsSubarray
          (pre ++ (encodeVarIntLoop part.length ++ (part ++ (rest2.flatten ++ rest))))
          (((pre.length : Nat) : Int) + ((encodeVarIntLoop part.length).length : Int))
          (((pre.length : Nat) : Int) + ((encodeVarIntLoop part.length).length : Int)
            + ((part.length : Nat) : Int)) = part := by
        rw [hoff1]
        rw [show (((pre ++ encodeVarIntLoop part.length).length : Nat) : Int)
              + ((part.length : Nat) : Int)
            = (((pre ++ encodeVarIntLoop part.length).length + part.length : Nat) : Int) by
          push_cast
          ring]
        rw [show pre ++ (encodeVarIntLoop part.length ++ (part ++ (rest2.flatten ++ rest)))
            = (pre ++ encodeVarIntLoop part.length) ++ part ++ (rest2.flatten ++ rest) by simp]
        exact jsSubarray_middle _ _ _
      rw [hslice]
      have hdec : decode c part = .ok v :=
        hch c (by simp) v part huniq.1 hvp.1 hse.1 hdom.1 henc1 hplen
      rw [hdec]
      have hrec := ih (fun c2 hc2 => hch c2 (by simp [hc2]))
        (pre ++ encodeVarIntLoop part.length ++ part) rest huniq.2 hvp.2 hse.2
        hdom.2 hrest
        (by
          rw [show pre ++ encodeVarIntLoop part.length ++ part ++ rest2.flatten ++ rest
              = pre ++ (encodeVarIntLoop part.length ++ (part ++ (rest2.flatten ++ rest))) by simp]
          rw [← hD]
          exact hlen)
      rw [show pre ++ encodeVarIntLoop part.length ++ part ++ rest2.flatten ++ rest
          = pre ++ (encodeVarIntLoop part.length ++ (part ++ (rest2.flatten ++ rest))) by simp] at hrec
      rw [show ((pre.length : Nat) : Int) + ((encodeVarIntLoop part.length).length : Int)
            + ((part.length : Nat) : Int)
          = (((pre ++ encodeVarIntLoop part.length ++ part).length : Nat) : Int) by
        simp <;> ring]
      rw [hrec]
    · -- fixed-stride child: raw bytes, advance by the stride
      have hstr : (part.length : Int) = stride c :=
        encode_length c v part huniq.1 hdom.1 henc1 hpos
      have hD : pre ++ (part :: rest2).flatten ++ rest
          = pre ++ part ++ (rest2.flatten ++ rest) := by
        simp
      have hplen : part.length < 2147483648 := by
        have : part.length ≤ (pre ++ (part :: rest2).flatten ++ rest).length := by
          simp
          omega
        omega
      rw [decodeTupleLoop, if_neg (by omega)]
      rw [hD]
      have hslice : jsSubarray (pre ++ part ++ (rest2.flatten ++ rest))
          ((pre.length : Nat) : Int) (((pre.length : Nat) : Int) + stride c) = part := by
        rw [show ((pre.length : Nat) : Int) + stride c
            = ((pre.length + part.length : Nat) : Int) by push_cast; omega]
        exact jsSubarray_middle _ _ _
      rw [hslice]
      simp only [bind, Except.bind]
      have hdec : decode c part = .ok v :=
        hch c (by simp) v part huniq.1 hvp.1 hse.1 hdom.1 henc1 hplen
      rw [hdec]
      have hrec := ih (fun c2 hc2 => hch c2 (by simp [hc2]))
        (pre ++ part) rest huniq.2 hvp.2 hse.2 hdom.2 hrest
        (by
          rw [show pre ++ part ++ rest2.flatten ++ rest
              = pre ++ part ++ (rest2.flatten ++ rest) by simp]
          rw [← hD]
          exact hlen)
      rw [show pre ++ part ++ rest2.flatten ++ rest
          = pre ++ part ++ (rest2.flatten ++ rest) by simp] at hrec
      rw [show ((pre.length : Nat) : Int) + stride c
          = (((pre ++ part).length : Nat) : Int) by
        rw [← hstr]
        push_cast
        simp]
      rw [hrec]

theorem decodeVecFixed_rt {c : Cd}
    (hch : ∀ v bs, uniqKeys c = true → vecPos c = true →
      smallEnums c = true → domain c v = true → encode c v = .ok bs →
      bs.length < 2147483648 → decode c bs = .ok v)
    (hst : 0 ≤ stride c) (hpos : stride c ≠ 0)
    (huniq : uniqKeys c = true) (hvp : vecPos c = true)
    (hse : smallEnums c = true) :
    ∀ {vs : List Val} {parts : List (List Nat)} (pre : List Nat),
      domainElems c vs = true → encodeListFixed c vs = .ok parts →
      (pre ++ parts.flatten).length < 2147483648 →
      decodeVecFixed c (stride c).toNat (pre ++ parts.flatten) pre.length
        = .ok vs := by
  have hs1 : 1 ≤ (stride c).toNat := by omega
  intro vs
  induction vs with
  | nil =>
    intro parts pre _ henc _
    rw [encodeListFixed_nil] at henc
    simp only [Except.ok.injEq] at henc
    subst henc
    rw [decodeVecFixed, if_neg (by simp; omega)]
  | cons v rest ih =>
    intro parts pre hdom henc hlen
    obtain ⟨part, rest2, henc1, hrest, hp⟩ := encodeListFixed_cons_ok henc
    subst hp
    rw [domainElems] at hdom
    simp only [Bool.and_eq_true] at hdom
    have hstr : (part.length : Int) = stride c :=
      encode_length c v part huniq hdom.1 henc1 hst
    have hsl : part.length = (stride c).toNat := by omega
    have hD : pre ++ (part :: rest2).flatten = pre ++ part ++ rest2.flatten := by
      simp
    have hplen : part.length < 2147483648 := by
      have : part.length ≤ (pre ++ (part :: rest2).flatten).length := by
        simp only [List.flatten_cons, List.length_append]
        omega
      omega
    rw [decodeVecFixed, if_pos (by
      refine ⟨hs1, ?_⟩
      simp only [List.flatten_cons, List.length_append]
      omega)]
    rw [hD]
    have hslice : jsSubarray (pre ++ part ++ rest2.flatten)
        ((pre.length : Nat) : Int)
        (((pre.length : Nat) : Int) + (((stride c).toNat : Nat) : Int)) = part := by
      rw [show ((pre.length : Nat) : Int) + (((stride c).toNat : Nat) : Int)
          = ((pre.length + part.length : Nat) : Int) by
        rw [hsl]
        push_cast
        ring]
      exact jsSubarray_middle _ _ _
    rw [hslice]
    simp only [bind, Except.bind]
    rw [hch v part huniq hvp hse hdom.1 henc1 hplen]
    have hrec := ih (pre ++ part) hdom.2 hrest (by
      simp only [List.flatten_cons, List.length_append] at hlen ⊢
      omega)
    rw [show pre.length + (stride c).toNat = (pre ++ part).length by
      simp only [List.length_append]
      omega]
    rw [hrec]

theorem decodeVecVar_rt {c : Cd}
    (hch : ∀ v bs, uniqKeys c = true → vecPos c = true →
      smallEnums c = true → domain c v = true → encode c v = .ok bs →
      bs.length < 2147483648 → decode c bs = .ok v)
    (huniq : uniqKeys c = true) (hvp : vecPos c = true)
    (hse : smallEnums c = true) :
    ∀ {vs : List Val} {parts : List (List Nat)} (pre : List Nat) (fuel : Nat),
      domainElems c vs = true → encodeVecVar c vs = .ok parts →
      (pre ++ parts.flatten).length < 2147483648 →
      vs.length ≤ fuel →
      decodeVecVar c (pre ++ parts.flatten) ((pre.length : Nat) : Int) fuel
        = .ok vs := by
  intro vs
  induction vs with
  | nil =>
    intro parts pre fuel _ henc _ _
    rw [encodeVecVar_nil] at henc
    simp only [Except.ok.injEq] at henc
    subst henc
    rw [decodeVecVar, if_neg (by simp)]
  | cons v rest ih =>
    intro parts pre fuel hdom henc hlen hfuel
    obtain ⟨part, rest2, henc1, hrest, hp⟩ := encodeVecVar_cons_ok henc
    subst hp
    rw [domainElems] at hdom
    simp only [Bool.and_eq_true] at hdom
    simp only [List.length_cons] at hfuel
    have hlb : 1 ≤ (encodeVarIntLoop part.length).length := by
      cases he : encodeVarIntLoop part.length with
      | nil => exact absurd he (encodeVarIntLoop_ne_nil _)
      | cons x xs => simp
    have hD : pre ++ (encodeVarIntLoop part.length :: part :: rest2).flatten
        = pre ++ (encodeVarIntLoop part.length ++ (part ++ rest2.flatten)) := by
      simp
    have hplen : part.length < 2147483648 := by
      have : part.length
          ≤ (pre ++ (encodeVarIntLoop part.length :: part :: rest2).flatten).length := by
        simp only [List.flatten_cons, List.length_append]
        omega
      omega
    rw [decodeVecVar, if_pos (by
      simp only [List.flatten_cons, List.length_append]
      push_cast
      omega), if_neg (by omega)]
    rw [hD]
    rw [jsSubarrayFrom_at pre _]
    rw [decodeVarInt_encodeVarIntLoop hplen _]
    simp only [bind, Except.bind]
    have hoff1 : ((pre.length : Nat) : Int) + ((encodeVarIntLoop part.length).length : Int)
        = (((pre ++ encodeVarIntLoop part.length).length : Nat) : Int) := by
      simp
    have hslice : jsSubarray
        (pre ++ (encodeVarIntLoop part.length ++ (part ++ rest2.flatten)))
        (((pre.length : Nat) : Int) + ((encodeVarIntLoop part.length).length : Int))
        (((pre.length : Nat) : Int) + ((encodeVarIntLoop part.length).length : Int)
          + ((part.length : Nat) : Int)) = part := by
      rw [hoff1]
      rw [show (((pre ++ encodeVarIntLoop part.length).length : Nat) : Int)
            + ((part.length : Nat) : Int)
          = (((pre ++ encodeVarIntLoop part.length).length + part.length : Nat) : Int) by
        push_cast
        ring]
      rw [show pre ++ (encodeVarIntLoop part.length ++ (part ++ rest2.flatten))
          = (pre ++ encodeVarIntLoop part.length) ++ part ++ rest2.flatten by simp]
      exact jsSubarray_middle _ _ _
    rw [hslice]
    rw [hch v part huniq hvp hse hdom.1 henc1 hplen]
    have hrec := ih (pre ++ encodeVarIntLoop part.length ++ part) (fuel - 1)
      hdom.2 hrest
      (by
        rw [show pre ++ encodeVarIntLoop part.length ++ part ++ rest2.flatten
            = pre ++ (encodeVarIntLoop part.length ++ (part ++ rest2.flatten)) by simp]
        rw [← hD]
        exact hlen)
      (by omega)
    rw [show pre ++ encodeVarIntLoop part.length ++ part ++ rest2.flatten
        = pre ++ (encodeVarIntLoop part.length ++ (part ++ rest2.flatten)) by simp] at hrec
    rw [show ((pre.length : Nat) : Int) + ((encodeVarIntLoop part.length).length : Int)
          + ((part.length : Nat) : Int)
        = (((pre ++ encodeVarIntLoop part.length ++ part).length : Nat) : Int) by
      simp <;> ring]
    rw [hrec]

theorem jsSubarrayFrom_zero (data : List Nat) : jsSubarrayFrom data 0 = data := by
  have := jsSubarrayFrom_at [] data
  simpa using this

theorem decodePair_rt {kc vc : Cd}
    (hkch : ∀ v bs, uniqKeys kc = true → vecPos kc = true →
      smallEnums kc = true → domain kc v = true → encode kc v = .ok bs →
      bs.length < 2147483648 → decode kc bs = .ok v)
    (hvch : ∀ v bs, uniqKeys vc = true → vecPos vc = true →
      smallEnums vc = true → domain vc v = true → encode vc v = .ok bs →
      bs.length < 2147483648 → decode vc bs = .ok v)
    (huk : uniqKeys kc = true) (huv : uniqKeys vc = true)
    (hvpk : vecPos kc = true) (hvpv : vecPos vc = true)
    (hsek : smallEnums kc = true) (hsev : smallEnums vc = true)
    {a b : Val} {bs : List Nat}
    (hda : domain kc a = true) (hdb : domain vc b = true)
    (henc : encodePair kc vc a b = .ok bs) (hlen : bs.length < 2147483648) :
    decodePair kc vc bs = .ok (a, b) := by
  obtain ⟨pk, pv, hpk, hpv, hbs⟩ := encodePair_ok henc
  subst hbs
  by_cases hsk : stride kc < 0 <;> by_cases hsv : stride vc < 0
  · -- both variable
    rw [show (if stride kc < 0 then encodeVarIntLoop pk.length ++ pk else pk)
          ++ (if stride vc < 0 then encodeVarIntLoop pv.length ++ pv else pv)
        = encodeVarIntLoop pk.length
          ++ (pk ++ (encodeVarIntLoop pv.length ++ pv)) by
      rw [if_pos hsk, if_pos hsv]
      simp] at hlen ⊢
    simp only [List.length_append] at hlen
    have hpklen : pk.length < 2147483648 := by omega
    have hpvlen : pv.length < 2147483648 := by omega
    rw [decodePair, if_pos hsk]
    rw [jsSubarrayFrom_zero]
    rw [decodeVarInt_encodeVarIntLoop hpklen _]
    simp only [bind, Except.bind]
    rw [show jsSubarray
        (encodeVarIntLoop pk.length ++ (pk ++ (encodeVarIntLoop pv.length ++ pv)))
        (((encodeVarIntLoop pk.length).length : Nat) : Int)
        ((((encodeVarIntLoop pk.length).length : Nat) : Int) + ((pk.length : Nat) : Int))
        = pk by
      rw [show (((encodeVarIntLoop pk.length).length : Nat) : Int) + ((pk.length : Nat) : Int)
          = (((encodeVarIntLoop pk.length).length + pk.length : Nat) : Int) by push_cast; ring]
      rw [show encodeVarIntLoop pk.length ++ (pk ++ (encodeVarIntLoop pv.length ++ pv))
          = encodeVarIntLoop pk.length ++ pk ++ (encodeVarIntLoop pv.length ++ pv) by simp]
      exact jsSubarray_middle _ _ _]
    rw [hkch a pk huk hvpk hsek hda hpk hpklen]
    simp only [bind, Except.bind]
    rw [show (((encodeVarIntLoop pk.length).length : Nat) : Int) + ((pk.length : Nat) : Int)
        = (((encodeVarIntLoop pk.length ++ pk).length : Nat) : Int) by simp]
    rw [show encodeVarIntLoop pk.length ++ (pk ++ (encodeVarIntLoop pv.length ++ pv))
        = (encodeVarIntLoop pk.length ++ pk) ++ (encodeVarIntLoop pv.length ++ pv) by simp]
    rw [if_pos hsv]
    rw [jsSubarrayFrom_at (encodeVarIntLoop pk.length ++ pk) _]
    rw [decodeVarInt_encodeVarIntLoop hpvlen _]
    simp only [bind, Except.bind]
    rw [show jsSubarray
        ((encodeVarIntLoop pk.length ++ pk) ++ (encodeVarIntLoop pv.length ++ pv))
        ((((encodeVarIntLoop pk.length ++ pk).length : Nat) : Int)
          + (((encodeVarIntLoop pv.length).length : Nat) : Int))
        ((((encodeVarIntLoop pk.length ++ pk).length : Nat) : Int)
          + (((encodeVarIntLoop pv.length).length : Nat) : Int) + ((pv.length : Nat) : Int))
        = pv by
      rw [show (((encodeVarIntLoop pk.length ++ pk).length : Nat) : Int)
            + (((encodeVarIntLoop pv.length).length : Nat) : Int)
          = ((((encodeVarIntLoop pk.length ++ pk) ++ encodeVarIntLoop pv.length).length : Nat) : Int) by
        simp <;> ring]
      rw [show ((((encodeVarIntLoop pk.length ++ pk) ++ encodeVarIntLoop pv.length).length : Nat) : Int)
            + ((pv.length : Nat) : Int)
          = ((((encodeVarIntLoop pk.length ++ pk) ++ encodeVarIntLoop pv.length).length
              + pv.length : Nat) : Int) by push_cast; ring]
      rw [show (encodeVarIntLoop pk.length ++ pk) ++ (encodeVarIntLoop pv.length ++ pv)
          = ((encodeVarIntLoop pk.length ++ pk) ++ encodeVarIntLoop pv.length) ++ pv ++ [] by simp]
      exact jsSubarray_middle _ _ _]
    rw [hvch b pv huv hvpv hsev hdb hpv hpvlen]
  · -- variable key, fixed value
    rw [show (if stride kc < 0 then encodeVarIntLoop pk.length ++ pk else pk)
          ++ (if stride vc < 0 then encodeVarIntLoop pv.length ++ pv else pv)
        = encodeVarIntLoop pk.length ++ (pk ++ pv) by
      rw [if_pos hsk, if_neg hsv]
      simp] at hlen ⊢
    simp only [List.length_append] at hlen
    have hpklen : pk.length < 2147483648 := by omega
    have hpvlen : pv.length < 2147483648 := by omega
    have hstrV : (pv.length : Int) = stride vc :=
      encode_length vc b pv huv hdb hpv (by omega)
    rw [decodePair, if_pos hsk]
    rw [jsSubarrayFrom_zero]
    rw [decodeVarInt_encodeVarIntLoop hpklen _]
    simp only [bind, Except.bind]
    rw [show jsSubarray (encodeVarIntLoop pk.length ++ (pk ++ pv))
        (((encodeVarIntLoop pk.length).length : Nat) : Int)
        ((((encodeVarIntLoop pk.length).length : Nat) : Int) + ((pk.length : Nat) : Int))
        = pk by
      rw [show (((encodeVarIntLoop pk.length).length : Nat) : Int) + ((pk.length : Nat) : Int)
          = (((encodeVarIntLoop pk.length).length + pk.length : Nat) : Int) by push_cast; ring]
      rw [show encodeVarIntLoop pk.length ++ (pk ++ pv)
          = encodeVarIntLoop pk.length ++ pk ++ pv by simp]
      exact jsSubarray_middle _ _ _]
    rw [hkch a pk huk hvpk hsek hda hpk hpklen]
    simp only [bind, Except.bind]
    rw [if_neg hsv]
    rw [show jsSubarray (encodeVarIntLoop pk.length ++ (pk ++ pv))
        ((((encodeVarIntLoop pk.length).length : Nat) : Int) + ((pk.length : Nat) : Int))
        ((((encodeVarIntLoop pk.length).length : Nat) : Int) + ((pk.length : Nat) : Int)
          + stride vc)
        = pv by
      rw [← hstrV]
      rw [show (((encodeVarIntLoop pk.length).length : Nat) : Int) + ((pk.length : Nat) : Int)
          = (((encodeVarIntLoop pk.length ++ pk).length : Nat) : Int) by simp]
      rw [show (((encodeVarIntLoop pk.length ++ pk).length : Nat) : Int) + ((pv.length : Nat) : Int)
          = (((encodeVarIntLoop pk.length ++ pk).length + pv.length : Nat) : Int) by push_cast; ring]
      rw [show encodeVarIntLoop pk.length ++ (pk ++ pv)
          = (encodeVarIntLoop pk.length ++ pk) ++ pv ++ [] by simp]
      exact jsSubarray_middle _ _ _]
    rw [hvch b pv huv hvpv hsev hdb hpv hpvlen]
  · -- fixed key, variable value
    rw [show (if stride kc < 0 then encodeVarIntLoop pk.length ++ pk else pk)
          ++ (if stride vc < 0 then encodeVarIntLoop pv.length ++ pv else pv)
        = pk ++ (encodeVarIntLoop pv.length ++ pv) by
      rw [if_neg hsk, if_pos hsv]] at hlen ⊢
    simp only [List.length_append] at hlen
    have hpklen : pk.length < 2147483648 := by omega
    have hpvlen : pv.length < 2147483648 := by omega
    have hstrK : (pk.length : Int) = stride kc :=
      encode_length kc a pk huk hda hpk (by omega)
    rw [decodePair, if_neg hsk]
    simp only [bind, Except.bind]
    rw [show jsSubarray (pk ++ (encodeVarIntLoop pv.length ++ pv)) 0 (stride kc)
        = pk by
      rw [← hstrK]
      have := jsSubarray_middle [] pk (encodeVarIntLoop pv.length ++ pv)
      simpa using this]
    rw [hkch a pk huk hvpk hsek hda hpk hpklen]
    simp only [bind, Except.bind]
    rw [if_pos hsv]
    rw [show jsSubarrayFrom (pk ++ (encodeVarIntLoop pv.length ++ pv)) (stride kc)
        = encodeVarIntLoop pv.length ++ pv by
      rw [← hstrK]
      exact jsSubarrayFrom_at pk _]
    rw [decodeVarInt_encodeVarIntLoop hpvlen _]
    simp only [bind, Except.bind]
    rw [show jsSubarray (pk ++ (encodeVarIntLoop pv.length ++ pv))
        (stride kc + (((encodeVarIntLoop pv.length).length : Nat) : Int))
        (stride kc + (((encodeVarIntLoop pv.length).length : Nat) : Int)
          + ((pv.length : Nat) : Int))
        = pv by
      rw [← hstrK]
      rw [show ((pk.length : Nat) : Int) + (((encodeVarIntLoop pv.length).length : Nat) : Int)
          = (((pk ++ encodeVarIntLoop pv.length).length : Nat) : Int) by simp]
      rw [show (((pk ++ encodeVarIntLoop pv.length).length : Nat) : Int) + ((pv.length : Nat) : Int)
          = (((pk ++ encodeVarIntLoop pv.length).length + pv.length : Nat) : Int) by push_cast; ring]
      rw [show pk ++ (encodeVarIntLoop pv.length ++ pv)
          = (pk ++ encodeVarIntLoop pv.length) ++ pv ++ [] by simp]
      exact jsSubarray_middle _ _ _]
    rw [hvch b pv huv hvpv hsev hdb hpv hpvlen]
  · -- both fixed
    rw [show (if stride kc < 0 then encodeVarIntLoop pk.length ++ pk else pk)
          ++ (if stride vc < 0 then encodeVarIntLoop pv.length ++ pv else pv)
        = pk ++ pv by
      rw [if_neg hsk, if_neg hsv]] at hlen ⊢
    simp only [List.length_append] at hlen
    have hpklen : pk.length < 2147483648 := by omega
    have hpvlen : pv.length < 2147483648 := by omega
    have hstrK : (pk.length : Int) = stride kc :=
      encode_length kc a pk huk hda hpk (by omega)
    have hstrV : (pv.length : Int) = stride vc :=
      encode_length vc b pv huv hdb hpv (by omega)
    rw [decodePair, if_neg hsk]
    simp only [bind, Except.bind]
    rw [show jsSubarray (pk ++ pv) 0 (stride kc) = pk by
      rw [← hstrK]
      have := jsSubarray_middle [] pk pv
      simpa using this]
    rw [hkch a pk huk hvpk hsek hda hpk hpklen]
    simp only [bind, Except.bind]
    rw [if_neg hsv]
    rw [show jsSubarray (pk ++ pv) (stride kc) (stride kc + stride vc) = pv by
      rw [← hstrK, ← hstrV]
      rw [show ((pk.length : Nat) : Int) + ((pv.length : Nat) : Int)
          = ((pk.length + pv.length : Nat) : Int) by push_cast; ring]
      rw [show pk ++ pv = pk ++ pv ++ [] by simp]
      exact jsSubarray_middle _ _ _]
    rw [hvch b pv huv hvpv hsev hdb hpv hpvlen]

theorem decodeMapFixed_rt {kc vc : Cd}
    (hkch : ∀ v bs, uniqKeys kc = true → vecPos kc = true →
      smallEnums kc = true → domain kc v = true → encode kc v = .ok bs →
      bs.length < 2147483648 → decode kc bs = .ok v)
    (hvch : ∀ v bs, uniqKeys vc = true → vecPos vc = true →
      smallEnums vc = true → domain vc v = true → encode vc v = .ok bs →
      bs.length < 2147483648 → decode vc bs = .ok v)
    (huk : uniqKeys kc = true) (huv : uniqKeys vc = true)
    (hvpk : vecPos kc = true) (hvpv : vecPos vc = true)
    (hsek : smallEnums kc = true) (hsev : smallEnums vc = true)
    (hsk : 0 ≤ stride kc) (hsv : 0 ≤ stride vc)
    (hposs : stride kc + stride vc ≠ 0) :
    ∀ {es : List (Val × Val)} {parts : List (List Nat)} (pre : List Nat),
      domainPairs kc vc es = true → encodeMapFixed kc vc es = .ok parts →
      (pre ++ parts.flatten).length < 2147483648 →
      decodeMapFixed kc vc (stride kc + stride vc).toNat (pre ++ parts.flatten)
        pre.length = .ok es := by
  have hs1 : 1 ≤ (stride kc + stride vc).toNat := by omega
  intro es
  induction es with
  | nil =>
    intro parts pre _ henc _
    rw [encodeMapFixed_nil] at henc
    simp only [Except.ok.injEq] at henc
    subst henc
    rw [decodeMapFixed, if_neg (by simp; omega)]
  | cons e rest ih =>
    intro parts pre hdom henc hlen
    obtain ⟨a, b⟩ := e
    obtain ⟨part, rest2, henc1, hrest, hp⟩ := encodeMapFixed_cons_ok henc
    subst hp
    rw [domainPairs] at hdom
    simp only [Bool.and_eq_true] at hdom
    have hstr : (part.length : Int) = stride kc + stride vc :=
      encodePair_length (fun v2 bs2 => encode_length kc v2 bs2)
        (fun v2 bs2 => encode_length vc v2 bs2) huk huv hdom.1.1 hdom.1.2
        hsk hsv henc1
    have hsl : part.length = (stride kc + stride vc).toNat := by omega
    have hD : pre ++ (part :: rest2).flatten = pre ++ part ++ rest2.flatten := by
      simp
    have hplen : part.length < 2147483648 := by
      have : part.length ≤ (pre ++ (part :: rest2).flatten).length := by
        simp only [List.flatten_cons, List.length_append]
        omega
      omega
    rw [decodeMapFixed, if_pos (by
      refine ⟨hs1, ?_⟩
      simp only [List.flatten_cons, List.length_append]
      omega)]
    rw [hD]
    have hslice : jsSubarray (pre ++ part ++ rest2.flatten)
        ((pre.length : Nat) : Int)
        (((pre.length : Nat) : Int) + (((stride kc + stride vc).toNat : Nat) : Int))
        = part := by
      rw [show ((pre.length : Nat) : Int) + (((stride kc + stride vc).toNat : Nat) : Int)
          = ((pre.length + part.length : Nat) : Int) by
        rw [hsl]
        push_cast
        ring]
      exact jsSubarray_middle _ _ _
    rw [hslice]
    simp only [bind, Except.bind]
    rw [decodePair_rt hkch hvch huk huv hvpk hvpv hsek hsev hdom.1.1 hdom.1.2
      henc1 hplen]
    have hrec := ih (pre ++ part) hdom.2 hrest (by
      simp only [List.flatten_cons, List.length_append] at hlen ⊢
      omega)
    rw [show pre.length + (stride kc + stride vc).toNat = (pre ++ part).length by
      simp only [List.length_append]
      omega]
    rw [hrec]

theorem decodeMapVar_rt {kc vc : Cd}
    (hkch : ∀ v bs, uniqKeys kc = true → vecPos kc = true →
      smallEnums kc = true → domain kc v = true → encode kc v = .ok bs →
      bs.length < 2147483648 → decode kc bs = .ok v)
    (hvch : ∀ v bs, uniqKeys vc = true → vecPos vc = true →
      smallEnums vc = true → domain vc v = true → encode vc v = .ok bs →
      bs.length < 2147483648 → decode vc bs = .ok v)
    (huk : uniqKeys kc = true) (huv : uniqKeys vc = true)
    (hvpk : vecPos kc = true) (hvpv : vecPos vc = true)
    (hsek : smallEnums kc = true) (hsev : smallEnums vc = true) :
    ∀ {es : List (Val × Val)} {parts : List (List Nat)} (pre : List Nat)
      (fuel : Nat),
      domainPairs kc vc es = true → encodeMapVar kc vc es = .ok parts →
      (pre ++ parts.flatten).length < 2147483648 →
      es.length ≤ fuel →
      decodeMapVar kc vc (pre ++ parts.flatten) ((pre.length : Nat) : Int) fuel
        = .ok es := by
  intro es
  induction es with
  | nil =>
    intro parts pre fuel _ henc _ _
    rw [encodeMapVar_nil] at henc
    simp only [Except.ok.injEq] at henc
    subst henc
    rw [decodeMapVar, if_neg (by simp)]
  | cons e rest ih =>
    intro parts pre fuel hdom henc hlen hfuel
    obtain ⟨a, b⟩ := e
    obtain ⟨part, rest2, henc1, hrest, hp⟩ := encodeMapVar_cons_ok henc
    subst hp
    rw [domainPairs] at hdom
    simp only [Bool.and_eq_true] at hdom
    simp only [List.length_cons] at hfuel
    have hlb : 1 ≤ (encodeVarIntLoop part.length).length := by
      cases he : encodeVarIntLoop part.length with
      | nil => exact absurd he (encodeVarIntLoop_ne_nil _)
      | cons x xs => simp
    have hD : pre ++ (encodeVarIntLoop part.length :: part :: rest2).flatten
        = pre ++ (encodeVarIntLoop part.length ++ (part ++ rest2.flatten)) := by
      simp
    have hplen : part.length < 2147483648 := by
      have : part.length
          ≤ (pre ++ (encodeVarIntLoop part.length :: part :: rest2).flatten).length := by
        simp only [List.flatten_cons, List.length_append]
        omega
      omega
    rw [decodeMapVar, if_pos (by
      simp only [List.flatten_cons, List.length_append]
      push_cast
      omega), if_neg (by omega)]
    rw [hD]
    rw [jsSubarrayFrom_at pre _]
    rw [decodeVarInt_encodeVarIntLoop hplen _]
    simp only [bind, Except.bind]
    have hoff1 : ((pre.length : Nat) : Int) + ((encodeVarIntLoop part.length).length : Int)
        = (((pre ++ encodeVarIntLoop part.length).length : Nat) : Int) := by
      simp
    have hslice : jsSubarray
        (pre ++ (encodeVarIntLoop part.length ++ (part ++ rest2.flatten)))
        (((pre.length : Nat) : Int) + ((encodeVarIntLoop part.length).length : Int))
        (((pre.length : Nat) : Int) + ((encodeVarIntLoop part.length).length : Int)
          + ((part.length : Nat) : Int)) = part := by
      rw [hoff1]
      rw [show (((pre ++ encodeVarIntLoop part.length).length : Nat) : Int)
            + ((part.length : Nat) : Int)
          = (((pre ++ encodeVarIntLoop part.length).length + part.length : Nat) : Int) by
        push_cast
        ring]
      rw [show pre ++ (encodeVarIntLoop part.length ++ (part ++ rest2.flatten))
          = (pre ++ encodeVarIntLoop part.length) ++ part ++ rest2.flatten by simp]
      exact jsSubarray_middle _ _ _
    rw [hslice]
    rw [decodePair_rt hkch hvch huk huv hvpk hvpv hsek hsev hdom.1.1 hdom.1.2
      henc1 hplen]
    have hrec := ih (pre ++ encodeVarIntLoop part.length ++ part) (fuel - 1)
      hdom.2 hrest
      (by
        rw [show pre ++ encodeVarIntLoop part.length ++ part ++ rest2.flatten
            = pre ++ (encodeVarIntLoop part.length ++ (part ++ rest2.flatten)) by simp]
        rw [← hD]
        exact hlen)
      (by omega)
    rw [show pre ++ encodeVarIntLoop part.length ++ part ++ rest2.flatten
        = pre ++ (encodeVarIntLoop part.length ++ (part ++ rest2.flatten)) by simp] at hrec
    rw [show ((pre.length : Nat) : Int) + ((encodeVarIntLoop part.length).length : Int)
          + ((part.length : Nat) : Int)
        = (((pre ++ encodeVarIntLoop part.length ++ part).length : Nat) : Int) by
      simp <;> ring]
    rw [hrec]

/-- The amended round-trip law: on well-formed codecs (no duplicate
names, no zero-stride Vector or Mapping element, no Enum beyond 256
variants) and domain values, decode inverts encode whenever the output
stays below 2^31 bytes (beyond that the varint length prefixes fall into
the 32-bit decode bug). -/
theorem encode_decode :
    ∀ (c : Cd) (v : Val) (bs : List Nat), uniqKeys c = true →
      vecPos c = true → smallEnums c = true → domain c v = true →
      encode c v = .ok bs → bs.length < 2147483648 → decode c bs = .ok v := by
  intro c
  induction c using Cd.ind with
  | hi8 =>
    intro v bs _ _ _ hdom henc _
    cases v <;> simp [encode] at henc
    next n =>
      subst henc
      simp only [domain, decide_eq_true_eq] at hdom
      rw [decode, if_neg (by rw [leBytes_length]; omega)]
      rw [List.take_of_length_le (by rw [leBytes_length])]
      rw [fromLEU_leBytes_self (by
        have := wrapBits_lt 8 n
        norm_num at this ⊢
        omega)]
      rw [asSigned_wrapBits (by norm_num) (by norm_num; omega) (by norm_num; omega)]
  | hu8 =>
    intro v bs _ _ _ hdom henc _
    cases v <;> simp [encode] at henc
    next n =>
      subst henc
      simp only [domain, decide_eq_true_eq] at hdom
      rw [decode, if_neg (by rw [leBytes_length]; omega)]
      rw [List.take_of_length_le (by rw [leBytes_length])]
      rw [fromLEU_leBytes_self (by
        have := wrapBits_lt 8 n
        norm_num at this ⊢
        omega)]
      rw [wrapBits_of_nonneg (by omega) (by norm_num; omega)]
  | hi16 =>
    intro v bs _ _ _ hdom henc _
    cases v <;> simp [encode] at henc
    next n =>
      subst henc
      simp only [domain, decide_eq_true_eq] at hdom
      rw [decode, if_neg (by rw [leBytes_length]; omega)]
      rw [List.take_of_length_le (by rw [leBytes_length])]
      rw [fromLEU_leBytes_self (by
        have := wrapBits_lt 16 n
        norm_num at this ⊢
        omega)]
      rw [asSigned_wrapBits (by norm_num) (by norm_num; omega) (by norm_num; omega)]
  | hu16 =>
    intro v bs _ _ _ hdom henc _
    cases v <;> simp [encode] at henc
    next n =>
      subst henc
      simp only [domain, decide_eq_true_eq] at hdom
      rw [decode, if_neg (by rw [leBytes_length]; omega)]
      rw [List.take_of_length_le (by rw [leBytes_length])]
      rw [fromLEU_leBytes_self (by
        have := wrapBits_lt 16 n
        norm_num at this ⊢
        omega)]
      rw [wrapBits_of_nonneg (by omega) (by norm_num; omega)]
  | hi32 =>
    intro v bs _ _ _ hdom henc _
    cases v <;> simp [encode] at henc
    next n =>
      subst henc
      simp only [domain, decide_eq_true_eq] at hdom
      rw [decode, if_neg (by rw [leBytes_length]; omega)]
      rw [List.take_of_length_le (by rw [leBytes_length])]
      rw [fromLEU_leBytes_self (by
        have := wrapBits_lt 32 n
        norm_num at this ⊢
        omega)]
      rw [asSigned_wrapBits (by norm_num) (by norm_num; omega) (by norm_num; omega)]
  | hu32 =>
    intro v bs _ _ _ hdom henc _
    cases v <;> simp [encode] at henc
    next n =>
      subst henc
      simp only [domain, decide_eq_true_eq] at hdom
      rw [decode, if_neg (by rw [leBytes_length]; omega)]
      rw [List.take_of_length_le (by rw [leBytes_length])]
      rw [fromLEU_leBytes_self (by
        have := wrapBits_lt 32 n
        norm_num at this ⊢
        omega)]
      rw [wrapBits_of_nonneg (by omega) (by norm_num; omega)]
  | hi64 =>
    intro v bs _ _ _ hdom henc _
    cases v <;> simp [encode] at henc
    next n =>
      subst henc
      simp only [domain, decide_eq_true_eq] at hdom
      rw [decode, if_neg (by rw [leBytes_length]; omega)]
      rw [List.take_of_length_le (by rw [leBytes_length])]
      rw [fromLEU_leBytes_self (by
        have := wrapBits_lt 64 n
        norm_num at this ⊢
        omega)]
      rw [asSigned_wrapBits (by norm_num) (by norm_num; omega) (by norm_num; omega)]
  | hu64 =>
    intro v bs _ _ _ hdom henc _
    cases v <;> simp [encode] at henc
    next n =>
      subst henc
      simp only [domain, decide_eq_true_eq] at hdom
      rw [decode, if_neg (by rw [leBytes_length]; omega)]
      rw [List.take_of_length_le (by rw [leBytes_length])]
      rw [fromLEU_leBytes_self (by
        have := wrapBits_lt 64 n
        norm_num at this ⊢
        omega)]
      rw [wrapBits_of_nonneg (by omega) (by norm_num; omega)]
  | hf32 =>
    intro v bs _ _ _ hdom henc _
    cases v <;> simp [encode] at henc
    next b =>
      subst henc
      simp only [domain, decide_eq_true_eq] at hdom
      rw [decode, if_neg (by rw [leBytes_length]; omega)]
      rw [List.take_of_length_le (by rw [leBytes_length])]
      rw [fromLEU_leBytes_self (by
        have : b % 2 ^ 32 < 2 ^ 32 := Nat.mod_lt _ (by norm_num)
        norm_num at this ⊢
        omega)]
      norm_num at hdom
      rw [Nat.mod_eq_of_lt hdom]
  | hf64 =>
    intro v bs _ _ _ hdom henc _
    cases v <;> simp [encode] at henc
    next b =>
      subst henc
      simp only [domain, decide_eq_true_eq] at hdom
      rw [decode, if_neg (by rw [leBytes_length]; omega)]
      rw [List.take_of_length_le (by rw [leBytes_length])]
      rw [fromLEU_leBytes_self (by
        have : b % 2 ^ 64 < 2 ^ 64 := Nat.mod_lt _ (by norm_num)
        norm_num at this ⊢
        omega)]
      norm_num at hdom
      rw [Nat.mod_eq_of_lt hdom]
  | hbool =>
    intro v bs _ _ _ hdom henc _
    cases v <;> simp [encode] at henc
    next b =>
      subst henc
      clear hdom
      cases b <;> simp [decode]
  | hstr =>
    intro v bs _ _ _ _ henc _
    cases v <;> simp [encode] at henc
    next bs0 =>
      subst henc
      simp [decode]
  | hbytes =>
    intro v bs _ _ _ _ henc _
    cases v <;> simp [encode] at henc
    next bs0 =>
      subst henc
      simp [decode]
  | hoption c hc =>
    intro v bs huniq hvp hse hdom henc hlen
    rw [uniqKeys] at huniq
    rw [vecPos] at hvp
    rw [smallEnums] at hse
    rcases encode_option_ok henc with ⟨hv, hb⟩ | ⟨hv, part, hp, hb⟩
    · subst hv
      subst hb
      simp [decode]
    · subst hb
      rw [show decode (.option c) (1 :: part) = decode c part by simp [decode]]
      simp only [List.length_cons] at hlen
      exact hc v part huniq hvp hse (domain_option_some hv hdom) hp (by omega)
  | htuple cs hcs =>
    intro v bs huniq hvp hse hdom henc hlen
    cases v <;> simp [encode, domain] at henc hdom
    next vs =>
      obtain ⟨parts, hp, hb⟩ := except_map_ok henc
      subst hb
      rw [uniqKeys] at huniq
      rw [vecPos] at hvp
      rw [smallEnums] at hse
      have hloop := decodeTupleLoop_rt (fun c2 hc2 => hcs c2 hc2) [] []
        huniq hvp hse hdom hp (by simpa using hlen)
      simp only [List.nil_append, List.append_nil, List.length_nil,
        Nat.cast_zero] at hloop
      rw [decode, hloop]
      rfl
  | hstruct fs hfs =>
    intro v bs huniq hvp hse hdom henc hlen
    cases v <;> simp [encode, domain] at henc hdom
    next kvs =>
      rw [uniqKeys] at huniq
      simp only [Bool.and_eq_true, decide_eq_true_eq] at huniq
      rw [vecPos] at hvp
      rw [smallEnums] at hse
      rw [lookupAllFields_canonical huniq.1 hdom] at henc
      simp only [Option.some.injEq] at henc
      obtain ⟨parts, hp, hb⟩ := except_map_ok henc
      subst hb
      have hch : ∀ c2 ∈ fs.map Prod.snd, ∀ v2 bs2, uniqKeys c2 = true →
          vecPos c2 = true → smallEnums c2 = true → domain c2 v2 = true →
          encode c2 v2 = .ok bs2 → bs2.length < 2147483648 →
          decode c2 bs2 = .ok v2 := by
        intro c2 hc2 v2 bs2
        obtain ⟨q, hq, hq2⟩ := List.mem_map.1 hc2
        exact hq2 ▸ hfs q hq v2 bs2
      have hloop := decodeTupleLoop_rt hch [] [] huniq.2 hvp hse
        (domainFields_to_domainList hdom) hp (by simpa using hlen)
      simp only [List.nil_append, List.append_nil, List.length_nil,
        Nat.cast_zero] at hloop
      rw [decode, hloop]
      simp only [Except.map]
      rw [zip_keys_canonical hdom]
  | hvector c hc =>
    intro v bs huniq hvp hse hdom henc hlen
    cases v <;> simp [encode, domain] at henc hdom
    next vs =>
      rw [uniqKeys] at huniq
      rw [vecPos] at hvp
      simp only [Bool.and_eq_true, bne_iff_ne, ne_eq] at hvp
      rw [smallEnums] at hse
      split at henc
      · next hpos =>
        simp only [bind, Except.bind] at henc
        cases hlf : encodeListFixed c vs with
        | error e =>
          rw [hlf] at henc
          exact absurd henc (by simp)
        | ok parts =>
          rw [hlf] at henc
          simp only [] at henc
          have hplens : ∀ p ∈ parts, p.length = (stride c).toNat :=
            encodeListFixed_stride_lengths hpos huniq hdom hlf
          have hcount : parts.length = vs.length := encodeListFixed_count hlf
          have hflat := setAllGo_flatten parts [] hplens
          simp only [List.nil_append, List.length_nil] at hflat
          rw [hcount] at hflat
          rw [hflat] at henc
          simp only [Except.ok.injEq] at henc
          subst henc
          rw [decode, if_pos hpos, if_neg hvp.1]
          have hrt := decodeVecFixed_rt (fun v2 bs2 => hc v2 bs2) hpos hvp.1
            huniq hvp.2 hse [] hdom hlf (by simpa using hlen)
          simp only [List.nil_append, List.length_nil] at hrt
          rw [hrt]
          rfl
      · next hneg =>
        obtain ⟨parts, hp, hb⟩ := except_map_ok henc
        subst hb
        rw [decode, if_neg hneg]
        have hfuel : vs.length ≤ vecFuel parts.flatten.length := by
          have h1 := encodeVecVar_count_le hp
          have h2 : parts.flatten.length ≤ vecFuel parts.flatten.length := by
            unfold vecFuel
            omega
          omega
        have hrt := decodeVecVar_rt (fun v2 bs2 => hc v2 bs2) huniq hvp.2 hse
          [] (vecFuel parts.flatten.length) hdom hp (by simpa using hlen) hfuel
        simp only [List.nil_append, List.length_nil, Nat.cast_zero] at hrt
        rw [hrt]
        rfl
  | henum vs hvs =>
    intro v bs huniq hvp hse hdom henc hlen
    cases v <;> simp [encode, domain] at henc hdom
    next k v2 =>
      rw [uniqKeys] at huniq
      simp only [Bool.and_eq_true, decide_eq_true_eq] at huniq
      rw [vecPos] at hvp
      rw [smallEnums] at hse
      simp only [Bool.and_eq_true, decide_eq_true_eq] at hse
      split at hdom
      · simp at hdom
      · next c2 hc2 =>
        split at henc
        · exact absurd henc (by simp)
        · next index hidx =>
          split at henc
          · exact absurd henc (by simp)
          · next c hcl =>
            have hceq : c = c2 := by
              rw [hcl] at hc2
              injection hc2
            subst hceq
            simp only [bind, Except.bind] at henc
            cases hpart : encode c v2 with
            | error e =>
              rw [hpart] at henc
              exact absurd henc (by simp)
            | ok part =>
              rw [hpart] at henc
              simp only [Except.ok.injEq] at henc
              subst henc
              have hlt : index < (sortKeys vs).length := indexOf?_lt_length hidx
              have hi256 : index < 256 := by
                have := length_sortKeys vs
                omega
              have hmemc : c ∈ vs.map Prod.snd := snd_mem_map_of_lookup hcl
              have hbytes := encode_bytes c v2 part (uniqList_mem huniq.2 hmemc)
                hdom hpart
              rw [Nat.mod_eq_of_lt hi256, map_mod256_eq_self hbytes]
              have hget : (sortKeys vs).get ⟨index, hlt⟩ = k :=
                get_indexOf? hidx hlt
              rw [decode, dif_pos hlt, hget]
              split
              · next heq =>
                rw [hcl] at heq
                exact absurd heq (by simp)
              · next c3 heq =>
                rw [hcl] at heq
                injection heq with h2
                rw [← h2]
                have hdec : decode c part = .ok v2 :=
                  hvs (k, c) (mem_of_lookup hcl) v2 part
                    (uniqList_mem huniq.2 hmemc) (vecPosList_mem hvp hmemc)
                    (smallEnumsList_mem hse.2 hmemc) hdom hpart
                    (by simp only [List.length_cons, List.length_map] at hlen; omega)
                rw [hdec]
                rfl
  | hmapping kc vc hkc hvc =>
    intro v bs huniq hvp hse hdom henc hlen
    cases v <;> simp [encode, domain] at henc hdom
    next es =>
      rw [uniqKeys] at huniq
      simp only [Bool.and_eq_true] at huniq
      rw [vecPos] at hvp
      simp only [Bool.and_eq_true, bne_iff_ne, ne_eq] at hvp
      rw [smallEnums] at hse
      simp only [Bool.and_eq_true] at hse
      split at henc
      · next hpos =>
        obtain ⟨hsk, hsv, hsum⟩ := strideList_pair hpos
        have hposs : stride kc + stride vc ≠ 0 := by
          rw [← hsum]
          exact hvp.1.1
        simp only [bind, Except.bind] at henc
        cases hmf : encodeMapFixed kc vc es with
        | error e =>
          rw [hmf] at henc
          exact absurd henc (by simp)
        | ok parts =>
          rw [hmf] at henc
          simp only [] at henc
          have hplens : ∀ p ∈ parts, p.length = (strideList [kc, vc] 0).toNat := by
            intro p hp
            rw [hsum]
            exact encodeMapFixed_stride_lengths hsk hsv huniq.1 huniq.2
              hdom.1 hmf p hp
          have hcount : parts.length = es.length := encodeMapFixed_count hmf
          have hflat := setAllGo_flatten parts [] hplens
          simp only [List.nil_append, List.length_nil] at hflat
          rw [hcount] at hflat
          rw [hflat] at henc
          simp only [Except.ok.injEq] at henc
          subst henc
          rw [decode, if_pos hpos, if_neg hvp.1.1]
          rw [hsum]
          have hrt := decodeMapFixed_rt (fun v2 bs2 => hkc v2 bs2)
            (fun v2 bs2 => hvc v2 bs2) huniq.1 huniq.2 hvp.1.2 hvp.2
            hse.1 hse.2 hsk hsv hposs [] hdom.1 hmf (by simpa using hlen)
          simp only [List.nil_append, List.length_nil] at hrt
          rw [hrt]
          simp only [Except.map]
          rw [mapFromEntries_distinct hdom.2]
      · next hneg =>
        obtain ⟨parts, hp, hb⟩ := except_map_ok henc
        subst hb
        rw [decode, if_neg hneg]
        have hfuel : es.length ≤ vecFuel parts.flatten.length := by
          have h1 := encodeMapVar_count_le hp
          have h2 : parts.flatten.length ≤ vecFuel parts.flatten.length := by
            unfold vecFuel
            omega
          omega
        have hrt := decodeMapVar_rt (fun v2 bs2 => hkc v2 bs2)
          (fun v2 bs2 => hvc v2 bs2) huniq.1 huniq.2 hvp.1.2 hvp.2
          hse.1 hse.2 [] (vecFuel parts.flatten.length) hdom.1 hp
          (by simpa using hlen) hfuel
        simp only [List.nil_append, List.length_nil, Nat.cast_zero] at hrt
        rw [hrt]
        simp only [Except.map]
        rw [mapFromEntries_distinct hdom.2]

theorem encodeVarIntLoop_zero : encodeVarIntLoop 0 = [0] := by
  rw [encodeVarIntLoop_step (by norm_num)]
  norm_num

theorem encodeVarIntLoop_one : encodeVarIntLoop 1 = [1] := by
  rw [encodeVarIntLoop_step (by norm_num)]
  norm_num

theorem encodeVarIntLoop_two : encodeVarIntLoop 2 = [2] := by
  rw [encodeVarIntLoop_step (by norm_num)]
  norm_num

theorem encodeVarIntLoop_127 : encodeVarIntLoop 127 = [127] := by
  rw [encodeVarIntLoop_step (by norm_num)]
  norm_num

theorem encodeVarIntLoop_128 : encodeVarIntLoop 128 = [128, 1] := by
  rw [encodeVarIntLoop_step (by norm_num)]
  norm_num [encodeVarIntLoop_one]

theorem encodeVarIntLoop_300 : encodeVarIntLoop 300 = [172, 2] := by
  rw [encodeVarIntLoop_step (by norm_num)]
  norm_num [encodeVarIntLoop_two]

theorem encodeVarIntLoop_2p31 :
    encodeVarIntLoop 2147483648 = [128, 128, 128, 128, 8] := by
  rw [encodeVarIntLoop_step (by norm_num)]
  rw [encodeVarIntLoop_step (by norm_num)]
  rw [encodeVarIntLoop_step (by norm_num)]
  rw [encodeVarIntLoop_step (by norm_num)]
  rw [encodeVarIntLoop_step (by norm_num)]
  norm_num

theorem tupleEncodeSpec_eq_parts :
    ∀ (cs : List Cd) (vs : List Val),
      tupleEncodeSpec cs vs = (encodeTupleParts cs vs).map List.flatten := by
  intro cs
  induction cs with
  | nil =>
    intro vs
    rw [tupleEncodeSpec, encodeTupleParts]
    rfl
  | cons c cs2 ih =>
    intro vs
    cases vs with
    | nil =>
      rw [tupleEncodeSpec, encodeTupleParts]
      rfl
    | cons v vs2 =>
      rw [tupleEncodeSpec, encodeTupleParts]
      cases henc : encode c v with
      | error e => simp [bind, Except.bind, Except.map]
      | ok part =>
        simp only [bind, Except.bind]
        by_cases hst : stride c < 0
        · rw [if_pos hst, if_pos hst]
          cases hpre : encodeVarInt (part.length : Int) with
          | error e => simp [Except.map]
          | ok pre =>
            cases hrest : encodeTupleParts cs2 vs2 with
            | error e =>
              rw [ih vs2, hrest]
              simp [Except.map]
            | ok rest =>
              rw [ih vs2, hrest]
              simp [Except.map]
        · rw [if_neg hst, if_neg hst]
          cases hrest : encodeTupleParts cs2 vs2 with
          | error e =>
            rw [ih vs2, hrest]
            simp [Except.map]
          | ok rest =>
            rw [ih vs2, hrest]
            simp [Except.map]

/-- C1: the round-trip law `decode (encode v) = v` as claimed holds only
in amended form: the codec must be well-formed (no duplicate field or
variant names, no zero-stride Vector or Mapping element codec, at most
256 Enum variants), the value must lie in the declared domain, and the
encoding must stay under 2^31 bytes; under those conditions decode
inverts encode.  (The unamended claim fails: see the counterexample,
where a constructible codec diverges on its own encoding.) -/
theorem c1_roundtrip_corrected (c : Cd) (v : Val) (bs : List Nat)
    (huniq : uniqKeys c = true) (hvp : vecPos c = true)
    (hse : smallEnums c = true) (hdom : domain c v = true)
    (henc : encode c v = .ok bs) (hlen : bs.length < 2147483648) :
    decode c bs = .ok v :=
  encode_decode c v bs huniq hvp hse hdom henc hlen

/-- Witness for C1 at a concrete codec and value. -/
theorem c1_roundtrip_corrected_witness : decode .bool [1] = .ok (.bool true) :=
  c1_roundtrip_corrected .bool (.bool true) [1] (by simp [uniqKeys])
    (by simp [vecPos]) (by simp [smallEnums]) (by simp [domain])
    (by simp [encode]) (by norm_num)

/-- Counterexample to C1 as stated: Vector(Tuple([])) is constructible
from the public surface, the empty vector lies in its domain and encodes
to zero bytes, but decoding those bytes never returns (the packed decode
loop has stride zero). -/
theorem c1_roundtrip_counterexample :
    uniqKeys (.vector (.tuple [])) = true ∧
    domain (.vector (.tuple [])) (.vec []) = true ∧
    encode (.vector (.tuple [])) (.vec []) = .ok [] ∧
    decode (.vector (.tuple [])) [] = .error .diverge := by
  refine ⟨by simp [uniqKeys, uniqList], by simp [domain, domainElems], ?_, ?_⟩
  · simp [encode, stride, strideList, encodeListFixed, setAllGo, bind,
      Except.bind]
  · simp [decode, stride, strideList]

/-- C2: the varint boundary examples hold, but the round-trip claim for
every non-negative safe integer is false in the code: 2147483648 is a
non-negative safe integer, it encodes to the five bytes
[0x80,0x80,0x80,0x80,0x08], and decoding them yields -2147483648 (the
decoder accumulates with 32-bit `|=` and `<<`), not 2147483648. -/
theorem c2_varint_roundtrip_bug :
    encodeVarInt 127 = .ok [127] ∧
    encodeVarInt 128 = .ok [128, 1] ∧
    encodeVarInt 300 = .ok [172, 2] ∧
    decodeVarInt [127] = .ok (127, 1) ∧
    decodeVarInt [128, 1] = .ok (128, 2) ∧
    decodeVarInt [172, 2] = .ok (300, 2) ∧
    (0 : Int) ≤ 2147483648 ∧ isSafeInt 2147483648 = true ∧
    encodeVarInt 2147483648 = .ok [128, 128, 128, 128, 8] ∧
    decodeVarInt [128, 128, 128, 128, 8] = .ok (-2147483648, 5) ∧
    (-2147483648 : Int) ≠ 2147483648 := by
  refine ⟨?_, ?_, ?_, by rfl, by rfl, by rfl, by norm_num, by rfl, ?_, by rfl,
    by norm_num⟩
  · rw [encodeVarInt, if_neg (by norm_num [isSafeInt])]
    rw [show (127 : Int).toNat = 127 from rfl, encodeVarIntLoop_127]
  · rw [encodeVarInt, if_neg (by norm_num [isSafeInt])]
    rw [show (128 : Int).toNat = 128 from rfl, encodeVarIntLoop_128]
  · rw [encodeVarInt, if_neg (by norm_num [isSafeInt])]
    rw [show (300 : Int).toNat = 300 from rfl, encodeVarIntLoop_300]
  · rw [encodeVarInt, if_neg (by norm_num [isSafeInt])]
    rw [show (2147483648 : Int).toNat = 2147483648 from rfl,
      encodeVarIntLoop_2p31]

/-- C3: Tuple encoding follows the spec rule exactly — children in
declaration order, fixed-stride children appended raw, variable-stride
children appended as a varint byte length followed by the bytes, at
every position including the last — and the concrete example
Tuple([u8, str]).encode([7, "hi"]) produces [0x07, 0x02, 0x68, 0x69]. -/
theorem c3_tuple_encode_refines_spec :
    (∀ (cs : List Cd) (vs : List Val),
      encode (.tuple cs) (.tup vs) = tupleEncodeSpec cs vs) ∧
    encode (.tuple [.u8, .str]) (.tup [.num 7, .str [104, 105]])
      = .ok [7, 2, 104, 105] := by
  constructor
  · intro cs vs
    rw [tupleEncodeSpec_eq_parts]
    simp [encode]
  · simp [encode, encodeTupleParts, stride, encodeVarInt, isSafeInt,
      encodeVarIntLoop_two, leBytes, wrapBits, bind, Except.bind, Except.map]

/-- C4: the fixed-stride Vector layout claim, amended at stride zero: a
fixed-stride encode of n elements is exactly n * stride bytes with no
prefix, and for a strictly positive stride a decode of any L-byte buffer
returns exactly L / stride elements, silently dropping the remainder
(for the constructible stride-zero element codecs the decoder instead
never returns — see the counterexample).  Vector(u16).encode([1, 513])
is exactly the four bytes [1, 0, 1, 2]. -/
theorem c4_vector_fixed_corrected :
    (∀ (c : Cd) (vs : List Val) (bs : List Nat), 0 ≤ stride c →
      encode (.vector c) (.vec vs) = .ok bs →
      (bs.length : Int) = vs.length * stride c) ∧
    (∀ (c : Cd) (data : List Nat), 0 < stride c →
      ∃ vs, decode (.vector c) data = .ok (.vec vs) ∧
        vs.length = data.length / (stride c).toNat) ∧
    encode (.vector .u16) (.vec [.num 1, .num 513]) = .ok [1, 0, 1, 2] := by
  refine ⟨?_, ?_, ?_⟩
  · intro c vs bs hst henc
    simp only [encode] at henc
    rw [if_pos hst] at henc
    simp only [bind, Except.bind] at henc
    cases hlf : encodeListFixed c vs with
    | error e =>
      rw [hlf] at henc
      exact absurd henc (by simp)
    | ok parts =>
      rw [hlf] at henc
      simp only [] at henc
      have hblen : bs.length = vs.length * (stride c).toNat := by
        rw [setAllGo_length henc, List.length_replicate]
      rw [hblen]
      push_cast
      rw [Int.toNat_of_nonneg hst]
  · intro c data hpos
    obtain ⟨vs, hvs, hcount⟩ := decodeVecFixed_count
      (show 1 ≤ (stride c).toNat by omega) (by omega)
      (decode_fixed_total c (le_of_lt hpos)) data 0
    refine ⟨vs, ?_, by simpa using hcount⟩
    rw [decode, if_pos (le_of_lt hpos), if_neg (by omega), hvs]
    rfl
  · simp [encode, stride, encodeListFixed, setAllGo, typedArraySet, leBytes,
      wrapBits, bind, Except.bind, List.replicate]

/-- Witness for C4: a five-byte buffer under Vector(u16) decodes to
exactly two elements. -/
theorem c4_vector_fixed_witness :
    ∃ vs, decode (.vector .u16) [1, 0, 1, 2, 9] = .ok (.vec vs) ∧
      vs.length = 2 := by
  have h := c4_vector_fixed_corrected.2.1 .u16 [1, 0, 1, 2, 9]
    (by simp [stride])
  simpa [stride] using h

/-- Counterexample to C4 as stated (s >= 0): the Tuple([]) element codec
has stride zero, and the Vector decode then never returns, rather than
producing floor(L / s) elements. -/
theorem c4_vector_fixed_counterexample :
    stride (.tuple []) = 0 ∧
    decode (.vector (.tuple [])) [] = .error .diverge := by
  constructor
  · simp [stride, strideList]
  · simp [decode, stride, strideList]

/-- C5: Enum wire indices come from the ascending sort of the variant
names and are independent of declaration order: permuted declarations
sort to the same name list (hence the same indices), encode emits the
sorted rank (modulo 256) as the first byte, and both declaration orders
of {B: u8, A: u8} give "A" first byte 0 and "B" first byte 1. -/
theorem c5_enum_sorted_index :
    (∀ vs1 vs2 : List (String × Cd), vs1.Perm vs2 →
      sortKeys vs1 = sortKeys vs2) ∧
    (∀ (vs : List (String × Cd)) (k : String) (v : Val) (bs : List Nat),
      encode (.enum vs) (.variant k v) = .ok bs →
      ∃ i, (sortKeys vs).indexOf? k = some i ∧ bs.head? = some (i % 256)) ∧
    (encode (.enum [("B", .u8), ("A", .u8)]) (.variant "A" (.num 5))
        = .ok [0, 5] ∧
      encode (.enum [("B", .u8), ("A", .u8)]) (.variant "B" (.num 5))
        = .ok [1, 5] ∧
      encode (.enum [("A", .u8), ("B", .u8)]) (.variant "A" (.num 5))
        = .ok [0, 5] ∧
      encode (.enum [("A", .u8), ("B", .u8)]) (.variant "B" (.num 5))
        = .ok [1, 5]) := by
  refine ⟨fun vs1 vs2 h => sortKeys_perm h, ?_, ?_, ?_, ?_, ?_⟩
  · intro vs k v bs henc
    simp only [encode] at henc
    split at henc
    · exact absurd henc (by simp)
    · next i hidx =>
      split at henc
      · exact absurd henc (by simp)
      · next c hcl =>
        simp only [bind, Except.bind] at henc
        cases hpart : encode c v with
        | error e =>
          rw [hpart] at henc
          exact absurd henc (by simp)
        | ok part =>
          rw [hpart] at henc
          simp only [Except.ok.injEq] at henc
          subst henc
          exact ⟨i, hidx, by simp⟩
  · have hidx : (sortKeys [("B", Cd.u8), ("A", Cd.u8)]).indexOf? "A"
        = some 0 := by decide
    have hlk : List.lookup "A" [("B", Cd.u8), ("A", Cd.u8)] = some Cd.u8 := rfl
    simp only [encode, hidx]
    split
    · next heq =>
      rw [hlk] at heq
      exact absurd heq (by simp)
    · next c heq =>
      rw [hlk] at heq
      injection heq with h2
      subst h2
      simp [encode, leBytes, wrapBits, bind, Except.bind]
  · have hidx : (sortKeys [("B", Cd.u8), ("A", Cd.u8)]).indexOf? "B"
        = some 1 := by decide
    have hlk : List.lookup "B" [("B", Cd.u8), ("A", Cd.u8)] = some Cd.u8 := rfl
    simp only [encode, hidx]
    split
    · next heq =>
      rw [hlk] at heq
      exact absurd heq (by simp)
    · next c heq =>
      rw [hlk] at heq
      injection heq with h2
      subst h2
      simp [encode, leBytes, wrapBits, bind, Except.bind]
  · have hidx : (sortKeys [("A", Cd.u8), ("B", Cd.u8)]).indexOf? "A"
        = some 0 := by decide
    have hlk : List.lookup "A" [("A", Cd.u8), ("B", Cd.u8)] = some Cd.u8 := rfl
    simp only [encode, hidx]
    split
    · next heq =>
      rw [hlk] at heq
      exact absurd heq (by simp)
    · next c heq =>
      rw [hlk] at heq
      injection heq with h2
      subst h2
      simp [encode, leBytes, wrapBits, bind, Except.bind]
  · have hidx : (sortKeys [("A", Cd.u8), ("B", Cd.u8)]).indexOf? "B"
        = some 1 := by decide
    have hlk : List.lookup "B" [("A", Cd.u8), ("B", Cd.u8)] = some Cd.u8 := rfl
    simp only [encode, hidx]
    split
    · next heq =>
      rw [hlk] at heq
      exact absurd heq (by simp)
    · next c heq =>
      rw [hlk] at heq
      injection heq with h2
      subst h2
      simp [encode, leBytes, wrapBits, bind, Except.bind]

/-- Witness for C5 at the two-variant permutation. -/
theorem c5_enum_sorted_index_witness :
    sortKeys [("B", Cd.u8), ("A", Cd.u8)]
      = sortKeys [("A", Cd.u8), ("B", Cd.u8)] :=
  c5_enum_sorted_index.1 _ _ (List.Perm.swap ("A", Cd.u8) ("B", Cd.u8) [])

/-- C6: encodeVarInt fails exactly on a negative or non-safe argument,
and over byte-valued input decodeVarInt reports truncation exactly when
the whole input is continuation bytes and is exhausted within the shift
budget (at most 7 bytes), and overflow exactly when an eighth
continuation byte pushes the accumulated shift past 53 bits. -/
theorem c6_varint_errors :
    (∀ v : Int, (∃ e, encodeVarInt v = .error e) ↔
      (v < 0 ∨ isSafeInt v = false)) ∧
    (∀ data : List Nat, (∀ b ∈ data, b < 256) →
      (decodeVarInt data = .error .truncated ↔
        data.length ≤ 7 ∧ ∀ b ∈ data, 128 ≤ b) ∧
      (decodeVarInt data = .error .overflow ↔
        8 ≤ data.length ∧ ∀ b ∈ data.take 8, 128 ≤ b)) := by
  constructor
  · intro v
    rw [encodeVarInt]
    by_cases h : v < 0 ∨ ¬ isSafeInt v = true
    · rw [if_pos h]
      constructor
      · intro _
        rcases h with h | h
        · exact Or.inl h
        · exact Or.inr (by simpa using h)
      · intro _
        exact ⟨.invalidInput, rfl⟩
    · rw [if_neg h]
      push_neg at h
      constructor
      · intro ⟨e, he⟩
        exact absurd he (by simp)
      · intro hcon
        rcases hcon with hc | hc
        · omega
        · rw [h.2] at hc
          exact absurd hc (by simp)
  · intro data hbytes
    have h := decodeVarIntLoop_class data 0 0 0 hbytes (by norm_num)
    rw [decodeVarInt]
    norm_num at h
    exact h

/-- Witness for C6: a two-byte all-continuation input is truncated, and
eight continuation bytes overflow the shift budget. -/
theorem c6_varint_errors_witness :
    decodeVarInt [128, 128] = .error .truncated ∧
    decodeVarInt [128, 128, 128, 128, 128, 128, 128, 128, 0]
      = .error .overflow := by
  constructor
  · exact ((c6_varint_errors.2 [128, 128] (by decide)).1).2
      ⟨by decide, by decide⟩
  · exact ((c6_varint_errors.2 [128, 128, 128, 128, 128, 128, 128, 128, 0]
      (by decide)).2).2 ⟨by decide, by decide⟩

/-- C7: the Enum error behaviour, amended: an unregistered tag makes
encode fail with InvalidVariant, an index byte at or beyond the variant
count makes decode fail with InvalidVariant, and an in-range index byte
selects the variant at that sorted position and decodes the remainder
with its codec.  The claimed "exactly when" directions are false: a
nested decode can itself surface InvalidVariant with an in-range first
byte (see the counterexample). -/
theorem c7_enum_errors_corrected :
    (∀ (vs : List (String × Cd)) (k : String) (v : Val),
      k ∉ vs.map Prod.fst →
      encode (.enum vs) (.variant k v) = .error .invalidVariant) ∧
    (∀ (vs : List (String × Cd)) (b : Nat) (rest : List Nat),
      (sortKeys vs).length ≤ b →
      decode (.enum vs) (b :: rest) = .error .invalidVariant) ∧
    (∀ (vs : List (String × Cd)) (b : Nat) (rest : List Nat)
      (h : b < (sortKeys vs).length) (c : Cd) (w : Val),
      vs.lookup ((sortKeys vs).get ⟨b, h⟩) = some c →
      decode c rest = .ok w →
      decode (.enum vs) (b :: rest)
        = .ok (.variant ((sortKeys vs).get ⟨b, h⟩) w)) := by
  refine ⟨?_, ?_, ?_⟩
  · intro vs k v hk
    have h1 : k ∉ sortKeys vs := fun hm => hk (mem_sortKeys.1 hm)
    have h2 : (sortKeys vs).indexOf? k = none :=
      indexOf?_eq_none_of_not_mem h1
    simp [encode, h2]
  · intro vs b rest hge
    simp only [decode]
    rw [dif_neg (by omega)]
  · intro vs b rest h c w hlk hw
    simp only [decode]
    rw [dif_pos h]
    split
    · next heq =>
      rw [hlk] at heq
      exact absurd heq (by simp)
    · next c3 heq =>
      rw [hlk] at heq
      injection heq with h2
      rw [← h2, hw]
      rfl

/-- Witness for C7 on an empty Enum: any first byte is out of range. -/
theorem c7_enum_errors_witness :
    decode (.enum []) [3] = .error .invalidVariant :=
  c7_enum_errors_corrected.2.1 [] 3 [] (by decide)

/-- Counterexample to the "exactly when" of C7: on Enum({a: Enum({})})
the first byte 0 is strictly below the variant count, yet decode fails
with InvalidVariant (the nested Enum rejects its own index byte). -/
theorem c7_enum_errors_counterexample :
    0 < (sortKeys [("a", Cd.enum [])]).length ∧
    decode (.enum [("a", .enum [])]) [0, 5] = .error .invalidVariant := by
  constructor
  · decide
  · simp [decode, sortKeys, List.insertionSort, Except.map, List.lookup]

/-- C8: field declaration order is part of the Struct wire format: the
same logical values {a: 1, b: 2} encode to different byte strings under
the field orders [a, b] and [b, a]. -/
theorem c8_struct_order_sensitive :
    encode (.struct [("a", .u8), ("b", .u16)])
      (.obj [("a", .num 1), ("b", .num 2)]) = .ok [1, 2, 0] ∧
    encode (.struct [("b", .u16), ("a", .u8)])
      (.obj [("b", .num 2), ("a", .num 1)]) = .ok [2, 0, 1] ∧
    ([1, 2, 0] : List Nat) ≠ [2, 0, 1] := by
  refine ⟨?_, ?_, by decide⟩
  · have hlk : lookupAllFields (["a", "b"]) [("a", Val.num 1), ("b", Val.num 2)]
        = some [Val.num 1, Val.num 2] := rfl
    simp [encode, hlk, encodeTupleParts, stride, leBytes, wrapBits,
      bind, Except.bind, Except.map]
  · have hlk : lookupAllFields (["b", "a"]) [("b", Val.num 2), ("a", Val.num 1)]
        = some [Val.num 2, Val.num 1] := rfl
    simp [encode, hlk, encodeTupleParts, stride, leBytes, wrapBits,
      bind, Except.bind, Except.map]

/-- C9: Tuple.decode reads only the prefix its children need and ignores
trailing bytes — amended with the same well-formedness and length side
conditions as the round-trip law, since a child whose decode never
returns (zero-stride Vector) makes the whole decode fail regardless of
the suffix (see the counterexample); Struct inherits the behaviour by
delegation. -/
theorem c9_tuple_trailing_corrected :
    (∀ (cs : List Cd) (vs : List Val) (bs suffix : List Nat),
      uniqKeys (.tuple cs) = true → vecPos (.tuple cs) = true →
      smallEnums (.tuple cs) = true → domain (.tuple cs) (.tup vs) = true →
      encode (.tuple cs) (.tup vs) = .ok bs →
      (bs ++ suffix).length < 2147483648 →
      decode (.tuple cs) (bs ++ suffix) = .ok (.tup vs)) ∧
    (∀ (fs : List (String × Cd)) (kvs : List (String × Val))
      (bs suffix : List Nat),
      uniqKeys (.struct fs) = true → vecPos (.struct fs) = true →
      smallEnums (.struct fs) = true → domain (.struct fs) (.obj kvs) = true →
      encode (.struct fs) (.obj kvs) = .ok bs →
      (bs ++ suffix).length < 2147483648 →
      decode (.struct fs) (bs ++ suffix) = .ok (.obj kvs)) := by
  constructor
  · intro cs vs bs suffix huniq hvp hse hdom henc hlen
    rw [uniqKeys] at huniq
    rw [vecPos] at hvp
    rw [smallEnums] at hse
    simp only [domain] at hdom
    simp only [encode] at henc
    obtain ⟨parts, hp, hb⟩ := except_map_ok henc
    subst hb
    have hloop := decodeTupleLoop_rt (fun c2 _ => encode_decode c2) [] suffix
      huniq hvp hse hdom hp (by simpa using hlen)
    simp only [List.nil_append, List.length_nil, Nat.cast_zero] at hloop
    rw [decode, hloop]
    rfl
  · intro fs kvs bs suffix huniq hvp hse hdom henc hlen
    rw [uniqKeys] at huniq
    simp only [Bool.and_eq_true, decide_eq_true_eq] at huniq
    rw [vecPos] at hvp
    rw [smallEnums] at hse
    simp only [domain] at hdom
    simp only [encode] at henc
    rw [lookupAllFields_canonical huniq.1 hdom] at henc
    simp only [Option.some.injEq] at henc
    obtain ⟨parts, hp, hb⟩ := except_map_ok henc
    subst hb
    have hch : ∀ c2 ∈ fs.map Prod.snd, ∀ v2 bs2, uniqKeys c2 = true →
        vecPos c2 = true → smallEnums c2 = true → domain c2 v2 = true →
        encode c2 v2 = .ok bs2 → bs2.length < 2147483648 →
        decode c2 bs2 = .ok v2 := fun c2 _ => encode_decode c2
    have hloop := decodeTupleLoop_rt hch [] suffix huniq.2 hvp hse
      (domainFields_to_domainList hdom) hp (by simpa using hlen)
    simp only [List.nil_append, List.length_nil, Nat.cast_zero] at hloop
    rw [decode, hloop]
    simp only [Except.map]
    rw [zip_keys_canonical hdom]

/-- Witness for C9: a one-byte Tuple encoding decodes identically with a
trailing byte appended. -/
theorem c9_tuple_trailing_witness :
    decode (.tuple [.bool]) [1, 7] = .ok (.tup [.bool true]) := by
  have h := c9_tuple_trailing_corrected.1 [.bool] [.bool true] [1] [7]
    (by simp [uniqKeys, uniqList]) (by simp [vecPos, vecPosList])
    (by simp [smallEnums, smallEnumsList]) (by simp [domain, domainList])
    (by simp [encode, encodeTupleParts, stride, bind, Except.bind, Except.map])
    (by norm_num)
  simpa using h

/-- Counterexample to C9 as stated: Tuple([Vector(Tuple([]))]) encodes
the domain value [[]] to the single byte [0], but decoding it (with the
empty suffix) never returns instead of succeeding. -/
theorem c9_tuple_trailing_counterexample :
    domain (.tuple [.vector (.tuple [])]) (.tup [.vec []]) = true ∧
    encode (.tuple [.vector (.tuple [])]) (.tup [.vec []]) = .ok [0] ∧
    decode (.tuple [.vector (.tuple [])]) [0] = .error .diverge := by
  refine ⟨by simp [domain, domainList, domainElems], ?_, ?_⟩
  · simp [encode, encodeTupleParts, stride, strideList, encodeListFixed,
      setAllGo, encodeVarInt, isSafeInt, encodeVarIntLoop_zero, bind,
      Except.bind, Except.map]
  · simp [decode, decodeTupleLoop, stride, strideList, decodeVarInt,
      decodeVarIntLoop, jsSubarrayFrom, jsSubarray, jsOr, jsShl, toUint32,
      toInt32, isSafeInt, bind, Except.bind, Except.map]

/-- C10: the Enum tag byte is the sorted index reduced modulo 256
(`new Uint8Array([index, ...])` truncates), so any two variants whose
sorted ranks agree modulo 256 — in particular ranks differing by 256 in
an enum of more than 256 variants — produce identical first bytes, and
decode dispatches on that single byte as the index. -/
theorem c10_enum_index_truncation :
    (∀ (vs : List (String × Cd)) (k : String) (v : Val) (bs : List Nat)
      (i : Nat),
      encode (.enum vs) (.variant k v) = .ok bs →
      (sortKeys vs).indexOf? k = some i →
      bs.head? = some (i % 256)) ∧
    (∀ (vs : List (String × Cd)) (k1 : String) (v1 : Val) (bs1 : List Nat)
      (k2 : String) (v2 : Val) (bs2 : List Nat) (i1 i2 : Nat),
      encode (.enum vs) (.variant k1 v1) = .ok bs1 →
      (sortKeys vs).indexOf? k1 = some i1 →
      encode (.enum vs) (.variant k2 v2) = .ok bs2 →
      (sortKeys vs).indexOf? k2 = some i2 →
      i1 % 256 = i2 % 256 →
      bs1.head? = bs2.head?) ∧
    (∀ (vs : List (String × Cd)) (b : Nat) (rest : List Nat),
      (sortKeys vs).length ≤ b →
      decode (.enum vs) (b :: rest) = .error .invalidVariant) := by
  have hhead : ∀ (vs : List (String × Cd)) (k : String) (v : Val)
      (bs : List Nat) (i : Nat),
      encode (.enum vs) (.variant k v) = .ok bs →
      (sortKeys vs).indexOf? k = some i →
      bs.head? = some (i % 256) := by
    intro vs k v bs i henc hidx
    simp only [encode] at henc
    split at henc
    · exact absurd henc (by simp)
    · next i2 hidx2 =>
      rw [hidx2] at hidx
      injection hidx with h2
      subst h2
      split at henc
      · exact absurd henc (by simp)
      · next c hcl =>
        simp only [bind, Except.bind] at henc
        cases hpart : encode c v with
        | error e =>
          rw [hpart] at henc
          exact absurd henc (by simp)
        | ok part =>
          rw [hpart] at henc
          simp only [Except.ok.injEq] at henc
          subst henc
          simp
  refine ⟨hhead, ?_, ?_⟩
  · intro vs k1 v1 bs1 k2 v2 bs2 i1 i2 h1 h2 h3 h4 h5
    rw [hhead vs k1 v1 bs1 i1 h1 h2, hhead vs k2 v2 bs2 i2 h3 h4, h5]
  · intro vs b rest hge
    simp only [decode]
    rw [dif_neg (by omega)]

/-- Witness for C10: two encodings with equal sorted ranks modulo 256
share their tag byte. -/
theorem c10_enum_index_truncation_witness :
    ([0, 1] : List Nat).head? = ([0, 1] : List Nat).head? := by
  have henc : encode (.enum [("a", Cd.bool)]) (.variant "a" (.bool true))
      = .ok [0, 1] := by
    have hidx : (sortKeys [("a", Cd.bool)]).indexOf? "a" = some 0 := by decide
    have hlk : List.lookup "a" [("a", Cd.bool)] = some Cd.bool := rfl
    simp only [encode, hidx]
    split
    · next heq =>
      rw [hlk] at heq
      exact absurd heq (by simp)
    · next c heq =>
      rw [hlk] at heq
      injection heq with h2
      subst h2
      simp [encode, bind, Except.bind]
  have hidx : (sortKeys [("a", Cd.bool)]).indexOf? "a" = some 0 := by decide
  exact c10_enum_index_truncation.2.1 [("a", Cd.bool)] "a" (.bool true) [0, 1]
    "a" (.bool true) [0, 1] 0 0 henc hidx henc hidx rfl

end CodecProof
